import Mathlib

/-!
# Parser combinator engine: packages `parse` and `parse/match`

A shallow embedding of the combinator engine of `src/parse/parse.go` and
`src/parse/match/match.go`, and the properties of its documented contract.

Conventions of the embedding.

* A Go `string` / `[]byte` is a `List UInt8`; a `rune` (`int32`) and a state
  offset (`int64`) are `Int`.  The sums `state.Index + int64(n)` of the matchers
  are formed after `n` bytes were read at `state.Index`, so they stay within the
  length of the source and are plain sums.  The two offsets the engine forms
  without a read before them, `state.Index + 1` in `EndOfInput` and
  `state.Index - 1` in `StartOfLine`, are reduced to the range of `int64`
  (`wrapInt64`), as the Go arithmetic does.
* The `Source` of a state is the in-memory reader that `parse.String` builds
  (`strings.NewReader`); `ReadAt` below is `(*strings.Reader).ReadAt`.
* The standard-library functions the engine calls (`utf8.FullRune`,
  `utf8.DecodeRune`, `utf8.AppendRune`, `bytes.ToUpper`, `bytes.Map`,
  `bytes.HasPrefix`, `unicode.ToUpper`) are transcribed from the Go sources.  The
  Unicode case table behind `unicode.To(unicode.UpperCase, r)` is not
  transcribed: it is the parameter `tbl` of `unicode.ToUpper`.
* A Go call that may not return (the `for` loops of `Many`, `Many1`, `Runes`,
  `Until` have no bound in the source) is a function into `Option`: `none`
  stands for a run that has not returned.  The looping constructors take the
  number of loop iterations they may perform as an extra first argument
  `fuel`; every statement about them says which `fuel` is enough.
-/


/-! ## Standard library: `unicode/utf8` -/

namespace utf8

def RuneError : Nat := 0xFFFD
def RuneSelf : Nat := 0x80
def MaxRune : Nat := 0x10FFFF
def UTFMax : Nat := 4
def surrogateMin : Nat := 0xD800
def surrogateMax : Nat := 0xDFFF

def tx : Nat := 0x80
def t2 : Nat := 0xC0
def t3 : Nat := 0xE0
def t4 : Nat := 0xF0
def maskx : Nat := 0x3F
def mask2 : Nat := 0x1F
def mask3 : Nat := 0x0F
def mask4 : Nat := 0x07
def rune1Max : Nat := 0x7F
def rune2Max : Nat := 0x7FF
def rune3Max : Nat := 0xFFFF
def locb : Nat := 0x80
def hicb : Nat := 0xBF

def xx : Nat := 0xF1
def as : Nat := 0xF0
def s1 : Nat := 0x02
def s2 : Nat := 0x13
def s3 : Nat := 0x03
def s4 : Nat := 0x23
def s5 : Nat := 0x34
def s6 : Nat := 0x04
def s7 : Nat := 0x44

/-- The table `first`: information about the first byte of a UTF-8 sequence,
row by row of the 256-entry array. -/
def first (b : Nat) : Nat :=
  if b < 0x80 then as
  else if b < 0xC2 then xx
  else if b < 0xE0 then s1
  else if b = 0xE0 then s2
  else if b < 0xED then s3
  else if b = 0xED then s4
  else if b < 0xF0 then s3
  else if b = 0xF0 then s5
  else if b < 0xF4 then s6
  else if b = 0xF4 then s7
  else xx

/-- The table `acceptRanges` as pairs `(lo, hi)`; entries 5 to 15 are the zero
value. -/
def acceptRanges (i : Nat) : Nat × Nat :=
  if i = 0 then (locb, hicb)
  else if i = 1 then (0xA0, hicb)
  else if i = 2 then (locb, 0x9F)
  else if i = 3 then (0x90, hicb)
  else if i = 4 then (locb, 0x8F)
  else (0, 0)

/-- The function `utf8.FullRune`. -/
def FullRune (p : List UInt8) : Bool :=
  let n := p.length
  if n = 0 then false
  else
    let x := first (p.getD 0 0).toNat
    if n ≥ x &&& 7 then true
    else
      let accept := acceptRanges (x >>> 4)
      if n > 1 ∧ ((p.getD 1 0).toNat < accept.1 ∨ accept.2 < (p.getD 1 0).toNat) then true
      else if n > 2 ∧ ((p.getD 2 0).toNat < locb ∨ hicb < (p.getD 2 0).toNat) then true
      else false

/-- The function `utf8.DecodeRune`, returning the rune and its width.  In the
branch `x >= as` the source builds `mask := rune(x) << 31 >> 31`, which is all
ones when bit 0 of `x` is set (`x = xx`) and zero otherwise (`x = as`), and
returns `rune(p[0])&^mask | RuneError&mask`. -/
def DecodeRune (p : List UInt8) : Nat × Nat :=
  let n := p.length
  if n < 1 then (RuneError, 0)
  else
    let p0 := (p.getD 0 0).toNat
    let x := first p0
    if x ≥ as then
      if x % 2 = 1 then (RuneError, 1) else (p0, 1)
    else
      let sz := x &&& 7
      let accept := acceptRanges (x >>> 4)
      if n < sz then (RuneError, 1)
      else
        let b1 := (p.getD 1 0).toNat
        if b1 < accept.1 ∨ accept.2 < b1 then (RuneError, 1)
        else if sz ≤ 2 then (((p0 &&& mask2) <<< 6) ||| (b1 &&& maskx), 2)
        else
          let b2 := (p.getD 2 0).toNat
          if b2 < locb ∨ hicb < b2 then (RuneError, 1)
          else if sz ≤ 3 then
            (((p0 &&& mask3) <<< 12) ||| ((b1 &&& maskx) <<< 6) ||| (b2 &&& maskx), 3)
          else
            let b3 := (p.getD 3 0).toNat
            if b3 < locb ∨ hicb < b3 then (RuneError, 1)
            else
              (((p0 &&& mask4) <<< 18) ||| ((b1 &&& maskx) <<< 12) ||| ((b2 &&& maskx) <<< 6)
                ||| (b3 &&& maskx), 4)

/-- The conversion `byte(v)` of a non-negative value: its low eight bits. -/
def byte (v : Nat) : UInt8 := UInt8.ofNat v

/-- The function `utf8.AppendRune` (with `appendRuneNonASCII`); `i` is
`uint32(r)`, and below the `MaxRune` test `r` and `i` are the same number. -/
def AppendRune (p : List UInt8) (r : Int) : List UInt8 :=
  let i := (r % 4294967296).toNat
  if i ≤ rune1Max then p ++ [byte i]
  else if i ≤ rune2Max then
    p ++ [byte (t2 ||| (i >>> 6)), byte (tx ||| (i &&& maskx))]
  else if i > MaxRune ∨ (surrogateMin ≤ i ∧ i ≤ surrogateMax) then
    p ++ [byte (t3 ||| (RuneError >>> 12)), byte (tx ||| ((RuneError >>> 6) &&& maskx)),
      byte (tx ||| (RuneError &&& maskx))]
  else if i ≤ rune3Max then
    p ++ [byte (t3 ||| (i >>> 12)), byte (tx ||| ((i >>> 6) &&& maskx)),
      byte (tx ||| (i &&& maskx))]
  else
    p ++ [byte (t4 ||| (i >>> 18)), byte (tx ||| ((i >>> 12) &&& maskx)),
      byte (tx ||| ((i >>> 6) &&& maskx)), byte (tx ||| (i &&& maskx))]

end utf8

/-! ## Standard library: `unicode`, `bytes`, `strings.Reader` -/

namespace unicode

/-- The function `unicode.ToUpper`; `tbl r` stands for the table lookup
`unicode.To(unicode.UpperCase, r)` made for `r > unicode.MaxASCII`. -/
def ToUpper (tbl : Int → Int) (r : Int) : Int :=
  if r ≤ 0x7F then
    if 97 ≤ r ∧ r ≤ 122 then r - 32 else r
  else tbl r

end unicode

namespace bytes

/-- The function `bytes.HasPrefix`. -/
def HasPrefix (s pre : List UInt8) : Bool :=
  decide (s.length ≥ pre.length) && (s.take pre.length == pre)

/-- The `for i := 0; i < len(s);` loop of `bytes.Map` on the bytes still to be
read; `i` grows by `wid ≥ 1` in every round, so `len(s)` rounds are enough and
`Map` below starts the loop with that many. -/
def Map.loop (mapping : Int → Int) : Nat → List UInt8 → List UInt8 → List UInt8
  | 0, _, b => b
  | _ + 1, [], b => b
  | fuel + 1, c :: cs, b =>
    let rw : Nat × Nat :=
      if c.toNat ≥ utf8.RuneSelf then utf8.DecodeRune (c :: cs) else (c.toNat, 1)
    let r := mapping (Int.ofNat rw.1)
    let b1 := if r ≥ 0 then utf8.AppendRune b r else b
    Map.loop mapping fuel ((c :: cs).drop rw.2) b1

/-- The function `bytes.Map`. -/
def Map (mapping : Int → Int) (s : List UInt8) : List UInt8 :=
  Map.loop mapping s.length s []

/-- The function `bytes.ToUpper`: a byte-wise pass when every byte is ASCII,
`Map(unicode.ToUpper, s)` otherwise. -/
def ToUpper (tbl : Int → Int) (s : List UInt8) : List UInt8 :=
  let isASCII := s.all fun c => c.toNat < utf8.RuneSelf
  let hasLower := s.any fun c => 97 ≤ c.toNat ∧ c.toNat ≤ 122
  if isASCII then
    if !hasLower then s
    else s.map fun c => if 97 ≤ c.toNat ∧ c.toNat ≤ 122 then c - 32 else c
  else Map (unicode.ToUpper tbl) s

/-- The function `bytes.Count(s, sep)` for a separator `sep` of the one byte `c`
(the engine only counts `"\n"`): the occurrences of `c` in `s`. -/
def Count (s : List UInt8) (c : UInt8) : Nat :=
  s.count c

/-- The function `bytes.LastIndex(s, sep)` for a separator `sep` of the one byte
`c`: the index of the last `c` in `s`, and `-1` when there is none. -/
def LastIndex : List UInt8 → UInt8 → Int
  | [], _ => -1
  | x :: xs, c =>
    if LastIndex xs c ≥ 0 then LastIndex xs c + 1
    else if x = c then 0 else -1

end bytes

namespace parse

/-! ## Payloads, errors, states -/

/-- The `interface{}` payloads the engine produces: the nil interface, a `rune`,
a `string`, a `[]rune`, a `[]interface{}`, and the `int` that `ApplyN` and `RuneN`
put into their error text. -/
inductive Value where
  | nil : Value
  | rune : Int → Value
  | str : List UInt8 → Value
  | runes : List Int → Value
  | list : List Value → Value
  | int : Int → Value

/-- The test `v == nil` on an `interface{}`: only the nil interface passes; a
slice without entries held in an interface does not. -/
def Value.isNil : Value → Bool
  | Value.nil => true
  | _ => false

/-- Go `error` values met by the engine: the sentinel `io.EOF`, the error of
`strings.Reader.ReadAt` at a negative offset, `errors.New text`, and
`fmt.Errorf format arg` (kept unformatted).  A Go variable of type `error` is an
`Option Error`, `none` being `nil`. -/
inductive Error where
  | EOF : Error
  | negativeOffset : Error
  | New : String → Error
  | Errorf : String → Value → Error

/-- The test `err == io.EOF`. -/
def Error.isEOF : Option Error → Bool
  | some Error.EOF => true
  | _ => false

/-- The value of an `int64` sum or difference whose exact result is `x`: `x`
reduced into `[-2^63, 2^63)`, as Go integer arithmetic wraps around. -/
def wrapInt64 (x : Int) : Int :=
  (x + 9223372036854775808) % 18446744073709551616 - 9223372036854775808

/-- The method `(*strings.Reader).ReadAt` on a fresh buffer `make([]byte, n)`:
the buffer after the call, the count of bytes copied, and the error. -/
def ReadAt (s : List UInt8) (n : Nat) (off : Int) : List UInt8 × Nat × Option Error :=
  if off < 0 then (List.replicate n 0, 0, some Error.negativeOffset)
  else if off ≥ (s.length : Int) then (List.replicate n 0, 0, some Error.EOF)
  else
    let copied := (s.drop off.toNat).take n
    (copied ++ List.replicate (n - copied.length) 0, copied.length,
      if copied.length < n then some Error.EOF else none)

/-- The struct `parse.State`. -/
structure State where
  Result : Value
  Index : Int
  Source : List UInt8
  IsError : Bool
  Err : Option Error

namespace State

/-- The method `State.WithResult`. -/
def WithResult (state : State) (Result : Value) (Index : Int) : State :=
  { Result := Result
    Index := Index
    Source := state.Source
    IsError := state.IsError
    Err := state.Err }

/-- The method `State.WithError`. -/
def WithError (state : State) (err : Option Error) : State :=
  { Result := state.Result
    Index := state.Index
    Source := state.Source
    IsError := true
    Err := err }

/-- The method `State.ReadNextBytes`. -/
def ReadNextBytes (state : State) (n : Nat) : List UInt8 × Nat × Option Error :=
  ReadAt state.Source n state.Index

/-- The `for` loop of `State.ReadNextRune`, entered with `byteCount`: the last
buffer read and the error of the read.  The loop ends after at most
`utf8.UTFMax` rounds (`ReadNextRune_returns`). -/
def ReadNextRune.loop (state : State) : Nat → Nat → Option (List UInt8 × Option Error)
  | 0, _ => none
  | fuel + 1, byteCount =>
    match state.ReadNextBytes byteCount with
    | (buff, _, some err) => some (buff, some err)
    | (buff, _, none) =>
      if utf8.FullRune buff then some (buff, none)
      else ReadNextRune.loop state fuel (byteCount + 1)

/-- The method `State.ReadNextRune`. -/
def ReadNextRune (state : State) : Option (Int × Nat × Option Error) :=
  match ReadNextRune.loop state utf8.UTFMax 1 with
  | none => none
  | some (_, some err) => some (0, 0, some err)
  | some (buff, none) =>
    some (Int.ofNat (utf8.DecodeRune buff).1, (utf8.DecodeRune buff).2, none)

/-- The method `State.LineOffset`: the line, the offset in the line and the
error of the read.  `make([]byte, state.Index)` panics for a negative `Index`;
that run is `none`. -/
def LineOffset (state : State) : Option (Int × Int × Option Error) :=
  if state.Index < 0 then none
  else
    match ReadAt state.Source state.Index.toNat 0 with
    | (buff, n, err) =>
      if n > 0 then
        some (Int.ofNat (bytes.Count (buff.take n) 10),
          Int.ofNat n - bytes.LastIndex (buff.take n) 10, err)
      else some (0, 0, err)

end State

/-- The Go interface `parse.Parser`: any value with a `Run` method.  `none` is a
run that does not return. -/
structure Parser where
  Run : State → Option State

/-- The type `parse.Func` with its method `Run`: a failed state is handed back
untouched, any other state goes to the wrapped function. -/
def Func (fn : State → Option State) : Parser :=
  ⟨fun state => if state.IsError then some state else fn state⟩

/-! ## `parse`: the combinators -/

/-- The `for _, p := range rest` loop of `ChoiceOf`. -/
def ChoiceOf.loop (state : State) : List Parser → Option State
  | [] => some (state.WithError (some (Error.New "did not match any choice")))
  | p :: rest =>
    match p.Run state with
    | none => none
    | some next => if !next.IsError then some next else ChoiceOf.loop state rest

/-- The combinator `parse.ChoiceOf`. -/
def ChoiceOf (parser1 : Parser) (rest : List Parser) : Parser :=
  Func fun state =>
    match parser1.Run state with
    | none => none
    | some next => if !next.IsError then some next else ChoiceOf.loop state rest

/-- The `for _, p := range rest` loop of `SequenceOf`, with the loop variables
`next` and `results`. -/
def SequenceOf.loop (state : State) : List Parser → State → List Value → Option State
  | [], next, results => some (state.WithResult (Value.list results) next.Index)
  | p :: rest, next, results =>
    match p.Run next with
    | none => none
    | some next1 =>
      if next1.IsError then some (state.WithError next1.Err)
      else SequenceOf.loop state rest next1 (results ++ [next1.Result])

/-- The combinator `parse.SequenceOf`. -/
def SequenceOf (parser1 : Parser) (rest : List Parser) : Parser :=
  Func fun state =>
    match parser1.Run state with
    | none => none
    | some next =>
      if next.IsError then some next
      else SequenceOf.loop state rest next [next.Result]

/-- The combinator `parse.Chain`. -/
def Chain (parser : Parser) (fn : Value → Parser) : Parser :=
  Func fun state =>
    match parser.Run state with
    | none => none
    | some nextState =>
      if nextState.IsError then some nextState
      else (fn nextState.Result).Run nextState

/-- The `for` loop of `Many` (and of `Many1`, which repeats it verbatim), with
the loop variables `state` and `results`; it returns both when `parser` fails. -/
def Many.loop (parser : Parser) : Nat → State → List Value → Option (State × List Value)
  | 0, _, _ => none
  | fuel + 1, state, results =>
    match parser.Run state with
    | none => none
    | some next =>
      if next.IsError then some (state, results)
      else Many.loop parser fuel next (results ++ [next.Result])

/-- The combinator `parse.Many`. -/
def Many (fuel : Nat) (parser : Parser) : Parser :=
  Func fun state =>
    match Many.loop parser fuel state [] with
    | none => none
    | some (state1, results) => some (state1.WithResult (Value.list results) state1.Index)

/-- The combinator `parse.Many1`. -/
def Many1 (fuel : Nat) (parser : Parser) : Parser :=
  Func fun state =>
    match Many.loop parser fuel state [] with
    | none => none
    | some (state1, results) =>
      if results.length ≥ 1 then
        some (state1.WithResult (Value.list results) state1.Index)
      else some (state1.WithError (some (Error.New "failed to match at least once")))

/-- The `for i := 0; i < n; i++` loop of `ApplyN`, with the rounds left, and the
loop variables `next` and `results`. -/
def ApplyN.loop (n : Int) (parser : Parser) (state : State) :
    Nat → State → List Value → Option State
  | 0, next, results => some (state.WithResult (Value.list results) next.Index)
  | i + 1, next, results =>
    match parser.Run next with
    | none => none
    | some next1 =>
      if next1.IsError then
        some (state.WithError (some (Error.Errorf "failed to match %v times" (Value.int n))))
      else ApplyN.loop n parser state i next1 (results ++ [next1.Result])

/-- The combinator `parse.ApplyN`; for `n ≤ 0` the loop body never runs. -/
def ApplyN (n : Int) (parser : Parser) : Parser :=
  Func fun state => ApplyN.loop n parser state n.toNat state []

/-- The combinator `parse.MapIndex`. -/
def MapIndex (parser : Parser) (fn : Value → Int → Value) : Parser :=
  Func fun state =>
    match parser.Run state with
    | none => none
    | some nextState =>
      if nextState.IsError then some nextState
      else some (nextState.WithResult (fn nextState.Result state.Index) nextState.Index)

/-- The combinator `parse.Map`. -/
def Map (parser : Parser) (fn : Value → Value) : Parser :=
  Func fun state =>
    match parser.Run state with
    | none => none
    | some nextState =>
      if nextState.IsError then some nextState
      else some (nextState.WithResult (fn nextState.Result) nextState.Index)

/-- The combinator `parse.MapError`. -/
def MapError (parser : Parser) (fn : State → Option Error) : Parser :=
  Func fun state =>
    match parser.Run state with
    | none => none
    | some nextState =>
      if !nextState.IsError then some nextState
      else some (nextState.WithError (fn nextState))

/-- The combinator `parse.Discard`. -/
def Discard (parser : Parser) : Parser :=
  Map parser fun _ => Value.nil

/-- The combinator `parse.Between`, `Between(left, right)(content)`. -/
def Between (left right content : Parser) : Parser :=
  Map (SequenceOf left [content, right]) fun r =>
    match r with
    | Value.list results => if results.length < 2 then r else results.getD 1 Value.nil
    | _ => r

/-- The combinator `parse.Optional`. -/
def Optional (parser : Parser) : Parser :=
  Func fun state =>
    match parser.Run state with
    | none => none
    | some next => if next.IsError then some state else some next

/-- The combinator `parse.Peek`. -/
def Peek (parser : Parser) : Parser :=
  Func fun state =>
    match parser.Run state with
    | none => none
    | some next =>
      if next.IsError then some (state.WithError (some (Error.New "would not match")))
      else some state

/-- The `for _, p := range rest` loop of `SequenceOfNoNil`. -/
def SequenceOfNoNil.loop (state : State) : List Parser → State → List Value → Option State
  | [], next, results => some (state.WithResult (Value.list results) next.Index)
  | p :: rest, next, results =>
    match p.Run next with
    | none => none
    | some next1 =>
      if next1.IsError then some (state.WithError next1.Err)
      else if next1.Result.isNil then SequenceOfNoNil.loop state rest next1 results
      else SequenceOfNoNil.loop state rest next1 (results ++ [next1.Result])

/-- The combinator `parse.SequenceOfNoNil`. -/
def SequenceOfNoNil (parser1 : Parser) (rest : List Parser) : Parser :=
  Func fun state =>
    match parser1.Run state with
    | none => none
    | some next =>
      if next.IsError then some next
      else
        SequenceOfNoNil.loop state rest next
          (if !next.Result.isNil then [next.Result] else [])

/-- The assertion `parse.StartOfInput`. -/
def StartOfInput : Parser :=
  Func fun state =>
    if state.Index ≠ 0 then some (state.WithError (some (Error.New "expected start of input")))
    else some state

/-- The assertion `parse.EndOfInput`; `state.Index+1` is an `int64` sum. -/
def EndOfInput : Parser :=
  Func fun state =>
    match ReadAt state.Source 1 (wrapInt64 (state.Index + 1)) with
    | (_, _, err) =>
      if !Error.isEOF err then
        some (state.WithError (some (Error.New "expected end of input")))
      else some state

/-- The assertion `parse.StartOfLine` (its `log.Printf` left out); `state.Index-1`
is an `int64` difference. -/
def StartOfLine : Parser :=
  Func fun state =>
    if state.Index = 0 then some state
    else
      match ReadAt state.Source 1 (wrapInt64 (state.Index - 1)) with
      | (buff, _, err) =>
        if err.isSome || buff.getD 0 0 ≠ 10 then
          some (state.WithError (some (Error.New "expected start of line")))
        else some state

/-- The helper `parse.String`: run `parser` on the text `s` from offset 0. -/
def String (parser : Parser) (s : List UInt8) : Option State :=
  parser.Run { Result := Value.nil, Index := 0, Source := s, IsError := false, Err := none }

end parse

/-! ## `parse/match`: the primitive matchers -/

namespace Match

open parse

/-- The matcher `match.Rune`. -/
def Rune (fn : Int → Bool) (errVal : Option Error) : Parser :=
  Func fun state =>
    match state.ReadNextRune with
    | none => none
    | some (r, n, err) =>
      if err.isSome || !fn r then some (state.WithError errVal)
      else some (state.WithResult (Value.rune r) (state.Index + n))

/-- The `for` loop of `match.Runes`, with the loop variables `cstate` and
`runesRead`. -/
def Runes.loop (fn : Int → Bool) (errVal : Option Error) (state : State) :
    Nat → State → List Int → Option State
  | 0, _, _ => none
  | fuel + 1, cstate, runesRead =>
    match cstate.ReadNextRune with
    | none => none
    | some (r, n, err) =>
      if err.isSome || !fn r then
        if runesRead.length ≥ 1 then
          some (state.WithResult (Value.runes runesRead) cstate.Index)
        else some (state.WithError errVal)
      else
        Runes.loop fn errVal state fuel { cstate with Index := cstate.Index + n }
          (runesRead ++ [r])

/-- The matcher `match.Runes`. -/
def Runes (fuel : Nat) (fn : Int → Bool) (errVal : Option Error) : Parser :=
  Func fun state => Runes.loop fn errVal state fuel state []

/-- The matcher `match.AnyRune`. -/
def AnyRune : Parser :=
  Rune (fun _ => true) (some (Error.New "unable to match letter"))

/-- The matcher `match.Digit`; `isDigit` is `unicode.IsDigit`. -/
def Digit (isDigit : Int → Bool) : Parser :=
  Func fun state =>
    match state.ReadNextRune with
    | none => none
    | some (r, n, err) =>
      if err.isSome || !isDigit r then
        some (state.WithError (some (Error.New "unable to match letter")))
      else some (state.WithResult (Value.rune r) (state.Index + n))

/-- The matcher `match.Letter`; `isLetter` is `unicode.IsLetter`. -/
def Letter (isLetter : Int → Bool) : Parser :=
  Rune isLetter (some (Error.New "unable to match letter"))

/-- The matcher `match.Letters`; `string(result)` writes every rune in UTF-8. -/
def Letters (fuel : Nat) (isLetter : Int → Bool) : Parser :=
  Map (Runes fuel isLetter (some (Error.New "failed to match any letters"))) fun r =>
    match r with
    | Value.runes result => Value.str (result.foldl utf8.AppendRune [])
    | _ => r

/-- The matcher `match.Space`; `isSpace` is `unicode.IsSpace`. -/
def Space (isSpace : Int → Bool) : Parser :=
  Rune isSpace (some (Error.New "unable to match a space"))

/-- The `for i := 0; i < n; i++` loop of `RuneN`, with the rounds left, and the
loop variables `cstate` and `results` (the entries filled so far). -/
def RuneN.loop (n : Int) (state : State) : Nat → State → List Int → Option State
  | 0, cstate, results => some (state.WithResult (Value.runes results) cstate.Index)
  | i + 1, cstate, results =>
    match cstate.ReadNextRune with
    | none => none
    | some (r, nn, err) =>
      if err.isSome then
        some (state.WithError (some (Error.Errorf "unable to match %v runes" (Value.int n))))
      else RuneN.loop n state i { cstate with Index := cstate.Index + nn } (results ++ [r])

/-- The matcher `match.RuneN`.  `make([]rune, n)` panics for a negative `n`; that
run is `none`. -/
def RuneN (n : Int) : Parser :=
  Func fun state =>
    if n < 0 then none else RuneN.loop n state n.toNat state []

/-- The `for` loop of `match.Until`, with the loop variables `cstate` and
`results`. -/
def Until.loop (endp body : Parser) : Nat → State → List Value → Option State
  | 0, _, _ => none
  | fuel + 1, cstate, results =>
    match endp.Run cstate with
    | none => none
    | some nextState =>
      if !nextState.IsError then some (cstate.WithResult (Value.list results) cstate.Index)
      else
        match body.Run cstate with
        | none => none
        | some cstate1 =>
          if cstate1.IsError then some nextState
          else Until.loop endp body fuel cstate1 (results ++ [cstate1.Result])

/-- The matcher `match.Until`, `Until(end)(body)`; `endp` is the parameter `end`. -/
def Until (fuel : Nat) (endp body : Parser) : Parser :=
  Func fun state => Until.loop endp body fuel state []

/-- The matcher `match.String`; `matchBytes := []byte(match)` is `lit` itself. -/
def String (lit : List UInt8) : Parser :=
  Func fun state =>
    match state.ReadNextBytes lit.length with
    | (buff, n, err) =>
      if err.isSome then
        some (state.WithError (some (Error.Errorf "unable to match %v" (Value.str lit))))
      else if !bytes.HasPrefix lit buff then
        some (state.WithError (some (Error.Errorf "unable to match %v" (Value.str lit))))
      else some (state.WithResult (Value.str lit) (state.Index + n))

/-- The matcher `match.StringInsensitive`; `tbl` is the Unicode upper-case
table of `unicode.ToUpper`. -/
def StringInsensitive (tbl : Int → Int) (lit : List UInt8) : Parser :=
  let matchBytes := bytes.ToUpper tbl lit
  Func fun state =>
    match state.ReadNextBytes matchBytes.length with
    | (buff, n, err) =>
      if err.isSome then
        some (state.WithError (some (Error.Errorf "unable to match %v" (Value.str lit))))
      else if !bytes.HasPrefix matchBytes (bytes.ToUpper tbl buff) then
        some (state.WithError (some (Error.Errorf "unable to match %v" (Value.str lit))))
      else some (state.WithResult (Value.str lit) (state.Index + n))

end Match

/-! ## Vocabulary of the statements -/

namespace parse

/-- `SucceedInTurn ps s ss`: run one after another from `s`, each on the state
the one before it returned, the parsers `ps` all return a non-failed state, and
`ss` lists these states in order. -/
def SucceedInTurn : List Parser → State → List State → Prop
  | [], _, [] => True
  | p :: ps, s, t :: ts => p.Run s = some t ∧ t.IsError = false ∧ SucceedInTurn ps t ts
  | _, _, _ => False

/-- The state a chain of successes `ss` started from `s` has reached: the last
entry of `ss`, and `s` itself when `ss` is empty. -/
def reached (s : State) : List State → State
  | [] => s
  | t :: ts => reached t ts

/-- `Visits parser s t`: the loop of `Many parser`, entered at `s`, comes to `t`:
`t` is `s` itself or the state some chain of successes of `parser` from `s` has
reached. -/
def Visits (parser : Parser) (s t : State) : Prop :=
  ∃ ss, SucceedInTurn (List.replicate ss.length parser) s ss ∧ reached s ss = t

/-- `Readable s n off`: `off` is an offset inside the source `s` and `n` bytes
are there from `off` on, so that `ReadAt s n off` fills its buffer. -/
def Readable (s : List UInt8) (n : Nat) (off : Int) : Prop :=
  0 ≤ off ∧ off < (s.length : Int) ∧ off.toNat + n ≤ s.length

instance Readable.decidable (s : List UInt8) (n : Nat) (off : Int) :
    Decidable (Readable s n off) :=
  inferInstanceAs (Decidable (0 ≤ off ∧ off < (s.length : Int) ∧ off.toNat + n ≤ s.length))

/-- `ReadsRun fn st run`: starting at the offset of `st`, the source yields the
runes of `run` one after another, each entry being a rune with the count of
source bytes it was read from, and every one of them satisfies `fn`. -/
def ReadsRun (fn : Int → Bool) : State → List (Int × Nat) → Prop
  | _, [] => True
  | st, (r, n) :: rest =>
    st.ReadNextRune = some (r, n, none) ∧ fn r = true ∧
      ReadsRun fn { st with Index := st.Index + n } rest

/-- A Unicode scalar value: a code point up to U+10FFFF outside the surrogate
range, the runes that have a UTF-8 encoding of their own. -/
def ValidRune (r : Int) : Prop :=
  0 ≤ r ∧ r ≤ 0x10FFFF ∧ ¬ (0xD800 ≤ r ∧ r ≤ 0xDFFF)

instance ValidRune.decidable (r : Int) : Decidable (ValidRune r) :=
  inferInstanceAs (Decidable (0 ≤ r ∧ r ≤ 0x10FFFF ∧ ¬ (0xD800 ≤ r ∧ r ≤ 0xDFFF)))

/-- `EncodedAt st r`: the offset of `st` is not negative and the source bytes from
that offset on begin with the UTF-8 encoding of the scalar value `r`, as
`utf8.AppendRune` writes it. -/
def EncodedAt (st : State) (r : Int) : Prop :=
  ValidRune r ∧ 0 ≤ st.Index ∧ utf8.AppendRune [] r <+: st.Source.drop st.Index.toNat

/-- `CutOffAt st`: the source bytes from the offset of `st` on, none at all
included, are only a proper beginning of the UTF-8 encoding of a scalar value: the
source ends before a rune is complete. -/
def CutOffAt (st : State) : Prop :=
  ∃ v, ValidRune v ∧ st.Source.drop st.Index.toNat <+: utf8.AppendRune [] v ∧
    (st.Source.drop st.Index.toNat).length < (utf8.AppendRune [] v).length

/-- ASCII upper-casing of one byte: a lower-case ASCII letter becomes its
upper-case form, any other byte stays. -/
def asciiUpper (c : UInt8) : UInt8 :=
  if 97 ≤ c.toNat ∧ c.toNat ≤ 122 then c - 32 else c

/-- Two byte strings are the same up to ASCII letter case. -/
def EqualUpToCase (a b : List UInt8) : Prop :=
  a.map asciiUpper = b.map asciiUpper

instance EqualUpToCase.decidable (a b : List UInt8) : Decidable (EqualUpToCase a b) :=
  inferInstanceAs (Decidable (a.map asciiUpper = b.map asciiUpper))

/-- Every byte of `s` is ASCII. -/
def IsASCII (s : List UInt8) : Prop := ∀ c ∈ s, c.toNat < 0x80

instance IsASCII.decidable (s : List UInt8) : Decidable (IsASCII s) :=
  inferInstanceAs (Decidable (∀ c ∈ s, c.toNat < 0x80))

/-- The state `parse.String` starts a parser from: offset 0 of the text `src`,
no result, no error. -/
def start (src : List UInt8) : State :=
  { Result := Value.nil, Index := 0, Source := src, IsError := false, Err := none }

/-- A rune predicate for the examples: the ASCII space. -/
def isBlank (r : Int) : Bool := r == 32

/-- Two entries of the Unicode upper-case table, for the examples: U+0131
(dotless i) has the upper-case form U+0049, and a rune without an upper-case
form, such as U+FFFD, is mapped to itself. -/
def upperCaseSample (r : Int) : Int :=
  if r = 0x131 then 0x49 else r

/-- `UntilSteps endp body s ss`: from `s` on, round after round, `endp` fails on
the current state and `body` then succeeds on it; `ss` lists the states the
successive runs of `body` returned. -/
def UntilSteps (endp body : Parser) : State → List State → Prop
  | _, [] => True
  | s, t :: ts =>
    (∃ e, endp.Run s = some e ∧ e.IsError = true) ∧ body.Run s = some t ∧ t.IsError = false ∧
      UntilSteps endp body t ts

/-- The parsers that the constructors of the engine return, for arguments of any
kind: every one of them is a `parse.Func`. -/
inductive Built : Parser → Prop
  | applyN (n : Int) (p : Parser) : Built (ApplyN n p)
  | between (l r c : Parser) : Built (Between l r c)
  | chain (p : Parser) (fn : Value → Parser) : Built (Chain p fn)
  | choiceOf (p : Parser) (rest : List Parser) : Built (ChoiceOf p rest)
  | mapIndex (p : Parser) (fn : Value → Int → Value) : Built (MapIndex p fn)
  | map (p : Parser) (fn : Value → Value) : Built (Map p fn)
  | mapError (p : Parser) (fn : State → Option Error) : Built (MapError p fn)
  | discard (p : Parser) : Built (Discard p)
  | many (fuel : Nat) (p : Parser) : Built (Many fuel p)
  | many1 (fuel : Nat) (p : Parser) : Built (Many1 fuel p)
  | optional (p : Parser) : Built (Optional p)
  | peek (p : Parser) : Built (Peek p)
  | sequenceOf (p : Parser) (rest : List Parser) : Built (SequenceOf p rest)
  | sequenceOfNoNil (p : Parser) (rest : List Parser) : Built (SequenceOfNoNil p rest)
  | startOfInput : Built StartOfInput
  | endOfInput : Built EndOfInput
  | startOfLine : Built StartOfLine
  | anyRune : Built Match.AnyRune
  | digit (isDigit : Int → Bool) : Built (Match.Digit isDigit)
  | letter (isLetter : Int → Bool) : Built (Match.Letter isLetter)
  | letters (fuel : Nat) (isLetter : Int → Bool) : Built (Match.Letters fuel isLetter)
  | rune (fn : Int → Bool) (errVal : Option Error) : Built (Match.Rune fn errVal)
  | runeN (n : Int) : Built (Match.RuneN n)
  | runes (fuel : Nat) (fn : Int → Bool) (errVal : Option Error) :
      Built (Match.Runes fuel fn errVal)
  | space (isSpace : Int → Bool) : Built (Match.Space isSpace)
  | string (lit : List UInt8) : Built (Match.String lit)
  | stringInsensitive (tbl : Int → Int) (lit : List UInt8) :
      Built (Match.StringInsensitive tbl lit)
  | untilEnd (fuel : Nat) (endp body : Parser) : Built (Match.Until fuel endp body)

/-- `Advances P`: whenever `P`, run on a non-failed state, returns a non-failed
state, the `Index` of that state is not below the `Index` it was given. -/
def Advances (P : Parser) : Prop :=
  ∀ s t, s.IsError = false → P.Run s = some t → t.IsError = false → s.Index ≤ t.Index

/-- The list of results without its nil entries, the other entries in their
order. -/
def dropNil (vs : List Value) : List Value :=
  vs.filter fun v => !v.isNil

end parse


/-! ## Standard library: facts about `unicode/utf8` -/

namespace utf8

/-- A value below `2 ^ i` is or-ed into a multiple of `2 ^ i` by addition. -/
theorem lor_eq_add (k c i : Nat) (hk : 2 ^ i ∣ k) (hc : c < 2 ^ i) : k ||| c = k + c := by
  obtain ⟨m, rfl⟩ := hk
  exact (Nat.mul_add_lt_is_or hc m).symm

/-- Masking with `2 ^ i - 1` keeps the remainder modulo `2 ^ i`. -/
theorem and_mask (v i : Nat) (m : Nat) (hm : m = 2 ^ i - 1) : v &&& m = v % 2 ^ i := by
  subst hm
  exact Nat.and_pow_two_sub_one_eq_mod v i

/-- The rune of a two-byte sequence, in arithmetic. -/
theorem rune2_eq (p0 b1 : Nat) :
    ((p0 &&& mask2) <<< 6) ||| (b1 &&& maskx) = (p0 % 32) * 64 + b1 % 64 := by
  rw [and_mask p0 5 mask2 (by decide), and_mask b1 6 maskx (by decide), Nat.shiftLeft_eq]
  exact lor_eq_add _ _ 6 (Dvd.intro_left _ rfl) (Nat.mod_lt _ (by decide))

/-- The rune of a three-byte sequence, in arithmetic. -/
theorem rune3_eq (p0 b1 b2 : Nat) :
    ((p0 &&& mask3) <<< 12) ||| ((b1 &&& maskx) <<< 6) ||| (b2 &&& maskx) =
      (p0 % 16) * 4096 + (b1 % 64) * 64 + b2 % 64 := by
  rw [and_mask p0 4 mask3 (by decide), and_mask b1 6 maskx (by decide),
    and_mask b2 6 maskx (by decide), Nat.shiftLeft_eq, Nat.shiftLeft_eq]
  have h1 : b1 % 2 ^ 6 < 64 := Nat.mod_lt _ (by decide)
  have h2 : b2 % 2 ^ 6 < 64 := Nat.mod_lt _ (by decide)
  rw [lor_eq_add (p0 % 2 ^ 4 * 2 ^ 12) (b1 % 2 ^ 6 * 2 ^ 6) 12 (Dvd.intro_left _ rfl) (by omega)]
  rw [lor_eq_add _ (b2 % 2 ^ 6) 6 ⟨p0 % 2 ^ 4 * 64 + b1 % 2 ^ 6, by ring⟩ h2]
  norm_num

/-- The rune of a four-byte sequence, in arithmetic. -/
theorem rune4_eq (p0 b1 b2 b3 : Nat) :
    ((p0 &&& mask4) <<< 18) ||| ((b1 &&& maskx) <<< 12) ||| ((b2 &&& maskx) <<< 6)
        ||| (b3 &&& maskx) =
      (p0 % 8) * 262144 + (b1 % 64) * 4096 + (b2 % 64) * 64 + b3 % 64 := by
  rw [and_mask p0 3 mask4 (by decide), and_mask b1 6 maskx (by decide),
    and_mask b2 6 maskx (by decide), and_mask b3 6 maskx (by decide),
    Nat.shiftLeft_eq, Nat.shiftLeft_eq, Nat.shiftLeft_eq]
  have h1 : b1 % 2 ^ 6 < 64 := Nat.mod_lt _ (by decide)
  have h2 : b2 % 2 ^ 6 < 64 := Nat.mod_lt _ (by decide)
  have h3 : b3 % 2 ^ 6 < 64 := Nat.mod_lt _ (by decide)
  rw [lor_eq_add (p0 % 2 ^ 3 * 2 ^ 18) (b1 % 2 ^ 6 * 2 ^ 12) 18 (Dvd.intro_left _ rfl) (by omega)]
  rw [lor_eq_add _ (b2 % 2 ^ 6 * 2 ^ 6) 12 ⟨p0 % 2 ^ 3 * 64 + b1 % 2 ^ 6, by ring⟩ (by omega)]
  rw [lor_eq_add _ (b3 % 2 ^ 6) 6
    ⟨p0 % 2 ^ 3 * 4096 + b1 % 2 ^ 6 * 64 + b2 % 2 ^ 6, by ring⟩ h3]
  norm_num

/-- The count of bytes `AppendRune` writes for a rune. -/
theorem AppendRune_length (r : Nat) (hr : r < 4294967296) :
    (AppendRune [] (r : Int)).length =
      if r ≤ 0x7F then 1 else if r ≤ 0x7FF then 2
      else if r > 0x10FFFF ∨ (0xD800 ≤ r ∧ r ≤ 0xDFFF) then 3
      else if r ≤ 0xFFFF then 3 else 4 := by
  have hi : ((r : Int) % 4294967296).toNat = r := by omega
  unfold AppendRune
  simp only [hi, rune1Max, rune2Max, rune3Max, MaxRune, surrogateMin, surrogateMax]
  split_ifs <;> simp



/-- The value `first b` for a byte, by the rows of the table. -/
theorem first_cases (b : Nat) :
    (b < 0x80 ∧ first b = as) ∨ ((0x80 ≤ b ∧ b < 0xC2 ∨ 0xF4 < b) ∧ first b = xx) ∨
    (0xC2 ≤ b ∧ b < 0xE0 ∧ first b = s1) ∨ (b = 0xE0 ∧ first b = s2) ∨
    ((0xE1 ≤ b ∧ b < 0xED ∨ b = 0xEE ∨ b = 0xEF) ∧ first b = s3) ∨ (b = 0xED ∧ first b = s4) ∨
    (b = 0xF0 ∧ first b = s5) ∨ (0xF1 ≤ b ∧ b < 0xF4 ∧ first b = s6) ∨
    (b = 0xF4 ∧ first b = s7) := by
  simp only [first, as, xx, s1, s2, s3, s4, s5, s6, s7]
  split_ifs <;> simp <;> omega

/-- The size and accept-range index packed into each value of `first`. -/
theorem first_info :
    (¬ s1 ≥ as ∧ s1 &&& 7 = 2 ∧ s1 >>> 4 = 0) ∧ (¬ s2 ≥ as ∧ s2 &&& 7 = 3 ∧ s2 >>> 4 = 1) ∧
    (¬ s3 ≥ as ∧ s3 &&& 7 = 3 ∧ s3 >>> 4 = 0) ∧ (¬ s4 ≥ as ∧ s4 &&& 7 = 3 ∧ s4 >>> 4 = 2) ∧
    (¬ s5 ≥ as ∧ s5 &&& 7 = 4 ∧ s5 >>> 4 = 3) ∧ (¬ s6 ≥ as ∧ s6 &&& 7 = 4 ∧ s6 >>> 4 = 0) ∧
    (¬ s7 ≥ as ∧ s7 &&& 7 = 4 ∧ s7 >>> 4 = 4) ∧ (xx ≥ as ∧ xx % 2 = 1 ∧ xx &&& 7 = 1) ∧
    (as ≥ as ∧ ¬ as % 2 = 1 ∧ as &&& 7 = 0) := by
  decide

/-- No entry of `first` names a size above `UTFMax`. -/
theorem first_sz_le (b : Nat) : first b &&& 7 ≤ 4 := by
  obtain ⟨⟨_, j1, _⟩, ⟨_, j2, _⟩, ⟨_, j3, _⟩, ⟨_, j4, _⟩, ⟨_, j5, _⟩, ⟨_, j6, _⟩,
    ⟨_, j7, _⟩, ⟨_, _, kx⟩, ⟨_, _, ka⟩⟩ := first_info
  rcases first_cases b with h | h | h | h | h | h | h | h | h
  · simp [h.2, ka]
  · simp [h.2, kx]
  · simp [h.2.2, j1]
  · simp [h.2, j2]
  · simp [h.2, j3]
  · simp [h.2, j4]
  · simp [h.2, j5]
  · simp [h.2.2, j6]
  · simp [h.2, j7]

/-- Four bytes always hold a full rune. -/
theorem FullRune_of_four (p : List UInt8) (h : 4 ≤ p.length) : FullRune p = true := by
  have h0 : ¬ p.length = 0 := by omega
  have := first_sz_le (p.getD 0 0).toNat
  unfold FullRune
  simp only [h0, if_false]
  rw [if_pos (by show first (p.getD 0 0).toNat &&& 7 ≤ p.length; omega)]

/-- The byte of a value below 256 is that value. -/
theorem byte_toNat (v : Nat) (h : v < 256) : (byte v).toNat = v := by
  simp [byte, UInt8.toNat, UInt8.ofNat, Fin.ofNat, Nat.mod_eq_of_lt h]

/-- A byte is the byte of its value. -/
theorem byte_of_toNat (b : UInt8) : byte b.toNat = b := by
  apply UInt8.eq_of_val_eq
  apply Fin.ext
  have := UInt8.toNat_lt b
  simp [byte, UInt8.toNat, UInt8.ofNat, Fin.ofNat] at this ⊢

/-- The encoding of a rune up to U+007F: the one byte of its value. -/
theorem AppendRune_one (r : Nat) (h : r ≤ 0x7F) : AppendRune [] (r : Int) = [byte r] := by
  have hi : ((r : Int) % 4294967296).toNat = r := by omega
  unfold AppendRune
  simp only [hi, rune1Max, h, if_true, List.nil_append]

/-- The encoding of a rune from U+0080 to U+07FF, in arithmetic. -/
theorem AppendRune_two (r : Nat) (h1 : 0x80 ≤ r) (h2 : r ≤ 0x7FF) :
    AppendRune [] (r : Int) = [byte (0xC0 + r / 64), byte (0x80 + r % 64)] := by
  have hi : ((r : Int) % 4294967296).toNat = r := by omega
  have hn : ¬ r ≤ 0x7F := by omega
  unfold AppendRune
  simp only [hi, rune1Max, rune2Max, hn, h2, if_true, if_false, List.nil_append, t2, tx]
  rw [and_mask r 6 maskx (by decide), Nat.shiftRight_eq_div_pow,
    lor_eq_add 0xC0 (r / 2 ^ 6) 6 (by decide) (by omega),
    lor_eq_add 0x80 (r % 2 ^ 6) 6 (by decide) (by omega)]
  norm_num

/-- The encoding of a rune from U+0800 to U+FFFF outside the surrogates, in
arithmetic. -/
theorem AppendRune_three (r : Nat) (h1 : 0x800 ≤ r) (h2 : r ≤ 0xFFFF)
    (h3 : ¬ (0xD800 ≤ r ∧ r ≤ 0xDFFF)) :
    AppendRune [] (r : Int) =
      [byte (0xE0 + r / 4096), byte (0x80 + r / 64 % 64), byte (0x80 + r % 64)] := by
  have hi : ((r : Int) % 4294967296).toNat = r := by omega
  have hn : ¬ r ≤ 0x7F := by omega
  have hn2 : ¬ r ≤ 0x7FF := by omega
  have hn3 : ¬ (r > 0x10FFFF ∨ (0xD800 ≤ r ∧ r ≤ 0xDFFF)) := by omega
  unfold AppendRune
  simp only [hi, rune1Max, rune2Max, rune3Max, MaxRune, surrogateMin, surrogateMax, hn, hn2,
    hn3, h2, if_true, if_false, List.nil_append, t3, tx]
  rw [and_mask r 6 maskx (by decide), and_mask (r >>> 6) 6 maskx (by decide),
    Nat.shiftRight_eq_div_pow, Nat.shiftRight_eq_div_pow,
    lor_eq_add 0xE0 (r / 2 ^ 12) 5 (by decide) (by omega),
    lor_eq_add 0x80 (r / 2 ^ 6 % 2 ^ 6) 6 (by decide) (by omega),
    lor_eq_add 0x80 (r % 2 ^ 6) 6 (by decide) (by omega)]
  norm_num

/-- The encoding of a rune from U+10000 to U+10FFFF, in arithmetic. -/
theorem AppendRune_four (r : Nat) (h1 : 0x10000 ≤ r) (h2 : r ≤ 0x10FFFF) :
    AppendRune [] (r : Int) =
      [byte (0xF0 + r / 262144), byte (0x80 + r / 4096 % 64), byte (0x80 + r / 64 % 64),
        byte (0x80 + r % 64)] := by
  have hi : ((r : Int) % 4294967296).toNat = r := by omega
  have hn : ¬ r ≤ 0x7F := by omega
  have hn2 : ¬ r ≤ 0x7FF := by omega
  have hn3 : ¬ (r > 0x10FFFF ∨ (0xD800 ≤ r ∧ r ≤ 0xDFFF)) := by omega
  have hn4 : ¬ r ≤ 0xFFFF := by omega
  unfold AppendRune
  simp only [hi, rune1Max, rune2Max, rune3Max, MaxRune, surrogateMin, surrogateMax, hn, hn2,
    hn3, hn4, if_true, if_false, List.nil_append, t4, tx]
  rw [and_mask r 6 maskx (by decide), and_mask (r >>> 6) 6 maskx (by decide),
    and_mask (r >>> 12) 6 maskx (by decide),
    Nat.shiftRight_eq_div_pow, Nat.shiftRight_eq_div_pow, Nat.shiftRight_eq_div_pow,
    lor_eq_add 0xF0 (r / 2 ^ 18) 4 (by decide) (by omega),
    lor_eq_add 0x80 (r / 2 ^ 12 % 2 ^ 6) 6 (by decide) (by omega),
    lor_eq_add 0x80 (r / 2 ^ 6 % 2 ^ 6) 6 (by decide) (by omega),
    lor_eq_add 0x80 (r % 2 ^ 6) 6 (by decide) (by omega)]
  norm_num

/-- What the table `first` holds for a byte: whether the byte stands alone (ASCII
or invalid), and otherwise the size of the sequence it leads and the range its
second byte must lie in. -/
theorem first_class (b : Nat) :
    (b < 0x80 ∧ first b ≥ as ∧ first b % 2 = 0 ∧ first b &&& 7 = 0 ∧
      acceptRanges (first b >>> 4) = (0, 0)) ∨
    ((0x80 ≤ b ∧ b < 0xC2 ∨ 0xF4 < b) ∧ first b ≥ as ∧ first b % 2 = 1 ∧ first b &&& 7 = 1 ∧
      acceptRanges (first b >>> 4) = (0, 0)) ∨
    (0xC2 ≤ b ∧ b < 0xE0 ∧ ¬ first b ≥ as ∧ first b &&& 7 = 2 ∧
      acceptRanges (first b >>> 4) = (0x80, 0xBF)) ∨
    (b = 0xE0 ∧ ¬ first b ≥ as ∧ first b &&& 7 = 3 ∧
      acceptRanges (first b >>> 4) = (0xA0, 0xBF)) ∨
    ((0xE1 ≤ b ∧ b < 0xED ∨ b = 0xEE ∨ b = 0xEF) ∧ ¬ first b ≥ as ∧ first b &&& 7 = 3 ∧
      acceptRanges (first b >>> 4) = (0x80, 0xBF)) ∨
    (b = 0xED ∧ ¬ first b ≥ as ∧ first b &&& 7 = 3 ∧
      acceptRanges (first b >>> 4) = (0x80, 0x9F)) ∨
    (b = 0xF0 ∧ ¬ first b ≥ as ∧ first b &&& 7 = 4 ∧
      acceptRanges (first b >>> 4) = (0x90, 0xBF)) ∨
    (0xF1 ≤ b ∧ b < 0xF4 ∧ ¬ first b ≥ as ∧ first b &&& 7 = 4 ∧
      acceptRanges (first b >>> 4) = (0x80, 0xBF)) ∨
    (b = 0xF4 ∧ ¬ first b ≥ as ∧ first b &&& 7 = 4 ∧
      acceptRanges (first b >>> 4) = (0x80, 0x8F)) := by
  rcases first_cases b with h | h | h | h | h | h | h | h | h
  · exact Or.inl ⟨h.1, by rw [h.2], by rw [h.2]; decide, by rw [h.2]; decide,
      by rw [h.2]; rfl⟩
  · exact Or.inr (Or.inl ⟨h.1, by rw [h.2]; decide, by rw [h.2]; decide, by rw [h.2]; decide,
      by rw [h.2]; rfl⟩)
  · exact Or.inr (Or.inr (Or.inl ⟨h.1, h.2.1, by rw [h.2.2]; decide, by rw [h.2.2]; decide,
      by rw [h.2.2]; rfl⟩))
  · exact Or.inr (Or.inr (Or.inr (Or.inl ⟨h.1, by rw [h.2]; decide, by rw [h.2]; decide,
      by rw [h.2]; rfl⟩)))
  · exact Or.inr (Or.inr (Or.inr (Or.inr (Or.inl ⟨h.1, by rw [h.2]; decide,
      by rw [h.2]; decide, by rw [h.2]; rfl⟩))))
  · exact Or.inr (Or.inr (Or.inr (Or.inr (Or.inr (Or.inl ⟨h.1, by rw [h.2]; decide,
      by rw [h.2]; decide, by rw [h.2]; rfl⟩)))))
  · exact Or.inr (Or.inr (Or.inr (Or.inr (Or.inr (Or.inr (Or.inl ⟨h.1, by rw [h.2]; decide,
      by rw [h.2]; decide, by rw [h.2]; rfl⟩))))))
  · exact Or.inr (Or.inr (Or.inr (Or.inr (Or.inr (Or.inr (Or.inr (Or.inl ⟨h.1, h.2.1,
      by rw [h.2.2]; decide, by rw [h.2.2]; decide, by rw [h.2.2]; rfl⟩)))))))
  · exact Or.inr (Or.inr (Or.inr (Or.inr (Or.inr (Or.inr (Or.inr (Or.inr ⟨h.1,
      by rw [h.2]; decide, by rw [h.2]; decide, by rw [h.2]; rfl⟩)))))))

/-- The function `DecodeRune` on a buffer whose first byte stands alone. -/
theorem DecodeRune_alone (p : List UInt8) (hp : p ≠ [])
    (hge : first (p.getD 0 0).toNat ≥ as) :
    DecodeRune p =
      if first (p.getD 0 0).toNat % 2 = 1 then (RuneError, 1) else ((p.getD 0 0).toNat, 1) := by
  have hn : ¬ p.length < 1 := by have := List.length_pos.mpr hp; omega
  unfold DecodeRune
  simp only [hn, if_false, hge, if_true]

/-- The function `DecodeRune` on a buffer whose first byte leads a sequence of `sz`
bytes with the second byte in `lo .. hi`. -/
theorem DecodeRune_leading (p : List UInt8) (hp : p ≠ []) (sz lo hi : Nat)
    (hlt : ¬ first (p.getD 0 0).toNat ≥ as) (hsz : first (p.getD 0 0).toNat &&& 7 = sz)
    (hacc : acceptRanges (first (p.getD 0 0).toNat >>> 4) = (lo, hi)) :
    DecodeRune p =
      if p.length < sz then (RuneError, 1)
      else if (p.getD 1 0).toNat < lo ∨ hi < (p.getD 1 0).toNat then (RuneError, 1)
      else if sz ≤ 2 then ((p.getD 0 0).toNat % 32 * 64 + (p.getD 1 0).toNat % 64, 2)
      else if (p.getD 2 0).toNat < 0x80 ∨ 0xBF < (p.getD 2 0).toNat then (RuneError, 1)
      else if sz ≤ 3 then
        ((p.getD 0 0).toNat % 16 * 4096 + (p.getD 1 0).toNat % 64 * 64 +
          (p.getD 2 0).toNat % 64, 3)
      else if (p.getD 3 0).toNat < 0x80 ∨ 0xBF < (p.getD 3 0).toNat then (RuneError, 1)
      else
        ((p.getD 0 0).toNat % 8 * 262144 + (p.getD 1 0).toNat % 64 * 4096 +
          (p.getD 2 0).toNat % 64 * 64 + (p.getD 3 0).toNat % 64, 4) := by
  have hn : ¬ p.length < 1 := by have := List.length_pos.mpr hp; omega
  unfold DecodeRune
  simp only [hn, if_false, hlt, hsz, hacc, rune2_eq, rune3_eq, rune4_eq, locb, hicb]

/-- The function `FullRune` on a non-empty buffer whose first byte has size `sz` in
the table and the second-byte range `lo .. hi`. -/
theorem FullRune_of_first (p : List UInt8) (hp : p ≠ []) (sz lo hi : Nat)
    (hsz : first (p.getD 0 0).toNat &&& 7 = sz)
    (hacc : acceptRanges (first (p.getD 0 0).toNat >>> 4) = (lo, hi)) :
    FullRune p = false ↔
      p.length < sz ∧
      (1 < p.length → lo ≤ (p.getD 1 0).toNat ∧ (p.getD 1 0).toNat ≤ hi) ∧
      (2 < p.length → 0x80 ≤ (p.getD 2 0).toNat ∧ (p.getD 2 0).toNat ≤ 0xBF) := by
  have hn : ¬ p.length = 0 := by have := List.length_pos.mpr hp; omega
  unfold FullRune
  simp only [hn, if_false, hsz, hacc, locb, hicb]
  split_ifs <;> simp only [Bool.true_eq_false, Bool.false_eq_true, false_iff, true_iff] <;>
    omega


/-- The function `FullRune` on a non-empty buffer: it is not a full rune exactly
when it is, so far, the beginning of a well-formed sequence that needs more bytes. -/
theorem FullRune_eq_false_iff (p : List UInt8) (hp : p ≠ []) :
    FullRune p = false ↔
      (0xC2 ≤ (p.getD 0 0).toNat ∧ (p.getD 0 0).toNat ≤ 0xF4 ∧ p.length = 1) ∨
      (0xE0 ≤ (p.getD 0 0).toNat ∧ (p.getD 0 0).toNat ≤ 0xF4 ∧ p.length = 2 ∧
        0x80 ≤ (p.getD 1 0).toNat ∧ (p.getD 1 0).toNat ≤ 0xBF ∧
        ((p.getD 0 0).toNat = 0xE0 → 0xA0 ≤ (p.getD 1 0).toNat) ∧
        ((p.getD 0 0).toNat = 0xED → (p.getD 1 0).toNat ≤ 0x9F) ∧
        ((p.getD 0 0).toNat = 0xF0 → 0x90 ≤ (p.getD 1 0).toNat) ∧
        ((p.getD 0 0).toNat = 0xF4 → (p.getD 1 0).toNat ≤ 0x8F)) ∨
      (0xF0 ≤ (p.getD 0 0).toNat ∧ (p.getD 0 0).toNat ≤ 0xF4 ∧ p.length = 3 ∧
        0x80 ≤ (p.getD 1 0).toNat ∧ (p.getD 1 0).toNat ≤ 0xBF ∧
        ((p.getD 0 0).toNat = 0xF0 → 0x90 ≤ (p.getD 1 0).toNat) ∧
        ((p.getD 0 0).toNat = 0xF4 → (p.getD 1 0).toNat ≤ 0x8F) ∧
        0x80 ≤ (p.getD 2 0).toNat ∧ (p.getD 2 0).toNat ≤ 0xBF) := by
  have hlen : 1 ≤ p.length := List.length_pos.mpr hp
  rcases first_class (p.getD 0 0).toNat with h | h | h | h | h | h | h | h | h
  · rw [FullRune_of_first p hp _ _ _ h.2.2.2.1 h.2.2.2.2]; omega
  · rw [FullRune_of_first p hp _ _ _ h.2.2.2.1 h.2.2.2.2]; omega
  · rw [FullRune_of_first p hp _ _ _ h.2.2.2.1 h.2.2.2.2]; omega
  · rw [FullRune_of_first p hp _ _ _ h.2.2.1 h.2.2.2]; omega
  · rw [FullRune_of_first p hp _ _ _ h.2.2.1 h.2.2.2]; omega
  · rw [FullRune_of_first p hp _ _ _ h.2.2.1 h.2.2.2]; omega
  · rw [FullRune_of_first p hp _ _ _ h.2.2.1 h.2.2.2]; omega
  · rw [FullRune_of_first p hp _ _ _ h.2.2.2.1 h.2.2.2.2]; omega
  · rw [FullRune_of_first p hp _ _ _ h.2.2.1 h.2.2.2]; omega

/-- A non-empty buffer that is not the beginning of a well-formed sequence needing
more bytes is a full rune. -/
theorem FullRune_eq_true (p : List UInt8) (hp : p ≠ [])
    (h : ¬ ((0xC2 ≤ (p.getD 0 0).toNat ∧ (p.getD 0 0).toNat ≤ 0xF4 ∧ p.length = 1) ∨
      (0xE0 ≤ (p.getD 0 0).toNat ∧ (p.getD 0 0).toNat ≤ 0xF4 ∧ p.length = 2 ∧
        0x80 ≤ (p.getD 1 0).toNat ∧ (p.getD 1 0).toNat ≤ 0xBF ∧
        ((p.getD 0 0).toNat = 0xE0 → 0xA0 ≤ (p.getD 1 0).toNat) ∧
        ((p.getD 0 0).toNat = 0xED → (p.getD 1 0).toNat ≤ 0x9F) ∧
        ((p.getD 0 0).toNat = 0xF0 → 0x90 ≤ (p.getD 1 0).toNat) ∧
        ((p.getD 0 0).toNat = 0xF4 → (p.getD 1 0).toNat ≤ 0x8F)) ∨
      (0xF0 ≤ (p.getD 0 0).toNat ∧ (p.getD 0 0).toNat ≤ 0xF4 ∧ p.length = 3 ∧
        0x80 ≤ (p.getD 1 0).toNat ∧ (p.getD 1 0).toNat ≤ 0xBF ∧
        ((p.getD 0 0).toNat = 0xF0 → 0x90 ≤ (p.getD 1 0).toNat) ∧
        ((p.getD 0 0).toNat = 0xF4 → (p.getD 1 0).toNat ≤ 0x8F) ∧
        0x80 ≤ (p.getD 2 0).toNat ∧ (p.getD 2 0).toNat ≤ 0xBF))) :
    FullRune p = true := by
  cases hfr : FullRune p with
  | true => rfl
  | false => exact absurd ((FullRune_eq_false_iff p hp).mp hfr) h

/-- The function `DecodeRune` answers `(RuneError, 1)` when the buffer is shorter than
the sequence its first byte leads, or one of the bytes of that sequence after the
first is out of its range. -/
theorem DecodeRune_leading_error (p : List UInt8) (hp : p ≠ []) (sz lo hi : Nat)
    (hlt : ¬ first (p.getD 0 0).toNat ≥ as) (hsz : first (p.getD 0 0).toNat &&& 7 = sz)
    (hacc : acceptRanges (first (p.getD 0 0).toNat >>> 4) = (lo, hi))
    (h : p.length < sz ∨ (p.getD 1 0).toNat < lo ∨ hi < (p.getD 1 0).toNat ∨
      (3 ≤ sz ∧ ((p.getD 2 0).toNat < 0x80 ∨ 0xBF < (p.getD 2 0).toNat)) ∨
      (4 ≤ sz ∧ ((p.getD 3 0).toNat < 0x80 ∨ 0xBF < (p.getD 3 0).toNat))) :
    DecodeRune p = (RuneError, 1) := by
  rw [DecodeRune_leading p hp sz lo hi hlt hsz hacc]
  split_ifs <;> first | with_reducible rfl | omega

/-- The function `DecodeRune` on a well-formed sequence of two bytes. -/
theorem DecodeRune_leading_two (p : List UInt8) (hp : p ≠ []) (lo hi : Nat)
    (hlt : ¬ first (p.getD 0 0).toNat ≥ as) (hsz : first (p.getD 0 0).toNat &&& 7 = 2)
    (hacc : acceptRanges (first (p.getD 0 0).toNat >>> 4) = (lo, hi))
    (hn : 2 ≤ p.length) (h1 : lo ≤ (p.getD 1 0).toNat) (h2 : (p.getD 1 0).toNat ≤ hi) :
    DecodeRune p = ((p.getD 0 0).toNat % 32 * 64 + (p.getD 1 0).toNat % 64, 2) := by
  rw [DecodeRune_leading p hp 2 lo hi hlt hsz hacc, if_neg (by omega), if_neg (by omega),
    if_pos (le_refl 2)]

/-- The function `DecodeRune` on a well-formed sequence of three bytes. -/
theorem DecodeRune_leading_three (p : List UInt8) (hp : p ≠ []) (lo hi : Nat)
    (hlt : ¬ first (p.getD 0 0).toNat ≥ as) (hsz : first (p.getD 0 0).toNat &&& 7 = 3)
    (hacc : acceptRanges (first (p.getD 0 0).toNat >>> 4) = (lo, hi))
    (hn : 3 ≤ p.length) (h1 : lo ≤ (p.getD 1 0).toNat) (h2 : (p.getD 1 0).toNat ≤ hi)
    (h3 : 0x80 ≤ (p.getD 2 0).toNat) (h4 : (p.getD 2 0).toNat ≤ 0xBF) :
    DecodeRune p =
      ((p.getD 0 0).toNat % 16 * 4096 + (p.getD 1 0).toNat % 64 * 64 +
        (p.getD 2 0).toNat % 64, 3) := by
  rw [DecodeRune_leading p hp 3 lo hi hlt hsz hacc, if_neg (by omega), if_neg (by omega),
    if_neg (by omega), if_neg (by omega), if_pos (le_refl 3)]

/-- The function `DecodeRune` on a well-formed sequence of four bytes. -/
theorem DecodeRune_leading_four (p : List UInt8) (hp : p ≠ []) (lo hi : Nat)
    (hlt : ¬ first (p.getD 0 0).toNat ≥ as) (hsz : first (p.getD 0 0).toNat &&& 7 = 4)
    (hacc : acceptRanges (first (p.getD 0 0).toNat >>> 4) = (lo, hi))
    (hn : 4 ≤ p.length) (h1 : lo ≤ (p.getD 1 0).toNat) (h2 : (p.getD 1 0).toNat ≤ hi)
    (h3 : 0x80 ≤ (p.getD 2 0).toNat) (h4 : (p.getD 2 0).toNat ≤ 0xBF)
    (h5 : 0x80 ≤ (p.getD 3 0).toNat) (h6 : (p.getD 3 0).toNat ≤ 0xBF) :
    DecodeRune p =
      ((p.getD 0 0).toNat % 8 * 262144 + (p.getD 1 0).toNat % 64 * 4096 +
        (p.getD 2 0).toNat % 64 * 64 + (p.getD 3 0).toNat % 64, 4) := by
  rw [DecodeRune_leading p hp 4 lo hi hlt hsz hacc, if_neg (by omega), if_neg (by omega),
    if_neg (by omega), if_neg (by omega), if_neg (by omega), if_neg (by omega)]

/-- The function `DecodeRune` on a non-empty buffer, case by case of its first
byte: an ASCII byte; a leading byte followed by the continuation bytes its sequence
needs, the second one in the range that leading byte admits; anything else, which
is answered with `(RuneError, 1)`. -/
theorem DecodeRune_cases (p : List UInt8) (hp : p ≠ []) :
    ((p.getD 0 0).toNat < 0x80 → DecodeRune p = ((p.getD 0 0).toNat, 1)) ∧
    (0xC2 ≤ (p.getD 0 0).toNat → (p.getD 0 0).toNat ≤ 0xDF → 2 ≤ p.length →
      0x80 ≤ (p.getD 1 0).toNat → (p.getD 1 0).toNat ≤ 0xBF →
      DecodeRune p = ((p.getD 0 0).toNat % 32 * 64 + (p.getD 1 0).toNat % 64, 2)) ∧
    (0xE0 ≤ (p.getD 0 0).toNat → (p.getD 0 0).toNat ≤ 0xEF → 3 ≤ p.length →
      0x80 ≤ (p.getD 1 0).toNat → (p.getD 1 0).toNat ≤ 0xBF →
      ((p.getD 0 0).toNat = 0xE0 → 0xA0 ≤ (p.getD 1 0).toNat) →
      ((p.getD 0 0).toNat = 0xED → (p.getD 1 0).toNat ≤ 0x9F) →
      0x80 ≤ (p.getD 2 0).toNat → (p.getD 2 0).toNat ≤ 0xBF →
      DecodeRune p =
        ((p.getD 0 0).toNat % 16 * 4096 + (p.getD 1 0).toNat % 64 * 64 +
          (p.getD 2 0).toNat % 64, 3)) ∧
    (0xF0 ≤ (p.getD 0 0).toNat → (p.getD 0 0).toNat ≤ 0xF4 → 4 ≤ p.length →
      0x80 ≤ (p.getD 1 0).toNat → (p.getD 1 0).toNat ≤ 0xBF →
      ((p.getD 0 0).toNat = 0xF0 → 0x90 ≤ (p.getD 1 0).toNat) →
      ((p.getD 0 0).toNat = 0xF4 → (p.getD 1 0).toNat ≤ 0x8F) →
      0x80 ≤ (p.getD 2 0).toNat → (p.getD 2 0).toNat ≤ 0xBF →
      0x80 ≤ (p.getD 3 0).toNat → (p.getD 3 0).toNat ≤ 0xBF →
      DecodeRune p =
        ((p.getD 0 0).toNat % 8 * 262144 + (p.getD 1 0).toNat % 64 * 4096 +
          (p.getD 2 0).toNat % 64 * 64 + (p.getD 3 0).toNat % 64, 4)) ∧
    (¬ (p.getD 0 0).toNat < 0x80 →
      ¬ (0xC2 ≤ (p.getD 0 0).toNat ∧ (p.getD 0 0).toNat ≤ 0xDF ∧ 2 ≤ p.length ∧
        0x80 ≤ (p.getD 1 0).toNat ∧ (p.getD 1 0).toNat ≤ 0xBF) →
      ¬ (0xE0 ≤ (p.getD 0 0).toNat ∧ (p.getD 0 0).toNat ≤ 0xEF ∧ 3 ≤ p.length ∧
        0x80 ≤ (p.getD 1 0).toNat ∧ (p.getD 1 0).toNat ≤ 0xBF ∧
        ((p.getD 0 0).toNat = 0xE0 → 0xA0 ≤ (p.getD 1 0).toNat) ∧
        ((p.getD 0 0).toNat = 0xED → (p.getD 1 0).toNat ≤ 0x9F) ∧
        0x80 ≤ (p.getD 2 0).toNat ∧ (p.getD 2 0).toNat ≤ 0xBF) →
      ¬ (0xF0 ≤ (p.getD 0 0).toNat ∧ (p.getD 0 0).toNat ≤ 0xF4 ∧ 4 ≤ p.length ∧
        0x80 ≤ (p.getD 1 0).toNat ∧ (p.getD 1 0).toNat ≤ 0xBF ∧
        ((p.getD 0 0).toNat = 0xF0 → 0x90 ≤ (p.getD 1 0).toNat) ∧
        ((p.getD 0 0).toNat = 0xF4 → (p.getD 1 0).toNat ≤ 0x8F) ∧
        0x80 ≤ (p.getD 2 0).toNat ∧ (p.getD 2 0).toNat ≤ 0xBF ∧
        0x80 ≤ (p.getD 3 0).toNat ∧ (p.getD 3 0).toNat ≤ 0xBF) →
      DecodeRune p = (RuneError, 1)) := by
  have hlen : 1 ≤ p.length := List.length_pos.mpr hp
  rcases first_class (p.getD 0 0).toNat with h | h | h | h | h | h | h | h | h
  · rw [DecodeRune_alone p hp h.2.1, if_neg (by rw [h.2.2.1]; decide)]
    refine ⟨fun _ => rfl, ?_, ?_, ?_, ?_⟩ <;> intros <;> omega
  · rw [DecodeRune_alone p hp h.2.1, if_pos h.2.2.1]
    refine ⟨?_, ?_, ?_, ?_, fun _ _ _ _ => rfl⟩ <;> intros <;> omega
  · refine ⟨?_, ?_, ?_, ?_, ?_⟩
    · intros; omega
    · intros
      exact DecodeRune_leading_two p hp _ _ h.2.2.1 h.2.2.2.1 h.2.2.2.2 (by omega) (by omega) (by omega)
    · intros; omega
    · intros; omega
    · intro _ hno _ _
      exact DecodeRune_leading_error p hp _ _ _ h.2.2.1 h.2.2.2.1 h.2.2.2.2 (by omega)
  · refine ⟨?_, ?_, ?_, ?_, ?_⟩
    · intros; omega
    · intros; omega
    · intros
      exact DecodeRune_leading_three p hp _ _ h.2.1 h.2.2.1 h.2.2.2 (by omega) (by omega) (by omega) (by omega) (by omega)
    · intros; omega
    · intro _ _ hno _
      exact DecodeRune_leading_error p hp _ _ _ h.2.1 h.2.2.1 h.2.2.2 (by omega)
  · refine ⟨?_, ?_, ?_, ?_, ?_⟩
    · intros; omega
    · intros; omega
    · intros
      exact DecodeRune_leading_three p hp _ _ h.2.1 h.2.2.1 h.2.2.2 (by omega) (by omega) (by omega) (by omega) (by omega)
    · intros; omega
    · intro _ _ hno _
      exact DecodeRune_leading_error p hp _ _ _ h.2.1 h.2.2.1 h.2.2.2 (by omega)
  · refine ⟨?_, ?_, ?_, ?_, ?_⟩
    · intros; omega
    · intros; omega
    · intros
      exact DecodeRune_leading_three p hp _ _ h.2.1 h.2.2.1 h.2.2.2 (by omega) (by omega) (by omega) (by omega) (by omega)
    · intros; omega
    · intro _ _ hno _
      exact DecodeRune_leading_error p hp _ _ _ h.2.1 h.2.2.1 h.2.2.2 (by omega)
  · refine ⟨?_, ?_, ?_, ?_, ?_⟩
    · intros; omega
    · intros; omega
    · intros; omega
    · intros
      exact DecodeRune_leading_four p hp _ _ h.2.1 h.2.2.1 h.2.2.2 (by omega) (by omega) (by omega) (by omega) (by omega) (by omega) (by omega)
    · intro _ _ _ hno
      exact DecodeRune_leading_error p hp _ _ _ h.2.1 h.2.2.1 h.2.2.2 (by omega)
  · refine ⟨?_, ?_, ?_, ?_, ?_⟩
    · intros; omega
    · intros; omega
    · intros; omega
    · intros
      exact DecodeRune_leading_four p hp _ _ h.2.2.1 h.2.2.2.1 h.2.2.2.2 (by omega) (by omega) (by omega) (by omega) (by omega) (by omega) (by omega)
    · intro _ _ _ hno
      exact DecodeRune_leading_error p hp _ _ _ h.2.2.1 h.2.2.2.1 h.2.2.2.2 (by omega)
  · refine ⟨?_, ?_, ?_, ?_, ?_⟩
    · intros; omega
    · intros; omega
    · intros; omega
    · intros
      exact DecodeRune_leading_four p hp _ _ h.2.1 h.2.2.1 h.2.2.2 (by omega) (by omega) (by omega) (by omega) (by omega) (by omega) (by omega)
    · intro _ _ _ hno
      exact DecodeRune_leading_error p hp _ _ _ h.2.1 h.2.2.1 h.2.2.2 (by omega)

/-- The function `FullRune`, case by case of the first byte: a buffer holding all
the bytes its leading byte asks for is full, and one that so far is the beginning
of a well-formed sequence is not. -/
theorem FullRune_cases (p : List UInt8) (hp : p ≠ []) :
    ((p.getD 0 0).toNat < 0x80 → FullRune p = true) ∧
    (0xC2 ≤ (p.getD 0 0).toNat → (p.getD 0 0).toNat ≤ 0xDF → 2 ≤ p.length →
      FullRune p = true) ∧
    (0xE0 ≤ (p.getD 0 0).toNat → (p.getD 0 0).toNat ≤ 0xEF → 3 ≤ p.length →
      FullRune p = true) ∧
    (0xF0 ≤ (p.getD 0 0).toNat → (p.getD 0 0).toNat ≤ 0xF4 → 4 ≤ p.length →
      FullRune p = true) ∧
    (0xC2 ≤ (p.getD 0 0).toNat → (p.getD 0 0).toNat ≤ 0xF4 → p.length = 1 →
      FullRune p = false) ∧
    (0xE0 ≤ (p.getD 0 0).toNat → (p.getD 0 0).toNat ≤ 0xF4 → p.length = 2 →
      0x80 ≤ (p.getD 1 0).toNat → (p.getD 1 0).toNat ≤ 0xBF →
      ((p.getD 0 0).toNat = 0xE0 → 0xA0 ≤ (p.getD 1 0).toNat) →
      ((p.getD 0 0).toNat = 0xED → (p.getD 1 0).toNat ≤ 0x9F) →
      ((p.getD 0 0).toNat = 0xF0 → 0x90 ≤ (p.getD 1 0).toNat) →
      ((p.getD 0 0).toNat = 0xF4 → (p.getD 1 0).toNat ≤ 0x8F) →
      FullRune p = false) ∧
    (0xF0 ≤ (p.getD 0 0).toNat → (p.getD 0 0).toNat ≤ 0xF4 → p.length = 3 →
      0x80 ≤ (p.getD 1 0).toNat → (p.getD 1 0).toNat ≤ 0xBF →
      ((p.getD 0 0).toNat = 0xF0 → 0x90 ≤ (p.getD 1 0).toNat) →
      ((p.getD 0 0).toNat = 0xF4 → (p.getD 1 0).toNat ≤ 0x8F) →
      0x80 ≤ (p.getD 2 0).toNat → (p.getD 2 0).toNat ≤ 0xBF →
      FullRune p = false) := by
  have key := FullRune_eq_false_iff p hp
  have htrue := FullRune_eq_true p hp
  refine ⟨fun h => htrue (by omega), fun h1 h2 h3 => htrue (by omega),
    fun h1 h2 h3 => htrue (by omega), fun h1 h2 h3 => htrue (by omega),
    fun h1 h2 h3 => key.mpr (Or.inl ⟨h1, h2, h3⟩),
    fun h1 h2 h3 h4 h5 h6 h7 h8 h9 =>
      key.mpr (Or.inr (Or.inl ⟨h1, h2, h3, h4, h5, h6, h7, h8, h9⟩)),
    fun h1 h2 h3 h4 h5 h6 h7 h8 h9 =>
      key.mpr (Or.inr (Or.inr ⟨h1, h2, h3, h4, h5, h6, h7, h8, h9⟩))⟩

/-- The first byte of a non-empty buffer, as a one-byte buffer. -/
theorem take_one (p : List UInt8) (h : 1 ≤ p.length) : p.take 1 = [p.getD 0 0] := by
  match p, h with
  | a :: _, _ => rfl

/-- The first two bytes of a buffer. -/
theorem take_two (p : List UInt8) (h : 2 ≤ p.length) : p.take 2 = [p.getD 0 0, p.getD 1 0] := by
  match p, h with
  | a :: b :: _, _ => rfl

/-- The first three bytes of a buffer. -/
theorem take_three (p : List UInt8) (h : 3 ≤ p.length) :
    p.take 3 = [p.getD 0 0, p.getD 1 0, p.getD 2 0] := by
  match p, h with
  | a :: b :: c :: _, _ => rfl

/-- The first four bytes of a buffer. -/
theorem take_four (p : List UInt8) (h : 4 ≤ p.length) :
    p.take 4 = [p.getD 0 0, p.getD 1 0, p.getD 2 0, p.getD 3 0] := by
  match p, h with
  | a :: b :: c :: d :: _, _ => rfl

/-- A byte written from the value of a byte is that byte. -/
theorem byte_eq (v : Nat) (b : UInt8) (h : v = b.toNat) : byte v = b := by
  rw [h, byte_of_toNat]

/-- What `DecodeRune` returns for a non-empty buffer is `(RuneError, 1)`, or a
scalar value together with a width from 1 to 4 within the buffer, and then the
buffer begins with the encoding of that value, which has that many bytes. -/
theorem DecodeRune_valid (p : List UInt8) (hp : p ≠ []) :
    DecodeRune p = (RuneError, 1) ∨
    (1 ≤ (DecodeRune p).2 ∧ (DecodeRune p).2 ≤ 4 ∧ (DecodeRune p).2 ≤ p.length ∧
      (DecodeRune p).1 ≤ 0x10FFFF ∧ ¬ (0xD800 ≤ (DecodeRune p).1 ∧ (DecodeRune p).1 ≤ 0xDFFF) ∧
      AppendRune [] ((DecodeRune p).1 : Int) = p.take (DecodeRune p).2) := by
  have hlen : 1 ≤ p.length := List.length_pos.mpr hp
  have hb0 : (p.getD 0 0).toNat < 256 := UInt8.toNat_lt _
  have hb1 : (p.getD 1 0).toNat < 256 := UInt8.toNat_lt _
  have hb2 : (p.getD 2 0).toNat < 256 := UInt8.toNat_lt _
  have hb3 : (p.getD 3 0).toNat < 256 := UInt8.toNat_lt _
  obtain ⟨c1, c2, c3, c4, c5⟩ := DecodeRune_cases p hp
  by_cases h1 : (p.getD 0 0).toNat < 0x80
  · right
    rw [c1 h1]
    refine ⟨le_refl 1, (by show (1 : Nat) ≤ 4; omega), hlen, by simp only; omega, by simp only; omega, ?_⟩
    simp only
    rw [AppendRune_one _ (by omega), take_one p hlen, byte_of_toNat]
  by_cases h2 : 0xC2 ≤ (p.getD 0 0).toNat ∧ (p.getD 0 0).toNat ≤ 0xDF ∧ 2 ≤ p.length ∧
        0x80 ≤ (p.getD 1 0).toNat ∧ (p.getD 1 0).toNat ≤ 0xBF
  · right
    obtain ⟨g1, g2, g3, g4, g5⟩ := h2
    rw [c2 g1 g2 g3 g4 g5]
    refine ⟨(by show (1 : Nat) ≤ _; omega), (by show (_ : Nat) ≤ 4; omega), g3, by simp only; omega, by simp only; omega, ?_⟩
    simp only
    rw [AppendRune_two _ (by omega) (by omega), take_two p g3,
      byte_eq _ (p.getD 0 0) (by omega), byte_eq _ (p.getD 1 0) (by omega)]
  by_cases h3 : 0xE0 ≤ (p.getD 0 0).toNat ∧ (p.getD 0 0).toNat ≤ 0xEF ∧ 3 ≤ p.length ∧
        0x80 ≤ (p.getD 1 0).toNat ∧ (p.getD 1 0).toNat ≤ 0xBF ∧
        ((p.getD 0 0).toNat = 0xE0 → 0xA0 ≤ (p.getD 1 0).toNat) ∧
        ((p.getD 0 0).toNat = 0xED → (p.getD 1 0).toNat ≤ 0x9F) ∧
        0x80 ≤ (p.getD 2 0).toNat ∧ (p.getD 2 0).toNat ≤ 0xBF
  · right
    obtain ⟨g1, g2, g3, g4, g5, g6, g7, g8, g9⟩ := h3
    rw [c3 g1 g2 g3 g4 g5 g6 g7 g8 g9]
    refine ⟨(by show (1 : Nat) ≤ _; omega), (by show (_ : Nat) ≤ 4; omega), g3, by simp only; omega, by simp only; omega, ?_⟩
    simp only
    rw [AppendRune_three _ (by omega) (by omega) (by omega), take_three p g3,
      byte_eq _ (p.getD 0 0) (by omega), byte_eq _ (p.getD 1 0) (by omega),
      byte_eq _ (p.getD 2 0) (by omega)]
  by_cases h4 : 0xF0 ≤ (p.getD 0 0).toNat ∧ (p.getD 0 0).toNat ≤ 0xF4 ∧ 4 ≤ p.length ∧
        0x80 ≤ (p.getD 1 0).toNat ∧ (p.getD 1 0).toNat ≤ 0xBF ∧
        ((p.getD 0 0).toNat = 0xF0 → 0x90 ≤ (p.getD 1 0).toNat) ∧
        ((p.getD 0 0).toNat = 0xF4 → (p.getD 1 0).toNat ≤ 0x8F) ∧
        0x80 ≤ (p.getD 2 0).toNat ∧ (p.getD 2 0).toNat ≤ 0xBF ∧
        0x80 ≤ (p.getD 3 0).toNat ∧ (p.getD 3 0).toNat ≤ 0xBF
  · right
    obtain ⟨g1, g2, g3, g4, g5, g6, g7, g8, g9, g10, g11⟩ := h4
    rw [c4 g1 g2 g3 g4 g5 g6 g7 g8 g9 g10 g11]
    refine ⟨(by show (1 : Nat) ≤ _; omega), (by show (_ : Nat) ≤ 4; omega), g3, by simp only; omega, by simp only; omega, ?_⟩
    simp only
    rw [AppendRune_four _ (by omega) (by omega), take_four p g3,
      byte_eq _ (p.getD 0 0) (by omega), byte_eq _ (p.getD 1 0) (by omega),
      byte_eq _ (p.getD 2 0) (by omega), byte_eq _ (p.getD 3 0) (by omega)]
  · left
    exact c5 h1 h2 h3 h4

/-- On a non-empty buffer `DecodeRune` reports a width between 1 and 4, within the
buffer, and that width is the length of the encoding of the rune it returns unless it
returns `(RuneError, 1)`, its answer to an invalid or cut-off sequence. -/
theorem DecodeRune_spec (p : List UInt8) (hp : p ≠ []) :
    1 ≤ (DecodeRune p).2 ∧ (DecodeRune p).2 ≤ 4 ∧ (DecodeRune p).2 ≤ p.length ∧
    ((DecodeRune p).2 = (AppendRune [] ((DecodeRune p).1 : Int)).length ∨
      ((DecodeRune p).1 = RuneError ∧ (DecodeRune p).2 = 1)) := by
  rcases DecodeRune_valid p hp with hd | ⟨b1, b4, bl, _, _, henc⟩
  · rw [hd]
    exact ⟨le_refl 1, by decide, List.length_pos.mpr hp, Or.inr ⟨rfl, rfl⟩⟩
  · refine ⟨b1, b4, bl, Or.inl ?_⟩
    rw [henc, List.length_take]
    omega

/-- The encoding `AppendRune` writes for a scalar value has one to four bytes, is a
full rune while none of its proper beginnings is, and `DecodeRune` reads the value
back from it, with its length. -/
theorem encoding_read_back (r : Nat) (hv : r ≤ 0x10FFFF) (hsur : ¬ (0xD800 ≤ r ∧ r ≤ 0xDFFF)) :
    1 ≤ (AppendRune [] (r : Int)).length ∧ (AppendRune [] (r : Int)).length ≤ 4 ∧
    FullRune (AppendRune [] (r : Int)) = true ∧
    (∀ k, 1 ≤ k → k < (AppendRune [] (r : Int)).length →
      FullRune ((AppendRune [] (r : Int)).take k) = false) ∧
    DecodeRune (AppendRune [] (r : Int)) = (r, (AppendRune [] (r : Int)).length) := by
  by_cases h1 : r ≤ 0x7F
  · rw [AppendRune_one r h1]
    have hb0 : (byte r).toNat = r := byte_toNat _ (by omega)
    have hf := (FullRune_cases [byte r] (by simp)).1
    have hd := (DecodeRune_cases [byte r] (by simp)).1
    simp only [List.getD_cons_zero, hb0] at hf hd
    refine ⟨by simp, by simp, hf (by omega), ?_, ?_⟩
    · intro k hk1 hk2
      simp at hk2
      omega
    · rw [hd (by omega)]
      simp
  by_cases h2 : r ≤ 0x7FF
  · rw [AppendRune_two r (by omega) h2]
    have hb0 : (byte (0xC0 + r / 64)).toNat = 0xC0 + r / 64 := byte_toNat _ (by omega)
    have hb1 : (byte (0x80 + r % 64)).toNat = 0x80 + r % 64 := byte_toNat _ (by omega)
    have hf := (FullRune_cases [byte (0xC0 + r / 64), byte (0x80 + r % 64)] (by simp)).2.1
    have hf1 := (FullRune_cases [byte (0xC0 + r / 64)] (by simp)).2.2.2.2.1
    have hd := (DecodeRune_cases [byte (0xC0 + r / 64), byte (0x80 + r % 64)] (by simp)).2.1
    simp only [List.getD_cons_zero, List.getD_cons_succ, hb0, hb1, List.length_cons,
      List.length_nil] at hf hf1 hd
    refine ⟨by simp, by simp, hf (by omega) (by omega) (by omega), ?_, ?_⟩
    · intro k hk1 hk2
      simp at hk2
      obtain rfl : k = 1 := by omega
      exact hf1 (by omega) (by omega) trivial
    · rw [hd (by omega) (by omega) (by omega) (by omega) (by omega)]
      simp only [List.length_cons, List.length_nil, Prod.mk.injEq, and_true]
      omega
  by_cases h3 : r ≤ 0xFFFF
  · rw [AppendRune_three r (by omega) h3 hsur]
    have hb0 : (byte (0xE0 + r / 4096)).toNat = 0xE0 + r / 4096 := byte_toNat _ (by omega)
    have hb1 : (byte (0x80 + r / 64 % 64)).toNat = 0x80 + r / 64 % 64 := byte_toNat _ (by omega)
    have hb2 : (byte (0x80 + r % 64)).toNat = 0x80 + r % 64 := byte_toNat _ (by omega)
    have hf := (FullRune_cases
      [byte (0xE0 + r / 4096), byte (0x80 + r / 64 % 64), byte (0x80 + r % 64)] (by simp)).2.2.1
    have hf1 := (FullRune_cases [byte (0xE0 + r / 4096)] (by simp)).2.2.2.2.1
    have hf2 := (FullRune_cases [byte (0xE0 + r / 4096), byte (0x80 + r / 64 % 64)]
      (by simp)).2.2.2.2.2.1
    have hd := (DecodeRune_cases
      [byte (0xE0 + r / 4096), byte (0x80 + r / 64 % 64), byte (0x80 + r % 64)] (by simp)).2.2.1
    simp only [List.getD_cons_zero, List.getD_cons_succ, hb0, hb1, hb2, List.length_cons,
      List.length_nil] at hf hf1 hf2 hd
    refine ⟨by simp, by simp, hf (by omega) (by omega) (by omega), ?_, ?_⟩
    · intro k hk1 hk2
      simp at hk2
      obtain rfl | rfl : k = 1 ∨ k = 2 := by omega
      · exact hf1 (by omega) (by omega) trivial
      · exact hf2 (by omega) (by omega) trivial (by omega) (by omega) (by omega) (by omega)
          (by omega) (by omega)
    · rw [hd (by omega) (by omega) (by omega) (by omega) (by omega) (by omega) (by omega)
        (by omega) (by omega)]
      simp only [List.length_cons, List.length_nil, Prod.mk.injEq, and_true]
      omega
  · rw [AppendRune_four r (by omega) hv]
    have hb0 : (byte (0xF0 + r / 262144)).toNat = 0xF0 + r / 262144 := byte_toNat _ (by omega)
    have hb1 : (byte (0x80 + r / 4096 % 64)).toNat = 0x80 + r / 4096 % 64 :=
      byte_toNat _ (by omega)
    have hb2 : (byte (0x80 + r / 64 % 64)).toNat = 0x80 + r / 64 % 64 := byte_toNat _ (by omega)
    have hb3 : (byte (0x80 + r % 64)).toNat = 0x80 + r % 64 := byte_toNat _ (by omega)
    have hf := (FullRune_cases
      [byte (0xF0 + r / 262144), byte (0x80 + r / 4096 % 64), byte (0x80 + r / 64 % 64),
        byte (0x80 + r % 64)] (by simp)).2.2.2.1
    have hf1 := (FullRune_cases [byte (0xF0 + r / 262144)] (by simp)).2.2.2.2.1
    have hf2 := (FullRune_cases [byte (0xF0 + r / 262144), byte (0x80 + r / 4096 % 64)]
      (by simp)).2.2.2.2.2.1
    have hf3 := (FullRune_cases
      [byte (0xF0 + r / 262144), byte (0x80 + r / 4096 % 64), byte (0x80 + r / 64 % 64)]
      (by simp)).2.2.2.2.2.2
    have hd := (DecodeRune_cases
      [byte (0xF0 + r / 262144), byte (0x80 + r / 4096 % 64), byte (0x80 + r / 64 % 64),
        byte (0x80 + r % 64)] (by simp)).2.2.2.1
    simp only [List.getD_cons_zero, List.getD_cons_succ, hb0, hb1, hb2, hb3, List.length_cons,
      List.length_nil] at hf hf1 hf2 hf3 hd
    refine ⟨by simp, by simp, hf (by omega) (by omega) (by omega), ?_, ?_⟩
    · intro k hk1 hk2
      simp at hk2
      obtain rfl | rfl | rfl : k = 1 ∨ k = 2 ∨ k = 3 := by omega
      · exact hf1 (by omega) (by omega) trivial
      · exact hf2 (by omega) (by omega) trivial (by omega) (by omega) (by omega) (by omega)
          (by omega) (by omega)
      · exact hf3 (by omega) (by omega) trivial (by omega) (by omega) (by omega) (by omega)
          (by omega) (by omega)
    · rw [hd (by omega) (by omega) (by omega) (by omega) (by omega) (by omega) (by omega)
        (by omega) (by omega) (by omega) (by omega)]
      simp only [List.length_cons, List.length_nil, Prod.mk.injEq, and_true]
      omega

/-- A non-empty buffer that is not a full rune is a proper beginning of the encoding
of some scalar value. -/
theorem FullRune_false_beginning (p : List UInt8) (hp : p ≠ []) (h : FullRune p = false) :
    ∃ v : Nat, v ≤ 0x10FFFF ∧ ¬ (0xD800 ≤ v ∧ v ≤ 0xDFFF) ∧
      p <+: AppendRune [] (v : Int) ∧ p.length < (AppendRune [] (v : Int)).length := by
  rcases (FullRune_eq_false_iff p hp).mp h with ⟨g1, g2, g3⟩ |
    ⟨g1, g2, g3, g4, g5, g6, g7, g8, g9⟩ | ⟨g1, g2, g3, g4, g5, g6, g7, g8, g9⟩
  · obtain ⟨a, rfl⟩ := List.length_eq_one.mp g3
    simp only [List.getD_cons_zero] at g1 g2
    by_cases h2 : a.toNat ≤ 0xDF
    · refine ⟨(a.toNat - 0xC0) * 64, by omega, by omega, ?_, ?_⟩
      · rw [AppendRune_two _ (by omega) (by omega), byte_eq _ a (by omega)]
        exact ⟨_, rfl⟩
      · rw [AppendRune_two _ (by omega) (by omega)]
        simp
    by_cases h3 : a.toNat ≤ 0xEF
    · refine ⟨(a.toNat - 0xE0) * 4096 + (if a.toNat = 0xE0 then 0x800 else 0),
        by split_ifs <;> omega, by split_ifs <;> omega, ?_, ?_⟩
      · rw [AppendRune_three _ (by split_ifs <;> omega) (by split_ifs <;> omega)
          (by split_ifs <;> omega), byte_eq _ a (by split_ifs <;> omega)]
        exact ⟨_, rfl⟩
      · rw [AppendRune_three _ (by split_ifs <;> omega) (by split_ifs <;> omega)
          (by split_ifs <;> omega)]
        simp
    · refine ⟨(a.toNat - 0xF0) * 262144 + (if a.toNat = 0xF0 then 0x10000 else 0),
        by split_ifs <;> omega, by split_ifs <;> omega, ?_, ?_⟩
      · rw [AppendRune_four _ (by split_ifs <;> omega) (by split_ifs <;> omega),
          byte_eq _ a (by split_ifs <;> omega)]
        exact ⟨_, rfl⟩
      · rw [AppendRune_four _ (by split_ifs <;> omega) (by split_ifs <;> omega)]
        simp
  · obtain ⟨a, b, rfl⟩ := List.length_eq_two.mp g3
    simp only [List.getD_cons_zero, List.getD_cons_succ] at g1 g2 g4 g5 g6 g7 g8 g9
    by_cases h3 : a.toNat ≤ 0xEF
    · refine ⟨(a.toNat - 0xE0) * 4096 + (b.toNat - 0x80) * 64, by omega, by omega, ?_, ?_⟩
      · rw [AppendRune_three _ (by omega) (by omega) (by omega), byte_eq _ a (by omega),
          byte_eq _ b (by omega)]
        exact ⟨_, rfl⟩
      · rw [AppendRune_three _ (by omega) (by omega) (by omega)]
        simp
    · refine ⟨(a.toNat - 0xF0) * 262144 + (b.toNat - 0x80) * 4096, by omega, by omega, ?_, ?_⟩
      · rw [AppendRune_four _ (by omega) (by omega), byte_eq _ a (by omega),
          byte_eq _ b (by omega)]
        exact ⟨_, rfl⟩
      · rw [AppendRune_four _ (by omega) (by omega)]
        simp
  · obtain ⟨a, b, c, rfl⟩ := List.length_eq_three.mp g3
    simp only [List.getD_cons_zero, List.getD_cons_succ] at g1 g2 g4 g5 g6 g7 g8 g9
    refine ⟨(a.toNat - 0xF0) * 262144 + (b.toNat - 0x80) * 4096 + (c.toNat - 0x80) * 64,
      by omega, by omega, ?_, ?_⟩
    · rw [AppendRune_four _ (by omega) (by omega), byte_eq _ a (by omega),
        byte_eq _ b (by omega), byte_eq _ c (by omega)]
      exact ⟨_, rfl⟩
    · rw [AppendRune_four _ (by omega) (by omega)]
      simp

end utf8

namespace parse

/-! ## Reading the source -/

/-- A `Func` hands a non-failed state to its function. -/
theorem Func_run_ok (fn : State → Option State) (s : State) (hs : s.IsError = false) :
    (Func fn).Run s = fn s := by
  simp [Func, hs]

/-- A `Func` returns a failed state as it is. -/
theorem Func_run_failed (fn : State → Option State) (s : State) (hs : s.IsError = true) :
    (Func fn).Run s = some s := by
  simp [Func, hs]

/-- A read that lies inside the source fills the buffer and reports no error. -/
theorem ReadAt_of_readable (s : List UInt8) (n : Nat) (off : Int) (h : Readable s n off) :
    ReadAt s n off = ((s.drop off.toNat).take n, n, none) := by
  obtain ⟨h0, h1, h2⟩ := h
  have hlen : ((s.drop off.toNat).take n).length = n := by
    simp [List.length_take, List.length_drop]; omega
  unfold ReadAt
  simp only [hlen]
  simp [not_lt.mpr h0, h1]

/-- Any other read reports an error. -/
theorem ReadAt_err_of_not_readable (s : List UInt8) (n : Nat) (off : Int)
    (h : ¬ Readable s n off) : ∃ e, (ReadAt s n off).2.2 = some e := by
  unfold ReadAt
  by_cases h0 : off < 0
  · exact ⟨Error.negativeOffset, by rw [if_pos h0]⟩
  · by_cases h1 : off ≥ (s.length : Int)
    · exact ⟨Error.EOF, by rw [if_neg h0, if_pos h1]⟩
    · have hlen : ((s.drop off.toNat).take n).length < n := by
        simp only [List.length_take, List.length_drop]
        unfold Readable at h
        omega
      exact ⟨Error.EOF, by rw [if_neg h0, if_neg h1]; simp only [if_pos hlen]⟩

/-- Any other read, as a triple. -/
theorem ReadAt_of_not_readable (s : List UInt8) (n : Nat) (off : Int) (h : ¬ Readable s n off) :
    ∃ buff k e, ReadAt s n off = (buff, k, some e) := by
  obtain ⟨e, he⟩ := ReadAt_err_of_not_readable s n off h
  exact ⟨(ReadAt s n off).1, (ReadAt s n off).2.1, e, by rw [← he]⟩

/-- The bytes of a read inside the source are as many as asked for. -/
theorem take_drop_length (s : List UInt8) (n : Nat) (off : Int) (h : Readable s n off) :
    ((s.drop off.toNat).take n).length = n := by
  obtain ⟨h0, h1, h2⟩ := h
  simp [List.length_take, List.length_drop]; omega

/-- The loop of `ReadNextRune` ends within four rounds: with a read error, or with
a buffer of 1 to 4 source bytes. -/
theorem ReadNextRune_loop_spec (st : State) : ∀ fuel b : Nat, 1 ≤ b → b + fuel = 5 → 1 ≤ fuel →
    (∃ buff e, State.ReadNextRune.loop st fuel b = some (buff, some e)) ∨
    (∃ k, 1 ≤ k ∧ k ≤ 4 ∧ Readable st.Source k st.Index ∧
      State.ReadNextRune.loop st fuel b = some ((st.Source.drop st.Index.toNat).take k, none))
  | 0, _, _, _, hf => by omega
  | fuel + 1, b, hb, hsum, _ => by
    by_cases hr : Readable st.Source b st.Index
    · by_cases hfull : utf8.FullRune ((st.Source.drop st.Index.toNat).take b) = true
      · right
        refine ⟨b, hb, by omega, hr, ?_⟩
        simp [State.ReadNextRune.loop, State.ReadNextBytes, ReadAt_of_readable _ _ _ hr, hfull]
      · have hb4 : b < 4 := by
          by_contra hge
          exact hfull (utf8.FullRune_of_four _ (by rw [take_drop_length _ _ _ hr]; omega))
        have ih := ReadNextRune_loop_spec st fuel (b + 1) (by omega) (by omega) (by omega)
        simpa [State.ReadNextRune.loop, State.ReadNextBytes, ReadAt_of_readable _ _ _ hr, hfull]
          using ih
    · left
      obtain ⟨buff, k, e, he⟩ := ReadAt_of_not_readable _ _ _ hr
      exact ⟨buff, e, by simp [State.ReadNextRune.loop, State.ReadNextBytes, he]⟩

/-- The two outcomes of `ReadNextRune`. -/
theorem ReadNextRune_spec (st : State) :
    (∃ e, st.ReadNextRune = some (0, 0, some e)) ∨
    (∃ k, 1 ≤ k ∧ k ≤ 4 ∧ Readable st.Source k st.Index ∧
      st.ReadNextRune =
        some (((utf8.DecodeRune ((st.Source.drop st.Index.toNat).take k)).1 : Int),
          (utf8.DecodeRune ((st.Source.drop st.Index.toNat).take k)).2, none)) := by
  rcases ReadNextRune_loop_spec st 4 1 (by omega) (by omega) (by omega) with
    ⟨buff, e, h⟩ | ⟨k, h1, h4, hr, h⟩
  · left; exact ⟨e, by simp [State.ReadNextRune, utf8.UTFMax, h]⟩
  · right; exact ⟨k, h1, h4, hr, by simp [State.ReadNextRune, utf8.UTFMax, h]⟩

/-- `ReadNextRune` always returns. -/
theorem ReadNextRune_returns (st : State) : ∃ r n err, st.ReadNextRune = some (r, n, err) := by
  rcases ReadNextRune_spec st with ⟨e, h⟩ | ⟨k, _, _, _, h⟩
  · exact ⟨_, _, _, h⟩
  · exact ⟨_, _, _, h⟩

/-- A rune that was read: its width is between 1 and 4, lies inside the source, and
is the length of its encoding unless it is the `(RuneError, 1)` of a bad sequence. -/
theorem ReadNextRune_ok (st : State) (r : Int) (n : Nat)
    (h : st.ReadNextRune = some (r, n, none)) :
    1 ≤ n ∧ n ≤ 4 ∧ 0 ≤ st.Index ∧ st.Index + n ≤ st.Source.length ∧
    (n = (utf8.AppendRune [] r).length ∨ (r = utf8.RuneError ∧ n = 1)) := by
  rcases ReadNextRune_spec st with ⟨e, he⟩ | ⟨k, h1, h4, hr, hk⟩
  · rw [he] at h; simp at h
  · rw [hk] at h
    simp only [Option.some.injEq, Prod.mk.injEq, and_true] at h
    obtain ⟨hr1, hn⟩ := h
    have hne : (st.Source.drop st.Index.toNat).take k ≠ [] := by
      intro h0
      have := take_drop_length _ _ _ hr
      rw [h0] at this; simp at this; omega
    have hd := utf8.DecodeRune_spec _ hne
    rw [take_drop_length _ _ _ hr, hn] at hd
    obtain ⟨d1, d2, d3, d4⟩ := hd
    obtain ⟨r0, r1, r2⟩ := hr
    refine ⟨d1, d2, r0, by omega, ?_⟩
    rcases d4 with d4 | d4
    · left; rw [← hr1]; exact d4
    · right; rw [← hr1]; exact ⟨by exact_mod_cast d4.1, d4.2⟩

/-- The loop of `ReadNextRune` stops at the first count of bytes, from 1 to 4, that
cannot be read or that holds a full rune; the counts below it were read and held no
full rune. -/
theorem ReadNextRune_loop_first (st : State) : ∀ fuel b : Nat, 1 ≤ b → b + fuel = 5 →
    1 ≤ fuel →
    (∀ j, 1 ≤ j → j < b → Readable st.Source j st.Index ∧
      utf8.FullRune ((st.Source.drop st.Index.toNat).take j) = false) →
    ∃ k, 1 ≤ k ∧ k ≤ 4 ∧
      (∀ j, 1 ≤ j → j < k → Readable st.Source j st.Index ∧
        utf8.FullRune ((st.Source.drop st.Index.toNat).take j) = false) ∧
      ((¬ Readable st.Source k st.Index ∧
          ∃ buff e, State.ReadNextRune.loop st fuel b = some (buff, some e)) ∨
        (Readable st.Source k st.Index ∧
          utf8.FullRune ((st.Source.drop st.Index.toNat).take k) = true ∧
          State.ReadNextRune.loop st fuel b =
            some ((st.Source.drop st.Index.toNat).take k, none)))
  | 0, _, _, _, hf, _ => by omega
  | fuel + 1, b, hb, hsum, _, hbelow => by
    by_cases hr : Readable st.Source b st.Index
    · by_cases hfull : utf8.FullRune ((st.Source.drop st.Index.toNat).take b) = true
      · refine ⟨b, hb, by omega, hbelow, Or.inr ⟨hr, hfull, ?_⟩⟩
        simp [State.ReadNextRune.loop, State.ReadNextBytes, ReadAt_of_readable _ _ _ hr, hfull]
      · have hb4 : b < 4 := by
          by_contra hge
          exact hfull (utf8.FullRune_of_four _ (by rw [take_drop_length _ _ _ hr]; omega))
        have hnot : utf8.FullRune ((st.Source.drop st.Index.toNat).take b) = false := by
          simpa using hfull
        have ih := ReadNextRune_loop_first st fuel (b + 1) (by omega) (by omega) (by omega)
          (fun j hj1 hj2 => by
            by_cases hjb : j = b
            · subst hjb; exact ⟨hr, hnot⟩
            · exact hbelow j hj1 (by omega))
        simpa [State.ReadNextRune.loop, State.ReadNextBytes, ReadAt_of_readable _ _ _ hr, hfull]
          using ih
    · obtain ⟨buff, k, e, he⟩ := ReadAt_of_not_readable _ _ _ hr
      exact ⟨b, hb, by omega, hbelow,
        Or.inl ⟨hr, buff, e, by simp [State.ReadNextRune.loop, State.ReadNextBytes, he]⟩⟩

/-- The read of `ReadNextRune`: it fails when the first count of bytes that cannot be
read comes before a full rune, and otherwise decodes the first beginning of the
remaining bytes that is a full rune. -/
theorem ReadNextRune_first (st : State) :
    ∃ k, 1 ≤ k ∧ k ≤ 4 ∧
      (∀ j, 1 ≤ j → j < k → Readable st.Source j st.Index ∧
        utf8.FullRune ((st.Source.drop st.Index.toNat).take j) = false) ∧
      ((¬ Readable st.Source k st.Index ∧ ∃ e, st.ReadNextRune = some (0, 0, some e)) ∨
        (Readable st.Source k st.Index ∧
          utf8.FullRune ((st.Source.drop st.Index.toNat).take k) = true ∧
          st.ReadNextRune =
            some (((utf8.DecodeRune ((st.Source.drop st.Index.toNat).take k)).1 : Int),
              (utf8.DecodeRune ((st.Source.drop st.Index.toNat).take k)).2, none))) := by
  obtain ⟨k, h1, h4, hbelow, h⟩ := ReadNextRune_loop_first st 4 1 (by omega) (by omega)
    (by omega) (fun j hj1 hj2 => by omega)
  refine ⟨k, h1, h4, hbelow, ?_⟩
  rcases h with ⟨hr, buff, e, h⟩ | ⟨hr, hfull, h⟩
  · exact Or.inl ⟨hr, e, by simp [State.ReadNextRune, utf8.UTFMax, h]⟩
  · exact Or.inr ⟨hr, hfull, by simp [State.ReadNextRune, utf8.UTFMax, h]⟩

/-- Where the source holds the encoding of a scalar value, `ReadNextRune` reads that
value, with the length of its encoding. -/
theorem ReadNextRune_encoded (st : State) (r : Int) (h : EncodedAt st r) :
    st.ReadNextRune = some (r, (utf8.AppendRune [] r).length, none) ∧
    1 ≤ (utf8.AppendRune [] r).length ∧ (utf8.AppendRune [] r).length ≤ 4 := by
  obtain ⟨⟨v0, v1, v2⟩, h0, tail, htail⟩ := h
  lift r to ℕ using v0
  obtain ⟨e1, e4, efull, eshort, edec⟩ :=
    utf8.encoding_read_back r (by exact_mod_cast v1) (by omega)
  have hlen : (st.Source.drop st.Index.toNat).length =
      (utf8.AppendRune [] (r : Int)).length + tail.length := by
    rw [← htail, List.length_append]
  rw [List.length_drop] at hlen
  have hread : ∀ j, j ≤ (utf8.AppendRune [] (r : Int)).length →
      Readable st.Source j st.Index := fun j hj => ⟨h0, by omega, by omega⟩
  have htake : ∀ j, j ≤ (utf8.AppendRune [] (r : Int)).length →
      (st.Source.drop st.Index.toNat).take j = (utf8.AppendRune [] (r : Int)).take j := by
    intro j hj
    rw [← htail, List.take_append_of_le_length hj]
  refine ⟨?_, e1, e4⟩
  obtain ⟨k, k1, k4, hbelow, hk⟩ := ReadNextRune_first st
  have hkeq : k = (utf8.AppendRune [] (r : Int)).length := by
    rcases Nat.lt_trichotomy k (utf8.AppendRune [] (r : Int)).length with hlt | heq | hgt
    · rcases hk with ⟨hr, _⟩ | ⟨_, hfull, _⟩
      · exact absurd (hread k (by omega)) hr
      · rw [htake k (by omega), eshort k k1 hlt] at hfull
        exact absurd hfull (by simp)
    · exact heq
    · have := (hbelow _ e1 hgt).2
      rw [htake _ (le_refl _), List.take_length, efull] at this
      exact absurd this (by simp)
  rcases hk with ⟨hr, _⟩ | ⟨_, _, hk⟩
  · exact absurd (hread k (by omega)) hr
  · rw [hk, hkeq, htake _ (le_refl _), List.take_length, edec]

/-- Where `ReadNextRune` reads a rune although the source holds the encoding of no
scalar value there, the rune is U+FFFD and its width is 1. -/
theorem ReadNextRune_not_encoded (st : State) (r : Int) (n : Nat)
    (h : st.ReadNextRune = some (r, n, none)) (hno : ¬ ∃ v, EncodedAt st v) :
    r = utf8.RuneError ∧ n = 1 := by
  obtain ⟨k, k1, k4, _, hk⟩ := ReadNextRune_first st
  rcases hk with ⟨_, e, he⟩ | ⟨hr, _, hk⟩
  · rw [he] at h; simp at h
  · rw [hk] at h
    simp only [Option.some.injEq, Prod.mk.injEq, and_true] at h
    obtain ⟨hr1, hn⟩ := h
    have hne : (st.Source.drop st.Index.toNat).take k ≠ [] := by
      intro h0
      have := take_drop_length _ _ _ hr
      rw [h0] at this; simp at this; omega
    rcases utf8.DecodeRune_valid _ hne with hd | ⟨_, _, _, d1, d2, d3⟩
    · rw [hd] at hr1 hn
      exact ⟨hr1.symm, hn.symm⟩
    · exfalso
      apply hno
      refine ⟨r, ⟨by rw [← hr1]; omega, by rw [← hr1]; exact_mod_cast d1,
        by rw [← hr1]; omega⟩, hr.1, ?_⟩
      rw [← hr1, d3]
      exact List.IsPrefix.trans ⟨_, List.take_append_drop _ _⟩ ⟨_, List.take_append_drop _ _⟩



/-- The read of `ReadNextRune` gives a rune, and no error, exactly at the offsets from
0 on where the source does not end before a rune is complete. -/
theorem ReadNextRune_reads_iff (st : State) (r : Int) (n : Nat) (err : Option Error)
    (h : st.ReadNextRune = some (r, n, err)) :
    err = none ↔ 0 ≤ st.Index ∧ ¬ CutOffAt st := by
  obtain ⟨k, k1, k4, hbelow, hk⟩ := ReadNextRune_first st
  rcases hk with ⟨hr, e, he⟩ | ⟨hr, hfull, hk⟩
  · rw [he] at h
    simp only [Option.some.injEq, Prod.mk.injEq] at h
    constructor
    · intro hnone
      rw [hnone] at h
      simp at h
    · rintro ⟨h0, hcut⟩
      exfalso
      apply hcut
      by_cases hk1 : k = 1
      · subst hk1
        have hnil : st.Source.drop st.Index.toNat = [] := by
          apply List.drop_eq_nil_of_le
          unfold Readable at hr
          omega
        exact ⟨0, by decide, by rw [hnil]; exact ⟨_, List.nil_append _⟩, by rw [hnil]; decide⟩
      · obtain ⟨hrj, hnot⟩ := hbelow (k - 1) (by omega) (by omega)
        have hlen : (st.Source.drop st.Index.toNat).length = k - 1 := by
          rw [List.length_drop]
          unfold Readable at hr hrj
          omega
        have htake : (st.Source.drop st.Index.toNat).take (k - 1) =
            st.Source.drop st.Index.toNat := List.take_of_length_le (by omega)
        rw [htake] at hnot
        have hne : st.Source.drop st.Index.toNat ≠ [] := by
          intro h0
          rw [h0] at hlen
          simp at hlen
          omega
        obtain ⟨v, v1, v2, v3, v4⟩ := utf8.FullRune_false_beginning _ hne hnot
        exact ⟨(v : Int), ⟨by omega, by exact_mod_cast v1, by omega⟩, v3, v4⟩
  · rw [hk] at h
    simp only [Option.some.injEq, Prod.mk.injEq] at h
    constructor
    · intro _
      refine ⟨hr.1, ?_⟩
      rintro ⟨v, ⟨v0, v1, v2⟩, ⟨tail, htail⟩, hlt⟩
      lift v to ℕ using v0
      obtain ⟨_, _, _, eshort, _⟩ := utf8.encoding_read_back v (by exact_mod_cast v1) (by omega)
      have hkle : k ≤ (st.Source.drop st.Index.toNat).length := by
        rw [List.length_drop]
        unfold Readable at hr
        omega
      have := eshort k k1 (by omega)
      rw [← htail, List.take_append_of_le_length hkle, hfull] at this
      exact absurd this (by simp)
    · intro _
      exact h.2.2.symm

/-! ## `ChoiceOf` and `SequenceOf` -/

/-- A chain of successes has one state per parser. -/
theorem SucceedInTurn_length : ∀ (ps : List Parser) (s : State) (ss : List State),
    SucceedInTurn ps s ss → ss.length = ps.length
  | [], _, [], _ => rfl
  | [], _, _ :: _, h => by simp [SucceedInTurn] at h
  | _ :: _, _, [], h => by simp [SucceedInTurn] at h
  | p :: ps, s, t :: ts, h => by
    simp only [SucceedInTurn] at h
    simp [SucceedInTurn_length ps t ts h.2.2]

/-- The state reached by a chain of successes from a non-failed state is not failed. -/
theorem reached_ok : ∀ (ps : List Parser) (s : State) (ss : List State),
    s.IsError = false → SucceedInTurn ps s ss → (reached s ss).IsError = false
  | [], _, [], hs, _ => hs
  | [], _, _ :: _, _, h => by simp [SucceedInTurn] at h
  | _ :: _, _, [], _, h => by simp [SucceedInTurn] at h
  | p :: ps, s, t :: ts, _, h => by
    simp only [SucceedInTurn] at h
    exact reached_ok ps t ts h.2.1 h.2.2

/-- The state reached by a non-empty chain is its last entry. -/
theorem getLast?_eq_reached : ∀ (t : State) (ts : List State) (s : State),
    (t :: ts).getLast? = some (reached s (t :: ts))
  | t, [], _ => rfl
  | t, u :: us, s => by
    rw [List.getLast?_cons_cons]
    exact getLast?_eq_reached u us t

/-- The loop of `ChoiceOf` returns what the first succeeding alternative returns. -/
theorem ChoiceOf_loop_first (s out : State) (pk : Parser) (later : List Parser)
    (hk : pk.Run s = some out) (hout : out.IsError = false) :
    ∀ failed : List Parser, (∀ p ∈ failed, ∃ t, p.Run s = some t ∧ t.IsError = true) →
      ChoiceOf.loop s (failed ++ pk :: later) = some out
  | [], _ => by simp [ChoiceOf.loop, hk, hout]
  | p :: failed, h => by
    obtain ⟨t, ht, hterr⟩ := h p (List.mem_cons_self p failed)
    have ih := ChoiceOf_loop_first s out pk later hk hout failed
      (fun q hq => h q (List.mem_cons_of_mem p hq))
    simp [ChoiceOf.loop, ht, hterr, ih]

/-- `ChoiceOf` treats its first alternative like the others. -/
theorem ChoiceOf_run_eq_loop (parser1 : Parser) (rest : List Parser) (s : State)
    (hs : s.IsError = false) :
    (ChoiceOf parser1 rest).Run s = ChoiceOf.loop s (parser1 :: rest) := by
  simp [ChoiceOf, Func_run_ok _ s hs, ChoiceOf.loop]

/-- Claim C1. On a non-failed state `s`, `ChoiceOf` runs its alternatives on `s`
itself, in order: when the alternatives before `pk` all return a failed state and
`pk.Run s` is the non-failed `out`, then `(ChoiceOf parser1 rest).Run s` is `out`,
exactly what `pk` returned on `s`. -/
theorem ChoiceOf_first_success (parser1 pk : Parser) (rest failed later : List Parser)
    (s out : State) (hs : s.IsError = false)
    (hsplit : parser1 :: rest = failed ++ pk :: later)
    (hfailed : ∀ p ∈ failed, ∃ t, p.Run s = some t ∧ t.IsError = true)
    (hk : pk.Run s = some out) (hout : out.IsError = false) :
    (ChoiceOf parser1 rest).Run s = some out := by
  rw [ChoiceOf_run_eq_loop parser1 rest s hs, hsplit]
  exact ChoiceOf_loop_first s out pk later hk hout failed hfailed

/-- Scenario 3 of the contract, by C1: against "ac" the sequence `"a"` then `"b"`
fails, and `ChoiceOf` then runs the literal "ac" from offset 0 again: result "ac",
offset 2. -/
theorem ChoiceOf_first_success_witness :
    (ChoiceOf (SequenceOf (Match.String [97]) [Match.String [98]]) [Match.String [97, 99]]).Run
        (start [97, 99]) =
      some { Result := Value.str [97, 99], Index := 2, Source := [97, 99], IsError := false,
             Err := none } :=
  ChoiceOf_first_success (SequenceOf (Match.String [97]) [Match.String [98]])
    (Match.String [97, 99]) [Match.String [97, 99]]
    [SequenceOf (Match.String [97]) [Match.String [98]]] [] (start [97, 99]) _ rfl rfl
    (fun p hp => by
      rw [List.mem_singleton] at hp
      subst hp
      exact ⟨_, rfl, rfl⟩)
    rfl rfl

/-- The loop of `SequenceOf` when every remaining step succeeds. -/
theorem SequenceOf_loop_all (state : State) : ∀ (ps : List Parser) (next : State)
    (results : List Value) (ts : List State), SucceedInTurn ps next ts →
      SequenceOf.loop state ps next results =
        some (state.WithResult (Value.list (results ++ ts.map State.Result))
          (reached next ts).Index)
  | [], next, results, [], _ => by simp [SequenceOf.loop, reached]
  | [], _, _, _ :: _, h => by simp [SucceedInTurn] at h
  | _ :: _, _, _, [], h => by simp [SucceedInTurn] at h
  | p :: ps, next, results, t :: ts, h => by
    simp only [SucceedInTurn] at h
    obtain ⟨hrun, hok, hrest⟩ := h
    have ih := SequenceOf_loop_all state ps t (results ++ [t.Result]) ts hrest
    simp [SequenceOf.loop, hrun, hok, ih, reached]

/-- The loop of `SequenceOf` when a remaining step fails. -/
theorem SequenceOf_loop_fails (state : State) (pk : Parser) (later : List Parser) :
    ∀ (ps : List Parser) (next : State) (results : List Value) (ts : List State) (bad : State),
      SucceedInTurn ps next ts → pk.Run (reached next ts) = some bad → bad.IsError = true →
      SequenceOf.loop state (ps ++ pk :: later) next results = some (state.WithError bad.Err)
  | [], next, results, [], bad, _, hb, hbe => by
    simp [reached] at hb
    simp [SequenceOf.loop, hb, hbe]
  | [], _, _, _ :: _, _, h, _, _ => by simp [SucceedInTurn] at h
  | _ :: _, _, _, [], _, h, _, _ => by simp [SucceedInTurn] at h
  | p :: ps, next, results, t :: ts, bad, h, hb, hbe => by
    simp only [SucceedInTurn] at h
    obtain ⟨hrun, hok, hrest⟩ := h
    have ih := SequenceOf_loop_fails state pk later ps t (results ++ [t.Result]) ts bad hrest
      (by simpa [reached] using hb) hbe
    simp [SequenceOf.loop, hrun, hok, ih]

/-- A step of `SequenceOf` after the first one fails: the sequence returns its entry
state, marked failed, with the error of that step. -/
theorem SequenceOf_later_step_fails (parser1 pk : Parser) (before later : List Parser)
    (s bad : State) (ss : List State) (hs : s.IsError = false)
    (hsteps : SucceedInTurn (parser1 :: before) s ss)
    (hk : pk.Run (reached s ss) = some bad) (hbad : bad.IsError = true) :
    (SequenceOf parser1 (before ++ pk :: later)).Run s =
      some { Result := s.Result, Index := s.Index, Source := s.Source, IsError := true,
             Err := bad.Err } := by
  cases ss with
  | nil => simp [SucceedInTurn] at hsteps
  | cons t ts =>
    simp only [SucceedInTurn] at hsteps
    obtain ⟨hrun, hok, hrest⟩ := hsteps
    have := SequenceOf_loop_fails s pk later before t [t.Result] ts bad hrest
      (by simpa [reached] using hk) hbad
    simp [SequenceOf, Func_run_ok _ s hs, hrun, hok, this, State.WithError]

/-- The first step of `SequenceOf` fails: the sequence returns the state that step
returned, untouched. -/
theorem SequenceOf_first_step_fails (parser1 : Parser) (rest : List Parser) (s bad : State)
    (hs : s.IsError = false) (h1 : parser1.Run s = some bad) (hbad : bad.IsError = true) :
    (SequenceOf parser1 rest).Run s = some bad := by
  simp [SequenceOf, Func_run_ok _ s hs, h1, hbad]

/-- Claim C2, at an input where the code departs from it.  The first step of the
sequence is `Chain(String("a"), _ -> String("b"))`, run on "ac" from offset 0; it
fails after "a", at offset 1, and `SequenceOf` returns that failed state as it is:
`Index` is 1 and `Result` is "a", not the offset 0 and the result of the entry
state. -/
theorem SequenceOf_first_step_failure_moves_offset :
    (SequenceOf (Chain (Match.String [97]) fun _ => Match.String [98]) [Match.String [99]]).Run
        (start [97, 99]) =
      some { Result := Value.str [97], Index := 1, Source := [97, 99], IsError := true,
             Err := some (Error.Errorf "unable to match %v" (Value.str [98])) } :=
  rfl

/-- Claim C3. On a non-failed state `s`, when the steps `parser1 :: rest` succeed in
turn, giving the states `ss`, `SequenceOf` returns a non-failed state whose `Result`
is the list of the results of `ss`, one per step and in step order, and whose `Index`
is the `Index` of the last of `ss`. -/
theorem SequenceOf_all_succeed (parser1 : Parser) (rest : List Parser) (s : State)
    (ss : List State) (hs : s.IsError = false)
    (hsteps : SucceedInTurn (parser1 :: rest) s ss) :
    ss.length = rest.length + 1 ∧
    ∃ sn, ss.getLast? = some sn ∧
      (SequenceOf parser1 rest).Run s =
        some { Result := Value.list (ss.map State.Result), Index := sn.Index,
               Source := s.Source, IsError := false, Err := s.Err } := by
  refine ⟨by simpa using SucceedInTurn_length _ _ _ hsteps, ?_⟩
  cases ss with
  | nil => simp [SucceedInTurn] at hsteps
  | cons t ts =>
    refine ⟨reached s (t :: ts), getLast?_eq_reached t ts s, ?_⟩
    simp only [SucceedInTurn] at hsteps
    obtain ⟨hrun, hok, hrest⟩ := hsteps
    have := SequenceOf_loop_all s rest t [t.Result] ts hrest
    simp [SequenceOf, Func_run_ok _ s hs, hrun, hok, this, State.WithResult, hs, reached]

/-- The sequence `"a"` then `"c"` against "ac", by C3: two results, offset 2. -/
theorem SequenceOf_all_succeed_witness :
    (SequenceOf (Match.String [97]) [Match.String [99]]).Run (start [97, 99]) =
      some { Result := Value.list [Value.str [97], Value.str [99]], Index := 2,
             Source := [97, 99], IsError := false, Err := none } := by
  obtain ⟨_, sn, hlast, hrun⟩ := SequenceOf_all_succeed (Match.String [97]) [Match.String [99]]
    (start [97, 99])
    [(start [97, 99]).WithResult (Value.str [97]) 1,
      ((start [97, 99]).WithResult (Value.str [97]) 1).WithResult (Value.str [99]) 2]
    rfl ⟨rfl, rfl, rfl, rfl, trivial⟩
  cases hlast
  exact hrun

/-! ## `Many` and `Many1` -/

/-- The loop of `Many` after `k` successes and a failure, given more than `k` rounds. -/
theorem Many_loop_stops (parser : Parser) : ∀ (k fuel : Nat) (s : State) (ss : List State)
    (results : List Value) (bad : State),
    SucceedInTurn (List.replicate k parser) s ss → parser.Run (reached s ss) = some bad →
    bad.IsError = true → k < fuel →
    Many.loop parser fuel s results = some (reached s ss, results ++ ss.map State.Result)
  | _, 0, _, _, _, _, _, _, _, hf => by omega
  | 0, fuel + 1, s, [], results, bad, _, hb, hbe, _ => by
    simp [reached] at hb
    simp [Many.loop, hb, hbe, reached]
  | 0, _ + 1, _, _ :: _, _, _, h, _, _, _ => by simp [SucceedInTurn] at h
  | _ + 1, _ + 1, _, [], _, _, h, _, _, _ => by simp [List.replicate, SucceedInTurn] at h
  | k + 1, fuel + 1, s, t :: ts, results, bad, h, hb, hbe, hf => by
    simp only [List.replicate, SucceedInTurn] at h
    obtain ⟨hrun, hok, hrest⟩ := h
    have ih := Many_loop_stops parser k fuel t ts (results ++ [t.Result]) bad hrest
      (by simpa [reached] using hb) hbe (by omega)
    simp [Many.loop, hrun, hok, ih, reached]

/-- The loop of `Many` only appends to `results`. -/
theorem Many_loop_grows (parser : Parser) : ∀ (fuel : Nat) (s st : State)
    (results out : List Value),
    Many.loop parser fuel s results = some (st, out) → results.length ≤ out.length
  | 0, _, _, _, _, h => by simp [Many.loop] at h
  | fuel + 1, s, st, results, out, h => by
    simp only [Many.loop] at h
    cases hrun : parser.Run s with
    | none => simp [hrun] at h
    | some next =>
      simp only [hrun] at h
      by_cases hn : next.IsError = true
      · simp [hn] at h
        rw [← h.2]
      · simp [hn] at h
        have := Many_loop_grows parser fuel next st _ out h
        simp at this
        omega

/-- The loop of `Many` ends in a non-failed state. -/
theorem Many_loop_state_ok (parser : Parser) : ∀ (fuel : Nat) (s st : State)
    (results out : List Value), s.IsError = false →
    Many.loop parser fuel s results = some (st, out) → st.IsError = false
  | 0, _, _, _, _, _, h => by simp [Many.loop] at h
  | fuel + 1, s, st, results, out, hs, h => by
    simp only [Many.loop] at h
    cases hrun : parser.Run s with
    | none => simp [hrun] at h
    | some next =>
      simp only [hrun] at h
      by_cases hn : next.IsError = true
      · simp [hn] at h
        rw [← h.1]; exact hs
      · simp [hn] at h
        exact Many_loop_state_ok parser fuel next st _ out (by simpa using hn) h

/-- From a non-failed state `Many` never returns a failed one. -/
theorem Many_never_fails (fuel : Nat) (parser : Parser) (s out : State)
    (hs : s.IsError = false) (h : (Many fuel parser).Run s = some out) : out.IsError = false := by
  rw [Many, Func_run_ok _ s hs] at h
  cases hl : Many.loop parser fuel s [] with
  | none => simp [hl] at h
  | some x =>
    obtain ⟨st, results⟩ := x
    simp [hl] at h
    rw [← h]
    exact Many_loop_state_ok parser fuel s st [] results hs hl

/-- Claim C4. On a non-failed state `s`, when `parser` succeeds `k` times in a row,
giving the states `ss`, and then returns the failed state `bad`, `Many` (allowed more
than `k` rounds) returns a non-failed state: its `Result` lists the `k` results in
order, its `Index` is that of the last success (of `s` when `k = 0`), and no field of
it comes from `bad`. -/
theorem Many_collects (parser : Parser) (s bad : State) (ss : List State) (k fuel : Nat)
    (hs : s.IsError = false)
    (hsteps : SucceedInTurn (List.replicate k parser) s ss)
    (hstop : parser.Run (reached s ss) = some bad) (hbad : bad.IsError = true)
    (hfuel : k < fuel) :
    ss.length = k ∧
    (Many fuel parser).Run s =
      some { Result := Value.list (ss.map State.Result), Index := (reached s ss).Index,
             Source := (reached s ss).Source, IsError := false, Err := (reached s ss).Err } := by
  refine ⟨by simpa using SucceedInTurn_length _ _ _ hsteps, ?_⟩
  have hl := Many_loop_stops parser k fuel s ss [] bad hsteps hstop hbad hfuel
  have hr := reached_ok _ s ss hs hsteps
  simp [Many, Func_run_ok _ s hs, hl, State.WithResult, hr]

/-- Scenario 2 of the contract, by C4: `Many` of the space matcher against "   x"
yields three spaces and offset 3. -/
theorem Many_collects_witness :
    (Many 4 (Match.Rune isBlank none)).Run (start [32, 32, 32, 120]) =
      some { Result := Value.list [Value.rune 32, Value.rune 32, Value.rune 32], Index := 3,
             Source := [32, 32, 32, 120], IsError := false, Err := none } :=
  (Many_collects (Match.Rune isBlank none) (start [32, 32, 32, 120])
    { Result := Value.rune 32, Index := 3, Source := [32, 32, 32, 120], IsError := true,
      Err := none }
    [{ Result := Value.rune 32, Index := 1, Source := [32, 32, 32, 120], IsError := false,
       Err := none },
     { Result := Value.rune 32, Index := 2, Source := [32, 32, 32, 120], IsError := false,
       Err := none },
     { Result := Value.rune 32, Index := 3, Source := [32, 32, 32, 120], IsError := false,
       Err := none }]
    3 4 rfl ⟨rfl, rfl, rfl, rfl, rfl, rfl, trivial⟩ rfl rfl (by decide)).2

/-- Claim C5. On a non-failed state `s` with `parser.Run s = some t`: when `t` is not
failed, `Many1` and `Many` return the same (with the same `fuel`); when `t` is
failed, `Many1` returns `s` marked failed, with the `Index` and `Result` of `s`. -/
theorem Many1_vs_Many (fuel : Nat) (parser : Parser) (s t : State) (hs : s.IsError = false)
    (hrun : parser.Run s = some t) :
    (t.IsError = false → (Many1 fuel parser).Run s = (Many fuel parser).Run s) ∧
    (t.IsError = true →
      (Many1 (fuel + 1) parser).Run s =
        some { Result := s.Result, Index := s.Index, Source := s.Source, IsError := true,
               Err := some (Error.New "failed to match at least once") }) := by
  constructor
  · intro ht
    rw [Many1, Many, Func_run_ok _ s hs, Func_run_ok _ s hs]
    cases hl : Many.loop parser fuel s [] with
    | none => rfl
    | some x =>
      obtain ⟨st, results⟩ := x
      cases fuel with
      | zero => simp [Many.loop] at hl
      | succ fuel =>
        simp only [Many.loop, hrun, ht] at hl
        have := Many_loop_grows parser fuel t st _ results (by simpa using hl)
        simp at this
        simp [this]
  · intro ht
    simp [Many1, Func_run_ok _ s hs, Many.loop, hrun, ht, State.WithError]

/-- The two halves of C5: on " x" both `Many1` and `Many` of the space matcher give
one space and offset 1; on "x" `Many1` fails at offset 0. -/
theorem Many1_vs_Many_witness :
    ((Many1 2 (Match.Rune isBlank none)).Run (start [32, 120]) =
        (Many 2 (Match.Rune isBlank none)).Run (start [32, 120]) ∧
      (Many 2 (Match.Rune isBlank none)).Run (start [32, 120]) =
        some { Result := Value.list [Value.rune 32], Index := 1, Source := [32, 120],
               IsError := false, Err := none }) ∧
    (Many1 1 (Match.Rune isBlank none)).Run (start [120]) =
      some { Result := Value.nil, Index := 0, Source := [120], IsError := true,
             Err := some (Error.New "failed to match at least once") } :=
  ⟨⟨(Many1_vs_Many 2 (Match.Rune isBlank none) (start [32, 120])
      ((start [32, 120]).WithResult (Value.rune 32) 1) rfl rfl).1 rfl, rfl⟩,
    (Many1_vs_Many 0 (Match.Rune isBlank none) (start [120])
      ((start [120]).WithError none) rfl rfl).2 rfl⟩

/-! ## `match.String` and `match.StringInsensitive` -/

/-- For slices of one length `HasPrefix` is equality. -/
theorem HasPrefix_same_length (a b : List UInt8) (h : b.length = a.length) :
    bytes.HasPrefix a b = true ↔ b = a := by
  unfold bytes.HasPrefix
  simp [h]
  constructor
  · intro e; exact e.symm
  · intro e; exact e.symm

/-- The function `bytes.HasPrefix` decides the prefix relation. -/
theorem HasPrefix_iff (s pre : List UInt8) : bytes.HasPrefix s pre = true ↔ pre <+: s := by
  unfold bytes.HasPrefix
  rw [List.prefix_iff_eq_take]
  simp only [ge_iff_le, Bool.and_eq_true, decide_eq_true_eq, beq_iff_eq]
  constructor
  · rintro ⟨_, h⟩; exact h.symm
  · intro h
    refine ⟨?_, h.symm⟩
    have := congrArg List.length h
    simp [List.length_take] at this
    omega

/-- The run of `match.String` on a non-failed state, in one equation. -/
theorem String_run (lit : List UInt8) (st : State) (hs : st.IsError = false) :
    (Match.String lit).Run st =
      if Readable st.Source lit.length st.Index ∧ lit <+: st.Source.drop st.Index.toNat then
        some { Result := Value.str lit, Index := st.Index + lit.length, Source := st.Source,
               IsError := false, Err := st.Err }
      else
        some { Result := st.Result, Index := st.Index, Source := st.Source, IsError := true,
               Err := some (Error.Errorf "unable to match %v" (Value.str lit)) } := by
  unfold Match.String
  rw [Func_run_ok _ st hs]
  by_cases hr : Readable st.Source lit.length st.Index
  · have hlen : ((st.Source.drop st.Index.toNat).take lit.length).length = lit.length := by
      obtain ⟨h0, h1, h2⟩ := hr
      simp [List.length_take, List.length_drop]; omega
    simp only [State.ReadNextBytes, ReadAt_of_readable _ _ _ hr]
    by_cases hp : lit <+: st.Source.drop st.Index.toNat
    · have : bytes.HasPrefix lit ((st.Source.drop st.Index.toNat).take lit.length) = true := by
        rw [HasPrefix_same_length _ _ hlen]
        exact (List.prefix_iff_eq_take.mp hp).symm
      simp [this, hr, hp, State.WithResult, hs]
    · have : bytes.HasPrefix lit ((st.Source.drop st.Index.toNat).take lit.length) = false := by
        rw [Bool.eq_false_iff]
        intro hh
        rw [HasPrefix_same_length _ _ hlen] at hh
        exact hp (List.prefix_iff_eq_take.mpr hh.symm)
      simp [this, hr, hp, State.WithError]
  · obtain ⟨buff, k, e, he⟩ := ReadAt_of_not_readable _ _ _ hr
    simp [State.ReadNextBytes, he, hr, State.WithError]

/-- Claim C6 fails for the empty literal at the end of the source: the bytes from
offset 0 of the empty source begin with the empty literal, yet `String("")` fails
there, the read at the end of the source reporting `io.EOF`. -/
theorem String_empty_literal_at_end :
    ([] : List UInt8) <+: ([] : List UInt8).drop (0 : Int).toNat ∧
    (Match.String []).Run (start []) =
      some { Result := Value.nil, Index := 0, Source := [], IsError := true,
             Err := some (Error.Errorf "unable to match %v" (Value.str [])) } :=
  ⟨List.nil_prefix, rfl⟩

/-- Claim C6, as amended. On a non-failed state `st`: when `st.Index` is an offset
inside the source and the source bytes from `st.Index` on begin with `lit`,
`String lit` returns a non-failed state with `Result = lit` and
`Index = st.Index + len(lit)`; in every other case (the bytes there do not begin
with `lit`, fewer than `len(lit)` bytes remain, or `st.Index` is not inside the
source, as at the end of the source for the empty literal) it returns `st` marked
failed, `Index` and `Result` unchanged. -/
theorem String_contract (lit : List UInt8) (st : State) (hs : st.IsError = false) :
    ((0 ≤ st.Index ∧ st.Index < (st.Source.length : Int) ∧
        lit <+: st.Source.drop st.Index.toNat) →
      (Match.String lit).Run st =
        some { Result := Value.str lit, Index := st.Index + lit.length, Source := st.Source,
               IsError := false, Err := st.Err }) ∧
    (¬ (0 ≤ st.Index ∧ st.Index < (st.Source.length : Int) ∧
        lit <+: st.Source.drop st.Index.toNat) →
      (Match.String lit).Run st =
        some { Result := st.Result, Index := st.Index, Source := st.Source, IsError := true,
               Err := some (Error.Errorf "unable to match %v" (Value.str lit)) }) := by
  have hiff : (Readable st.Source lit.length st.Index ∧ lit <+: st.Source.drop st.Index.toNat) ↔
      (0 ≤ st.Index ∧ st.Index < (st.Source.length : Int) ∧
        lit <+: st.Source.drop st.Index.toNat) := by
    constructor
    · rintro ⟨⟨h0, h1, _⟩, hp⟩
      exact ⟨h0, h1, hp⟩
    · rintro ⟨h0, h1, hp⟩
      have := hp.length_le
      rw [List.length_drop] at this
      exact ⟨⟨h0, h1, by omega⟩, hp⟩
  rw [String_run lit st hs]
  constructor
  · intro h
    rw [if_pos (hiff.mpr h)]
  · intro h
    rw [if_neg (fun hh => h (hiff.mp hh))]

/-- The round trip of C6: the literal "ac" against "acd" from offset 0. -/
theorem String_contract_witness :
    (Match.String [97, 99]).Run (start [97, 99, 100]) =
      some { Result := Value.str [97, 99], Index := 2, Source := [97, 99, 100],
             IsError := false, Err := none } :=
  (String_contract [97, 99] (start [97, 99, 100]) rfl).1
    ⟨by decide, by decide, by decide⟩

/-- On ASCII bytes `bytes.ToUpper` upper-cases byte by byte, for any case table. -/
theorem ToUpper_ascii (tbl : Int → Int) (s : List UInt8) (h : IsASCII s) :
    bytes.ToUpper tbl s = s.map asciiUpper := by
  have hall : (s.all fun c => decide (c.toNat < utf8.RuneSelf)) = true := by
    simp only [List.all_eq_true, decide_eq_true_eq]
    exact h
  unfold bytes.ToUpper
  simp only [hall, if_true]
  split_ifs with hl
  · symm
    have : ∀ c ∈ s, asciiUpper c = c := by
      intro c hc
      simp only [Bool.not_eq_true', List.any_eq_false, decide_eq_true_eq] at hl
      unfold asciiUpper
      rw [if_neg (by simpa using hl c hc)]
    calc s.map asciiUpper = s.map id := List.map_congr_left this
      _ = s := List.map_id s
  · rfl

/-- On ASCII bytes `bytes.ToUpper` keeps the length. -/
theorem ToUpper_ascii_length (tbl : Int → Int) (s : List UInt8) (h : IsASCII s) :
    (bytes.ToUpper tbl s).length = s.length := by
  rw [ToUpper_ascii tbl s h, List.length_map]

/-- Upper-casing a byte neither makes nor unmakes an ASCII byte. -/
theorem asciiUpper_ascii (c : UInt8) : (asciiUpper c).toNat < 0x80 ↔ c.toNat < 0x80 := by
  unfold asciiUpper
  split_ifs with h
  · have h1 := UInt8.toNat_sub c 32
    have h32 : (32 : UInt8).toNat = 32 := rfl
    have h256 : UInt8.size = 256 := rfl
    rw [h32, h256] at h1
    omega
  · rfl

/-- Bytes equal to ASCII bytes up to case are ASCII. -/
theorem IsASCII_of_equalUpToCase (w t : List UInt8) (ht : IsASCII t) (h : EqualUpToCase w t) :
    IsASCII w := by
  intro c hc
  have hm : asciiUpper c ∈ t.map asciiUpper := by
    rw [← h]; exact List.mem_map_of_mem _ hc
  obtain ⟨d, hd, hcd⟩ := List.mem_map.mp hm
  rw [← asciiUpper_ascii, ← hcd, asciiUpper_ascii]
  exact ht d hd

/-- The run of `match.StringInsensitive` on a non-failed state, in one equation. -/
theorem StringInsensitive_run (tbl : Int → Int) (lit : List UInt8) (st : State)
    (hs : st.IsError = false) :
    (Match.StringInsensitive tbl lit).Run st =
      if Readable st.Source (bytes.ToUpper tbl lit).length st.Index ∧
          bytes.ToUpper tbl ((st.Source.drop st.Index.toNat).take (bytes.ToUpper tbl lit).length)
            <+: bytes.ToUpper tbl lit then
        some { Result := Value.str lit, Index := st.Index + (bytes.ToUpper tbl lit).length,
               Source := st.Source, IsError := false, Err := st.Err }
      else
        some { Result := st.Result, Index := st.Index, Source := st.Source, IsError := true,
               Err := some (Error.Errorf "unable to match %v" (Value.str lit)) } := by
  unfold Match.StringInsensitive
  simp only []
  rw [Func_run_ok _ st hs]
  by_cases hr : Readable st.Source (bytes.ToUpper tbl lit).length st.Index
  · simp only [State.ReadNextBytes, ReadAt_of_readable _ _ _ hr]
    by_cases hp : bytes.ToUpper tbl
        ((st.Source.drop st.Index.toNat).take (bytes.ToUpper tbl lit).length)
          <+: bytes.ToUpper tbl lit
    · have := (HasPrefix_iff _ _).mpr hp
      simp [this, hr, hp, State.WithResult, hs]
    · have : bytes.HasPrefix (bytes.ToUpper tbl lit) (bytes.ToUpper tbl
          ((st.Source.drop st.Index.toNat).take (bytes.ToUpper tbl lit).length)) = false := by
        rw [Bool.eq_false_iff]
        intro hh
        exact hp ((HasPrefix_iff _ _).mp hh)
      simp [this, hr, hp, State.WithError]
  · obtain ⟨buff, k, e, he⟩ := ReadAt_of_not_readable _ _ _ hr
    simp [State.ReadNextBytes, he, hr, State.WithError]

/-- Claim C7 fails outside ASCII.  The one-byte text `0xFF` is upper-cased to the
three bytes of U+FFFD, so against a source holding these three bytes the matcher
succeeds at offset 3, not at `0 + len(text) = 1`.  And the text "ia" matches the
two-byte source "ı" (U+0131): that is upper-cased to "I", a prefix of "IA", although
"I" and "IA" differ. -/
theorem StringInsensitive_beyond_ascii :
    ((Match.StringInsensitive upperCaseSample [0xFF]).Run (start [0xEF, 0xBF, 0xBD]) =
        some { Result := Value.str [0xFF], Index := 3, Source := [0xEF, 0xBF, 0xBD],
               IsError := false, Err := none } ∧
      ([0xFF] : List UInt8).length = 1) ∧
    ((Match.StringInsensitive upperCaseSample [105, 97]).Run (start [0xC4, 0xB1]) =
        some { Result := Value.str [105, 97], Index := 2, Source := [0xC4, 0xB1],
               IsError := false, Err := none } ∧
      bytes.ToUpper upperCaseSample [0xC4, 0xB1] = [73] ∧
      bytes.ToUpper upperCaseSample [105, 97] = [73, 65]) :=
  ⟨⟨rfl, rfl⟩, rfl, rfl, rfl⟩

/-- Claim C7, as amended. On a non-failed state `st`, `StringInsensitive lit`
succeeds iff `len(ToUpper(lit))` bytes can be read at `st.Index` and their upper-casing
is a prefix of `ToUpper(lit)`.  On success `Result` is `lit` and `Index` is
`st.Index + len(ToUpper(lit))`; for an ASCII `lit` that is `st.Index + len(lit)`, and
if the bytes read are ASCII too they equal `lit` once both are upper-cased.  On
failure `Index` is `st.Index`. -/
theorem StringInsensitive_contract (tbl : Int → Int) (lit : List UInt8) (st : State)
    (hs : st.IsError = false) :
    ∃ out, (Match.StringInsensitive tbl lit).Run st = some out ∧
      (out.IsError = false ↔
        Readable st.Source (bytes.ToUpper tbl lit).length st.Index ∧
        bytes.ToUpper tbl ((st.Source.drop st.Index.toNat).take (bytes.ToUpper tbl lit).length)
          <+: bytes.ToUpper tbl lit) ∧
      (out.IsError = false →
        out.Result = Value.str lit ∧
        out.Index = st.Index + (bytes.ToUpper tbl lit).length ∧
        (IsASCII lit → out.Index = st.Index + lit.length ∧
          (IsASCII ((st.Source.drop st.Index.toNat).take lit.length) →
            bytes.ToUpper tbl ((st.Source.drop st.Index.toNat).take lit.length) =
              bytes.ToUpper tbl lit))) ∧
      (out.IsError = true → out.Index = st.Index) := by
  rw [StringInsensitive_run tbl lit st hs]
  split_ifs with h
  · refine ⟨_, rfl, by simpa using h, ?_, by simp⟩
    intro _
    refine ⟨rfl, rfl, ?_⟩
    intro hascii
    have hlen := ToUpper_ascii_length tbl lit hascii
    refine ⟨by simp [hlen], ?_⟩
    intro hw
    obtain ⟨hr, hp⟩ := h
    rw [hlen] at hp hr
    have hwl := take_drop_length _ _ _ hr
    have hl2 : (bytes.ToUpper tbl ((st.Source.drop st.Index.toNat).take lit.length)).length =
        (bytes.ToUpper tbl lit).length := by
      rw [ToUpper_ascii_length tbl _ hw, hwl, hlen]
    exact List.IsPrefix.eq_of_length hp hl2
  · exact ⟨_, rfl, by simpa using h, by simp, by simp⟩

/-- Scenario 1 of the contract, by C7: "select" against "SELECT " succeeds with the
result "select" and offset 6. -/
theorem StringInsensitive_contract_witness :
    ∃ out, (Match.StringInsensitive upperCaseSample [115, 101, 108, 101, 99, 116]).Run
        (start [83, 69, 76, 69, 67, 84, 32]) = some out ∧
      out.IsError = false ∧ out.Result = Value.str [115, 101, 108, 101, 99, 116] ∧
      out.Index = 6 := by
  obtain ⟨out, hrun, hiff, hok, _⟩ := StringInsensitive_contract upperCaseSample
    [115, 101, 108, 101, 99, 116] (start [83, 69, 76, 69, 67, 84, 32]) rfl
  have hgood : out.IsError = false := hiff.mpr (by decide)
  exact ⟨out, hrun, hgood, (hok hgood).1, (hok hgood).2.1⟩

/-- Claim C8 fails for the empty text at the end of the source: the empty text is
ASCII and the zero bytes at offset 0 of the empty source are that text up to case,
yet the matcher fails, the read at the end of the source reporting `io.EOF`. -/
theorem StringInsensitive_empty_text_at_end :
    IsASCII [] ∧
    EqualUpToCase ((([] : List UInt8).drop (0 : Int).toNat).take ([] : List UInt8).length) [] ∧
    (Match.StringInsensitive upperCaseSample []).Run (start []) =
      some { Result := Value.nil, Index := 0, Source := [], IsError := true,
             Err := some (Error.Errorf "unable to match %v" (Value.str [])) } :=
  ⟨fun _ h => absurd h (List.not_mem_nil _), rfl, rfl⟩

/-- Claim C8, as amended. For an ASCII text `t` and a non-failed state `st` whose
offset lies inside the source and whose source bytes at `st.Index` are `t` up to
ASCII letter case, `StringInsensitive t` returns a non-failed state with `Result = t`
as given and `Index = st.Index + len(t)`. -/
theorem StringInsensitive_ascii_match (tbl : Int → Int) (t : List UInt8) (st : State)
    (hs : st.IsError = false) (hascii : IsASCII t)
    (hin : 0 ≤ st.Index ∧ st.Index < (st.Source.length : Int))
    (heq : EqualUpToCase ((st.Source.drop st.Index.toNat).take t.length) t) :
    (Match.StringInsensitive tbl t).Run st =
      some { Result := Value.str t, Index := st.Index + t.length, Source := st.Source,
             IsError := false, Err := st.Err } := by
  have hlen := ToUpper_ascii_length tbl t hascii
  have hwlen : ((st.Source.drop st.Index.toNat).take t.length).length = t.length := by
    have := congrArg List.length heq
    simpa using this
  have hr : Readable st.Source t.length st.Index := by
    refine ⟨hin.1, hin.2, ?_⟩
    simp only [List.length_take, List.length_drop] at hwlen
    omega
  have hw := IsASCII_of_equalUpToCase _ _ hascii heq
  rw [StringInsensitive_run tbl t st hs, hlen, if_pos]
  refine ⟨hr, ?_⟩
  rw [ToUpper_ascii tbl _ hw, ToUpper_ascii tbl _ hascii, heq]

/-- Scenario 1 of the contract, by C8: "select" against "SELECT ". -/
theorem StringInsensitive_ascii_match_witness :
    (Match.StringInsensitive upperCaseSample [115, 101, 108, 101, 99, 116]).Run
        (start [83, 69, 76, 69, 67, 84, 32]) =
      some { Result := Value.str [115, 101, 108, 101, 99, 116], Index := 6,
             Source := [83, 69, 76, 69, 67, 84, 32], IsError := false, Err := none } :=
  StringInsensitive_ascii_match upperCaseSample [115, 101, 108, 101, 99, 116]
    (start [83, 69, 76, 69, 67, 84, 32]) rfl (by decide) ⟨by decide, by decide⟩ (by decide)

/-! ## `match.Rune` and `match.Runes` -/

/-- Claim C9 fails at a byte that starts no UTF-8 encoding: `0xFF` is read as
U+FFFD with width 1, so the matcher advances by one byte, while the UTF-8 encoding
of U+FFFD has three. -/
theorem Rune_invalid_byte :
    (Match.Rune (fun _ => true) none).Run (start [0xFF]) =
      some { Result := Value.rune 0xFFFD, Index := 1, Source := [0xFF], IsError := false,
             Err := none } ∧
    (utf8.AppendRune [] 0xFFFD).length = 3 :=
  ⟨rfl, rfl⟩

/-- Claim C9, as amended. On a non-failed state `st` the read `st.ReadNextRune`
returns some `(r, n, err)`.  When it gave a rune (`err = none`) that satisfies `fn`,
`Rune fn errVal` returns a non-failed state with `Result = r` and
`Index = st.Index + n`, where `1 ≤ n ≤ 4`; otherwise it returns `st` marked failed
with `Err = errVal`, `Index` and `Result` unchanged.  The rune and its width are
those of the source bytes at `st.Index`: when these begin with the UTF-8 encoding of
a scalar value, the read gives that value and `n` is the length of its encoding;
when a rune is read and they begin with no such encoding, `r` is U+FFFD and `n = 1`.
A rune is read exactly when `st.Index` is not negative and the bytes left there, none
at all included, are more than a proper beginning of such an encoding. -/
theorem Rune_contract (fn : Int → Bool) (errVal : Option Error) (st : State)
    (hs : st.IsError = false) :
    ∃ r n err, st.ReadNextRune = some (r, n, err) ∧
      ((err = none ∧ fn r = true) →
        (Match.Rune fn errVal).Run st =
          some { Result := Value.rune r, Index := st.Index + n, Source := st.Source,
                 IsError := false, Err := st.Err } ∧
        1 ≤ n ∧ n ≤ 4) ∧
      (¬ (err = none ∧ fn r = true) →
        (Match.Rune fn errVal).Run st =
          some { Result := st.Result, Index := st.Index, Source := st.Source,
                 IsError := true, Err := errVal }) ∧
      (∀ v, EncodedAt st v → err = none ∧ r = v ∧ n = (utf8.AppendRune [] v).length) ∧
      (err = none → (¬ ∃ v, EncodedAt st v) → r = utf8.RuneError ∧ n = 1) ∧
      (err = none ↔ 0 ≤ st.Index ∧ ¬ CutOffAt st) := by
  obtain ⟨r, n, err, h⟩ := ReadNextRune_returns st
  refine ⟨r, n, err, h, ?_, ?_, ?_, ?_, ReadNextRune_reads_iff st r n err h⟩
  · rintro ⟨he, hf⟩
    subst he
    obtain ⟨h1, h4, _, _, _⟩ := ReadNextRune_ok st r n h
    refine ⟨?_, h1, h4⟩
    simp [Match.Rune, Func_run_ok _ st hs, h, hf, State.WithResult, hs]
  · intro hno
    cases err with
    | none =>
      have hf : fn r = false := by simpa using hno
      simp [Match.Rune, Func_run_ok _ st hs, h, hf, State.WithError]
    | some e => simp [Match.Rune, Func_run_ok _ st hs, h, State.WithError]
  · intro v hv
    have := (ReadNextRune_encoded st v hv).1
    rw [h] at this
    simp only [Option.some.injEq, Prod.mk.injEq] at this
    exact ⟨this.2.2, this.1, this.2.1⟩
  · intro he hno
    subst he
    exact ReadNextRune_not_encoded st r n h hno

/-- The rune matcher on the three bytes `E2 82 AC`, by C9: they are the encoding of
U+20AC, so the result is U+20AC and the offset moves by 3, the length of that
encoding. -/
theorem Rune_contract_witness :
    EncodedAt (start [0xE2, 0x82, 0xAC]) 0x20AC ∧
    (utf8.AppendRune [] 0x20AC).length = 3 ∧
    (Match.Rune (fun _ => true) none).Run (start [0xE2, 0x82, 0xAC]) =
      some { Result := Value.rune 0x20AC, Index := 3, Source := [0xE2, 0x82, 0xAC],
             IsError := false, Err := none } := by
  have henc : EncodedAt (start [0xE2, 0x82, 0xAC]) 0x20AC :=
    ⟨by decide, by decide, [], rfl⟩
  obtain ⟨r, n, err, _, hok, _, hval, _⟩ :=
    Rune_contract (fun _ => true) none (start [0xE2, 0x82, 0xAC]) rfl
  obtain ⟨he, hr, hn⟩ := hval 0x20AC henc
  subst he hr
  have hn3 : n = 3 := hn
  subst hn3
  exact ⟨henc, rfl, (hok ⟨rfl, rfl⟩).1⟩

/-- The loop of `match.Runes`, given more rounds than bytes remain: it returns, having
read a maximal run of runes that satisfy `fn`. -/
theorem Runes_loop_spec (fn : Int → Bool) (errVal : Option Error) (state : State) :
    ∀ (fuel : Nat) (cstate : State) (runesRead : List Int),
      0 < fuel → (0 ≤ cstate.Index → ((cstate.Source.length : Int) - cstate.Index).toNat < fuel) →
      ∃ run : List (Int × Nat), ReadsRun fn cstate run ∧
        (∀ r n, State.ReadNextRune { cstate with Index := cstate.Index + ((run.map Prod.snd).sum : Nat) }
            = some (r, n, none) → fn r = false) ∧
        Match.Runes.loop fn errVal state fuel cstate runesRead =
          some (if (runesRead ++ run.map Prod.fst).length ≥ 1 then
              state.WithResult (Value.runes (runesRead ++ run.map Prod.fst))
                (cstate.Index + ((run.map Prod.snd).sum : Nat))
            else state.WithError errVal)
  | 0, _, _, h, _ => by omega
  | fuel + 1, cstate, runesRead, _, hfuel => by
    obtain ⟨r, n, err, h⟩ := ReadNextRune_returns cstate
    by_cases hgo : err = none ∧ fn r = true
    · obtain ⟨he, hf⟩ := hgo
      subst he
      obtain ⟨h1, h4, h0, hle, _⟩ := ReadNextRune_ok cstate r n h
      obtain ⟨run, hrun, hstop, hloop⟩ := Runes_loop_spec fn errVal state fuel
        { cstate with Index := cstate.Index + n } (runesRead ++ [r])
        (by have := hfuel h0; omega) (fun _ => by have := hfuel h0; simp only; omega)
      refine ⟨(r, n) :: run, ⟨h, hf, hrun⟩, ?_, ?_⟩
      · intro r1 n1 hr1
        apply hstop r1 n1
        rw [← hr1]
        simp [add_assoc]
      · simp only [Match.Runes.loop, h, hf]
        simp at hloop ⊢
        rw [hloop]
        simp [add_assoc]
    · refine ⟨[], trivial, ?_, ?_⟩
      · intro r1 n1 hr1
        simp at hr1
        rw [h] at hr1
        simp at hr1
        obtain ⟨rfl, _, rfl⟩ := hr1
        simpa using hgo
      · cases err with
        | none =>
          have hf : fn r = false := by simpa using hgo
          simp [Match.Runes.loop, h, hf]
          split_ifs <;> rfl
        | some e =>
          simp [Match.Runes.loop, h]
          split_ifs <;> rfl

/-- Claim C10. On a non-failed state `st` over a source shorter than `fuel`,
`Runes fn errVal` returns.  It succeeds iff a first rune can be read at `st.Index`
and satisfies `fn`.  On success there is a non-empty run of runes, read one after
another from `st.Index` and all satisfying `fn`, such that `Result` is that run,
`Index` is `st.Index` plus the bytes the run was read from, and a rune readable at
the new `Index` does not satisfy `fn`.  On failure `Err = errVal` and `Index`
is `st.Index`. -/
theorem Runes_contract (fuel : Nat) (fn : Int → Bool) (errVal : Option Error) (st : State)
    (hs : st.IsError = false) (hfuel : st.Source.length < fuel) :
    ∃ out, (Match.Runes fuel fn errVal).Run st = some out ∧
      (out.IsError = false ↔ ∃ r n, st.ReadNextRune = some (r, n, none) ∧ fn r = true) ∧
      (out.IsError = false →
        ∃ run : List (Int × Nat), run ≠ [] ∧ ReadsRun fn st run ∧
          out.Result = Value.runes (run.map Prod.fst) ∧
          out.Index = st.Index + ((run.map Prod.snd).sum : Nat) ∧
          ∀ r n, State.ReadNextRune { st with Index := out.Index } = some (r, n, none) →
            fn r = false) ∧
      (out.IsError = true → out.Err = errVal ∧ out.Index = st.Index) := by
  obtain ⟨run, hrun, hstop, hloop⟩ := Runes_loop_spec fn errVal st fuel st [] (by omega)
    (fun _ => by omega)
  simp only [List.nil_append] at hloop
  cases run with
  | nil =>
    refine ⟨st.WithError errVal, ?_, ?_, ?_, ?_⟩
    · simpa [Match.Runes, Func_run_ok _ st hs] using hloop
    · simp only [State.WithError, Bool.true_eq_false, false_iff]
      rintro ⟨r, n, hr, hf⟩
      have := hstop r n (by simpa using hr)
      rw [hf] at this
      exact absurd this (by simp)
    · intro h
      simp [State.WithError] at h
    · intro _
      simp [State.WithError]
  | cons x rest =>
    refine ⟨st.WithResult (Value.runes ((x :: rest).map Prod.fst))
      (st.Index + (((x :: rest).map Prod.snd).sum : Nat)), ?_, ?_, ?_, ?_⟩
    · simpa [Match.Runes, Func_run_ok _ st hs] using hloop
    · simp only [State.WithResult, hs, true_iff]
      exact ⟨x.1, x.2, hrun.1, hrun.2.1⟩
    · intro _
      exact ⟨x :: rest, by simp, hrun, rfl, rfl, hstop⟩
    · intro h
      simp [State.WithResult, hs] at h

/-- The run matcher against "   x", by C10, with room for five rounds. -/
theorem Runes_contract_witness :
    ∃ out, (Match.Runes 5 isBlank none).Run (start [32, 32, 32, 120]) = some out ∧
      (out.IsError = false ↔
        ∃ r n, (start [32, 32, 32, 120]).ReadNextRune = some (r, n, none) ∧ isBlank r = true) ∧
      (out.IsError = false →
        ∃ run : List (Int × Nat), run ≠ [] ∧ ReadsRun isBlank (start [32, 32, 32, 120]) run ∧
          out.Result = Value.runes (run.map Prod.fst) ∧
          out.Index = (start [32, 32, 32, 120]).Index + ((run.map Prod.snd).sum : Nat) ∧
          ∀ r n, State.ReadNextRune { start [32, 32, 32, 120] with Index := out.Index } =
              some (r, n, none) → isBlank r = false) ∧
      (out.IsError = true → out.Err = none ∧ out.Index = (start [32, 32, 32, 120]).Index) :=
  Runes_contract 5 isBlank none (start [32, 32, 32, 120]) rfl (by decide)

/-- The same run, evaluated: three spaces, offset 3. -/
theorem Runes_three_blanks :
    (Match.Runes 5 isBlank none).Run (start [32, 32, 32, 120]) =
      some { Result := Value.runes [32, 32, 32], Index := 3, Source := [32, 32, 32, 120],
             IsError := false, Err := none } :=
  rfl

/-! ## `match.Until` -/

/-- The loop of `Until` runs through rounds in which `endp` fails and `body`
succeeds. -/
theorem Until_loop_steps (endp body : Parser) : ∀ (ss : List State) (m : Nat) (s : State)
    (results : List Value), UntilSteps endp body s ss →
      Match.Until.loop endp body (ss.length + m) s results =
        Match.Until.loop endp body m (reached s ss) (results ++ ss.map State.Result)
  | [], m, s, results, _ => by simp [reached]
  | t :: ts, m, s, results, h => by
    simp only [UntilSteps] at h
    obtain ⟨⟨e, he, hee⟩, hb, ht, hrest⟩ := h
    have ih := Until_loop_steps endp body ts m t (results ++ [t.Result]) hrest
    have hl : (t :: ts).length + m = (ts.length + m) + 1 := by simp; omega
    rw [hl]
    simp [Match.Until.loop, he, hee, hb, ht, ih, reached]

/-- The state reached through rounds of `Until` is not failed. -/
theorem UntilSteps_reached_ok (endp body : Parser) : ∀ (ss : List State) (s : State),
    s.IsError = false → UntilSteps endp body s ss → (reached s ss).IsError = false
  | [], _, hs, _ => hs
  | t :: ts, _, _, h => by
    simp only [UntilSteps] at h
    exact UntilSteps_reached_ok endp body ts t h.2.2.1 h.2.2.2

/-- Claim C11. On a non-failed state `st`, when for `k` rounds `endp` fails and
`body` then succeeds, giving the states `ss`, and `endp` then succeeds on the state
`c` reached, `Until` (allowed more than `k` rounds) returns a non-failed state whose
`Result` lists the `k` results of `body` in order and whose `Index` is `c.Index`, the
offset at which `endp` was tried: nothing of what `endp` returned is in it. -/
theorem Until_stops_before_end (fuel : Nat) (endp body : Parser) (st e : State)
    (ss : List State) (hs : st.IsError = false)
    (hsteps : UntilSteps endp body st ss)
    (hend : endp.Run (reached st ss) = some e) (he : e.IsError = false)
    (hfuel : ss.length < fuel) :
    (Match.Until fuel endp body).Run st =
      some { Result := Value.list (ss.map State.Result), Index := (reached st ss).Index,
             Source := (reached st ss).Source, IsError := false,
             Err := (reached st ss).Err } := by
  obtain ⟨m, rfl⟩ : ∃ m, fuel = ss.length + (m + 1) := ⟨fuel - ss.length - 1, by omega⟩
  have hok := UntilSteps_reached_ok endp body ss st hs hsteps
  rw [Match.Until, Func_run_ok _ st hs, Until_loop_steps endp body ss (m + 1) st [] hsteps]
  simp [Match.Until.loop, hend, he, State.WithResult, hok]

/-- Scenario 5 of the contract, by C11: `Until(";")` over any rune against "ab;"
yields the runes `a` and `b` and stops at offset 2, before the `;`. -/
theorem Until_stops_before_end_witness :
    (Match.Until 3 (Match.String [59]) Match.AnyRune).Run (start [97, 98, 59]) =
      some { Result := Value.list [Value.rune 97, Value.rune 98], Index := 2,
             Source := [97, 98, 59], IsError := false, Err := none } :=
  Until_stops_before_end 3 (Match.String [59]) Match.AnyRune (start [97, 98, 59])
    { Result := Value.str [59], Index := 3, Source := [97, 98, 59], IsError := false,
      Err := none }
    [{ Result := Value.rune 97, Index := 1, Source := [97, 98, 59], IsError := false,
       Err := none },
     { Result := Value.rune 98, Index := 2, Source := [97, 98, 59], IsError := false,
       Err := none }]
    rfl ⟨⟨_, rfl, rfl⟩, rfl, rfl, ⟨_, rfl, rfl⟩, rfl, rfl, trivial⟩ rfl rfl (by decide)

/-- Claim C12. On a non-failed state `st`, when after some rounds `endp` fails on
the current state `c`, returning `e`, and `body` fails on `c` too, `Until` returns
`e`, the failed state of `endp`: its `Err` is the error of `endp`, not that of
`body`. -/
theorem Until_body_failure_returns_end_failure (fuel : Nat) (endp body : Parser)
    (st e b : State) (ss : List State) (hs : st.IsError = false)
    (hsteps : UntilSteps endp body st ss)
    (hend : endp.Run (reached st ss) = some e) (he : e.IsError = true)
    (hbody : body.Run (reached st ss) = some b) (hb : b.IsError = true)
    (hfuel : ss.length < fuel) :
    (Match.Until fuel endp body).Run st = some e := by
  obtain ⟨m, rfl⟩ : ∃ m, fuel = ss.length + (m + 1) := ⟨fuel - ss.length - 1, by omega⟩
  rw [Match.Until, Func_run_ok _ st hs, Until_loop_steps endp body ss (m + 1) st [] hsteps]
  simp [Match.Until.loop, hend, he, hbody, hb]

/-- The failure of C12: `Until(";")` over blanks against " x".  After one blank the
body fails on `x`, and the state returned is the failure of the `;` matcher at
offset 1, with its error. -/
theorem Until_body_failure_returns_end_failure_witness :
    (Match.Until 2 (Match.String [59]) (Match.Rune isBlank (some (Error.New "no blank")))).Run
        (start [32, 120]) =
      some { Result := Value.rune 32, Index := 1, Source := [32, 120], IsError := true,
             Err := some (Error.Errorf "unable to match %v" (Value.str [59])) } :=
  Until_body_failure_returns_end_failure 2 (Match.String [59])
    (Match.Rune isBlank (some (Error.New "no blank"))) (start [32, 120]) _
    { Result := Value.rune 32, Index := 1, Source := [32, 120], IsError := true,
      Err := some (Error.New "no blank") }
    [{ Result := Value.rune 32, Index := 1, Source := [32, 120], IsError := false,
       Err := none }]
    rfl ⟨⟨_, rfl, rfl⟩, rfl, rfl, trivial⟩ rfl rfl rfl rfl (by decide)

/-! ## `Optional` and `Peek` -/

/-- Claim C13. On a non-failed state `s` with `parser.Run s = some t`: when `t` is
not failed `Optional parser` returns `t`; when `t` is failed it returns `s` itself,
at the same `Index` and not marked failed; so whatever `Optional parser` returns on
`s` is not failed. -/
theorem Optional_contract (parser : Parser) (s t : State) (hs : s.IsError = false)
    (hrun : parser.Run s = some t) :
    (t.IsError = false → (Optional parser).Run s = some t) ∧
    (t.IsError = true → (Optional parser).Run s = some s) ∧
    ∀ out, (Optional parser).Run s = some out → out.IsError = false := by
  refine ⟨?_, ?_, ?_⟩
  · intro ht; simp [Optional, Func_run_ok _ s hs, hrun, ht]
  · intro ht; simp [Optional, Func_run_ok _ s hs, hrun, ht]
  · intro out hout
    by_cases ht : t.IsError = true
    · simp [Optional, Func_run_ok _ s hs, hrun, ht] at hout
      rw [← hout]; exact hs
    · simp [Optional, Func_run_ok _ s hs, hrun, ht] at hout
      rw [← hout]; simpa using ht

/-- The two cases of C13 on "ac": `Optional("a")` returns what `"a"` returns, and
`Optional("b")` returns the entry state. -/
theorem Optional_contract_witness :
    (Optional (Match.String [97])).Run (start [97, 99]) =
      some { Result := Value.str [97], Index := 1, Source := [97, 99], IsError := false,
             Err := none } ∧
    (Optional (Match.String [98])).Run (start [97, 99]) = some (start [97, 99]) :=
  ⟨(Optional_contract (Match.String [97]) (start [97, 99]) _ rfl rfl).1 rfl,
    (Optional_contract (Match.String [98]) (start [97, 99])
      ((start [97, 99]).WithError (some (Error.Errorf "unable to match %v" (Value.str [98]))))
      rfl rfl).2.1 rfl⟩

/-- Claim C14, at an input where the code departs from it.  After "a" of "ac" the
state holds the result "a" at offset 1; there `String("b")` fails and `Optional`
returns that state as it is, its `Result` being "a", not nil.  In a sequence the
result of the step before thus comes twice: `SequenceOf("a", Optional("b"))` on "ac"
yields `["a", "a"]`. -/
theorem Optional_keeps_previous_result :
    (Optional (Match.String [98])).Run
        { Result := Value.str [97], Index := 1, Source := [97, 99], IsError := false,
          Err := none } =
      some { Result := Value.str [97], Index := 1, Source := [97, 99], IsError := false,
             Err := none } ∧
    (SequenceOf (Match.String [97]) [Optional (Match.String [98])]).Run (start [97, 99]) =
      some { Result := Value.list [Value.str [97], Value.str [97]], Index := 1,
             Source := [97, 99], IsError := false, Err := none } :=
  ⟨rfl, rfl⟩

/-- Claim C15. On a non-failed state `s` with `parser.Run s = some t`: when `t` is
not failed `Peek parser` returns `s` itself; when `t` is failed it returns `s` marked
failed, with the `Index` of `s`. -/
theorem Peek_contract (parser : Parser) (s t : State) (hs : s.IsError = false)
    (hrun : parser.Run s = some t) :
    (t.IsError = false → (Peek parser).Run s = some s) ∧
    (t.IsError = true →
      (Peek parser).Run s =
        some { Result := s.Result, Index := s.Index, Source := s.Source, IsError := true,
               Err := some (Error.New "would not match") }) := by
  constructor
  · intro ht; simp [Peek, Func_run_ok _ s hs, hrun, ht]
  · intro ht; simp [Peek, Func_run_ok _ s hs, hrun, ht, State.WithError]

/-- Scenario 4 of the contract, by C15: `Peek("x")` against "x" succeeds and the
offset stays 0; against "y" it fails at offset 0. -/
theorem Peek_contract_witness :
    (Peek (Match.String [120])).Run (start [120]) = some (start [120]) ∧
    (Peek (Match.String [120])).Run (start [121]) =
      some { Result := Value.nil, Index := 0, Source := [121], IsError := true,
             Err := some (Error.New "would not match") } :=
  ⟨(Peek_contract (Match.String [120]) (start [120]) _ rfl rfl).1 rfl,
    (Peek_contract (Match.String [120]) (start [121])
      ((start [121]).WithError (some (Error.Errorf "unable to match %v" (Value.str [120]))))
      rfl rfl).2 rfl⟩

/-! ## Failed states -/

/-- Claim C16. A parser that a constructor of the engine returned hands back a
failed state unchanged, whatever parsers it was built from: these are not run. -/
theorem Built_returns_failed_state (P : Parser) (s : State) (hP : Built P)
    (hs : s.IsError = true) : P.Run s = some s := by
  cases hP <;>
    simp [ApplyN, Between, Chain, ChoiceOf, MapIndex, Map, MapError, Discard, Many, Many1,
      Optional, Peek, SequenceOf, SequenceOfNoNil, StartOfInput, EndOfInput, StartOfLine,
      Match.AnyRune, Match.Digit, Match.Letter, Match.Letters, Match.Rune, Match.RuneN,
      Match.Runes, Match.Space, Match.String, Match.StringInsensitive, Match.Until, Func, hs]

/-- A sequence with a repetition inside, run on a failed state, by C16. -/
theorem Built_returns_failed_state_witness :
    (SequenceOf (Match.String [97]) [Many 3 (Match.String [98])]).Run
        { Result := Value.str [120], Index := 1, Source := [97, 98], IsError := true,
          Err := some Error.EOF } =
      some { Result := Value.str [120], Index := 1, Source := [97, 98], IsError := true,
             Err := some Error.EOF } :=
  Built_returns_failed_state _ _ (Built.sequenceOf _ _) rfl

/-! ## Offset monotonicity -/

/-- A `Func` advances when its function does on non-failed states. -/
theorem Advances_Func (fn : State → Option State)
    (h : ∀ s t, s.IsError = false → fn s = some t → t.IsError = false → s.Index ≤ t.Index) :
    Advances (Func fn) := by
  intro s t hs hrun ht
  rw [Func_run_ok _ s hs] at hrun
  exact h s t hs hrun ht

/-- Offset monotonicity of `Rune`. -/
theorem Advances_Rune (fn : Int → Bool) (errVal : Option Error) :
    Advances (Match.Rune fn errVal) := by
  apply Advances_Func
  intro s t hs hrun ht
  cases hr : s.ReadNextRune with
  | none => simp [hr] at hrun
  | some x =>
    obtain ⟨r, n, err⟩ := x
    simp only [hr] at hrun
    split_ifs at hrun
    · simp at hrun; rw [← hrun] at ht; simp [State.WithError] at ht
    · simp at hrun; rw [← hrun]; simp [State.WithResult]

/-- Offset monotonicity of `Digit`. -/
theorem Advances_Digit (isDigit : Int → Bool) : Advances (Match.Digit isDigit) := by
  apply Advances_Func
  intro s t hs hrun ht
  cases hr : s.ReadNextRune with
  | none => simp [hr] at hrun
  | some x =>
    obtain ⟨r, n, err⟩ := x
    simp only [hr] at hrun
    split_ifs at hrun
    · simp at hrun; rw [← hrun] at ht; simp [State.WithError] at ht
    · simp at hrun; rw [← hrun]; simp [State.WithResult]

/-- Offset monotonicity along the loop of `Runes`. -/
theorem Runes_loop_advances (fn : Int → Bool) (errVal : Option Error) (state : State) :
    ∀ (fuel : Nat) (cstate : State) (runesRead : List Int) (t : State),
      state.Index ≤ cstate.Index →
      Match.Runes.loop fn errVal state fuel cstate runesRead = some t → t.IsError = false →
      state.Index ≤ t.Index
  | 0, _, _, _, _, h, _ => by simp [Match.Runes.loop] at h
  | fuel + 1, cstate, runesRead, t, hle, h, ht => by
    simp only [Match.Runes.loop] at h
    cases hr : cstate.ReadNextRune with
    | none => simp [hr] at h
    | some x =>
      obtain ⟨r, n, err⟩ := x
      simp only [hr] at h
      split_ifs at h
      · simp at h; rw [← h]; simpa [State.WithResult] using hle
      · simp at h; rw [← h] at ht; simp [State.WithError] at ht
      · exact Runes_loop_advances fn errVal state fuel _ _ t (by simp only; omega) h ht

/-- Offset monotonicity of `Runes`. -/
theorem Advances_Runes (fuel : Nat) (fn : Int → Bool) (errVal : Option Error) :
    Advances (Match.Runes fuel fn errVal) := by
  apply Advances_Func
  intro s t _ hrun ht
  exact Runes_loop_advances fn errVal s fuel s [] t (le_refl _) hrun ht

/-- Offset monotonicity along the loop of `RuneN`. -/
theorem RuneN_loop_advances (n : Int) (state : State) :
    ∀ (i : Nat) (cstate : State) (results : List Int) (t : State),
      state.Index ≤ cstate.Index →
      Match.RuneN.loop n state i cstate results = some t → t.IsError = false →
      state.Index ≤ t.Index
  | 0, cstate, results, t, hle, h, _ => by
    simp [Match.RuneN.loop] at h; rw [← h]; simpa [State.WithResult] using hle
  | i + 1, cstate, results, t, hle, h, ht => by
    simp only [Match.RuneN.loop] at h
    cases hr : cstate.ReadNextRune with
    | none => simp [hr] at h
    | some x =>
      obtain ⟨r, nn, err⟩ := x
      simp only [hr] at h
      split_ifs at h
      · simp at h; rw [← h] at ht; simp [State.WithError] at ht
      · exact RuneN_loop_advances n state i _ _ t (by simp only; omega) h ht

/-- Offset monotonicity of `RuneN`. -/
theorem Advances_RuneN (n : Int) : Advances (Match.RuneN n) := by
  apply Advances_Func
  intro s t _ hrun ht
  split_ifs at hrun
  exact RuneN_loop_advances n s n.toNat s [] t (le_refl _) hrun ht

/-- Offset monotonicity of `String`. -/
theorem Advances_String (lit : List UInt8) : Advances (Match.String lit) := by
  apply Advances_Func
  intro s t _ hrun ht
  simp only at hrun
  split_ifs at hrun
  · simp at hrun; rw [← hrun] at ht; simp [State.WithError] at ht
  · simp at hrun; rw [← hrun] at ht; simp [State.WithError] at ht
  · simp at hrun; rw [← hrun]; simp [State.WithResult]

/-- Offset monotonicity of `StringInsensitive`. -/
theorem Advances_StringInsensitive (tbl : Int → Int) (lit : List UInt8) :
    Advances (Match.StringInsensitive tbl lit) := by
  apply Advances_Func
  intro s t _ hrun ht
  simp only at hrun
  split_ifs at hrun
  · simp at hrun; rw [← hrun] at ht; simp [State.WithError] at ht
  · simp at hrun; rw [← hrun] at ht; simp [State.WithError] at ht
  · simp at hrun; rw [← hrun]; simp [State.WithResult]

/-- Offset monotonicity along the loop of `SequenceOf`. -/
theorem SequenceOf_loop_advances (state : State) : ∀ (ps : List Parser) (next : State)
    (results : List Value) (t : State), (∀ p ∈ ps, Advances p) → next.IsError = false →
      state.Index ≤ next.Index →
      SequenceOf.loop state ps next results = some t → t.IsError = false →
      state.Index ≤ t.Index
  | [], next, results, t, _, _, hle, h, _ => by
    simp [SequenceOf.loop] at h; rw [← h]; simpa [State.WithResult] using hle
  | p :: ps, next, results, t, hadv, hn, hle, h, ht => by
    simp only [SequenceOf.loop] at h
    cases hr : p.Run next with
    | none => simp [hr] at h
    | some next1 =>
      simp only [hr] at h
      split_ifs at h with he
      · simp at h; rw [← h] at ht; simp [State.WithError] at ht
      · have h1 : next1.IsError = false := by simpa using he
        have := hadv p (List.mem_cons_self p ps) next next1 hn hr h1
        exact SequenceOf_loop_advances state ps next1 _ t
          (fun q hq => hadv q (List.mem_cons_of_mem p hq)) h1 (by omega) h ht

/-- Offset monotonicity of `SequenceOf`. -/
theorem Advances_SequenceOf (parser1 : Parser) (rest : List Parser)
    (h : ∀ p ∈ parser1 :: rest, Advances p) : Advances (SequenceOf parser1 rest) := by
  apply Advances_Func
  intro s t hs hrun ht
  cases hr : parser1.Run s with
  | none => simp [hr] at hrun
  | some next =>
    simp only [hr] at hrun
    split_ifs at hrun with he
    · simp at hrun; rw [← hrun] at ht; simp [he] at ht
    · have h1 : next.IsError = false := by simpa using he
      have := h parser1 (List.mem_cons_self _ _) s next hs hr h1
      exact SequenceOf_loop_advances s rest next _ t
        (fun q hq => h q (List.mem_cons_of_mem _ hq)) h1 this hrun ht

/-- Offset monotonicity along the loop of `SequenceOfNoNil`. -/
theorem SequenceOfNoNil_loop_advances (state : State) : ∀ (ps : List Parser) (next : State)
    (results : List Value) (t : State), (∀ p ∈ ps, Advances p) → next.IsError = false →
      state.Index ≤ next.Index →
      SequenceOfNoNil.loop state ps next results = some t → t.IsError = false →
      state.Index ≤ t.Index
  | [], next, results, t, _, _, hle, h, _ => by
    simp [SequenceOfNoNil.loop] at h; rw [← h]; simpa [State.WithResult] using hle
  | p :: ps, next, results, t, hadv, hn, hle, h, ht => by
    simp only [SequenceOfNoNil.loop] at h
    cases hr : p.Run next with
    | none => simp [hr] at h
    | some next1 =>
      simp only [hr] at h
      split_ifs at h with he hnil
      · simp at h; rw [← h] at ht; simp [State.WithError] at ht
      · have h1 : next1.IsError = false := by simpa using he
        have := hadv p (List.mem_cons_self p ps) next next1 hn hr h1
        exact SequenceOfNoNil_loop_advances state ps next1 _ t
          (fun q hq => hadv q (List.mem_cons_of_mem p hq)) h1 (by omega) h ht
      · have h1 : next1.IsError = false := by simpa using he
        have := hadv p (List.mem_cons_self p ps) next next1 hn hr h1
        exact SequenceOfNoNil_loop_advances state ps next1 _ t
          (fun q hq => hadv q (List.mem_cons_of_mem p hq)) h1 (by omega) h ht

/-- Offset monotonicity of `SequenceOfNoNil`. -/
theorem Advances_SequenceOfNoNil (parser1 : Parser) (rest : List Parser)
    (h : ∀ p ∈ parser1 :: rest, Advances p) : Advances (SequenceOfNoNil parser1 rest) := by
  apply Advances_Func
  intro s t hs hrun ht
  cases hr : parser1.Run s with
  | none => simp [hr] at hrun
  | some next =>
    simp only [hr] at hrun
    by_cases he : next.IsError = true
    · simp [he] at hrun; rw [← hrun] at ht; simp [he] at ht
    · have h1 : next.IsError = false := by simpa using he
      have := h parser1 (List.mem_cons_self _ _) s next hs hr h1
      simp only [h1, Bool.false_eq_true, if_false] at hrun
      exact SequenceOfNoNil_loop_advances s rest next _ t
        (fun q hq => h q (List.mem_cons_of_mem _ hq)) h1 this hrun ht

/-- Offset monotonicity along the loop of `ChoiceOf`. -/
theorem ChoiceOf_loop_advances (state : State) (hs : state.IsError = false) :
    ∀ (ps : List Parser) (t : State), (∀ p ∈ ps, Advances p) →
      ChoiceOf.loop state ps = some t → t.IsError = false → state.Index ≤ t.Index
  | [], t, _, h, ht => by
    simp [ChoiceOf.loop] at h; rw [← h] at ht; simp [State.WithError] at ht
  | p :: ps, t, hadv, h, ht => by
    simp only [ChoiceOf.loop] at h
    cases hr : p.Run state with
    | none => simp [hr] at h
    | some next =>
      simp only [hr] at h
      split_ifs at h with he
      · simp at h; subst h
        exact hadv p (List.mem_cons_self p ps) state next hs hr ht
      · exact ChoiceOf_loop_advances state hs ps t
          (fun q hq => hadv q (List.mem_cons_of_mem p hq)) h ht

/-- Offset monotonicity of `ChoiceOf`. -/
theorem Advances_ChoiceOf (parser1 : Parser) (rest : List Parser)
    (h : ∀ p ∈ parser1 :: rest, Advances p) : Advances (ChoiceOf parser1 rest) := by
  intro s t hs hrun ht
  rw [ChoiceOf_run_eq_loop parser1 rest s hs] at hrun
  exact ChoiceOf_loop_advances s hs (parser1 :: rest) t h hrun ht

/-- Offset monotonicity along the loop of `Many`. -/
theorem Many_loop_advances (parser : Parser) (hp : Advances parser) :
    ∀ (fuel : Nat) (s st : State) (results out : List Value), s.IsError = false →
      Many.loop parser fuel s results = some (st, out) → s.Index ≤ st.Index
  | 0, _, _, _, _, _, h => by simp [Many.loop] at h
  | fuel + 1, s, st, results, out, hs, h => by
    simp only [Many.loop] at h
    cases hr : parser.Run s with
    | none => simp [hr] at h
    | some next =>
      simp only [hr] at h
      split_ifs at h with he
      · simp at h; rw [← h.1]
      · have h1 : next.IsError = false := by simpa using he
        have := hp s next hs hr h1
        have := Many_loop_advances parser hp fuel next st _ out h1 h
        omega

/-- Offset monotonicity of `Many`. -/
theorem Advances_Many (fuel : Nat) (parser : Parser) (hp : Advances parser) :
    Advances (Many fuel parser) := by
  apply Advances_Func
  intro s t hs hrun _
  cases hl : Many.loop parser fuel s [] with
  | none => simp [hl] at hrun
  | some x =>
    obtain ⟨st, out⟩ := x
    simp [hl] at hrun
    rw [← hrun]
    simpa [State.WithResult] using Many_loop_advances parser hp fuel s st [] out hs hl

/-- Offset monotonicity of `Many1`. -/
theorem Advances_Many1 (fuel : Nat) (parser : Parser) (hp : Advances parser) :
    Advances (Many1 fuel parser) := by
  apply Advances_Func
  intro s t hs hrun ht
  cases hl : Many.loop parser fuel s [] with
  | none => simp [hl] at hrun
  | some x =>
    obtain ⟨st, out⟩ := x
    simp only [hl] at hrun
    split_ifs at hrun
    · simp at hrun; rw [← hrun]
      simpa [State.WithResult] using Many_loop_advances parser hp fuel s st [] out hs hl
    · simp at hrun; rw [← hrun] at ht; simp [State.WithError] at ht

/-- Offset monotonicity of `Optional`. -/
theorem Advances_Optional (parser : Parser) (hp : Advances parser) :
    Advances (Optional parser) := by
  apply Advances_Func
  intro s t hs hrun ht
  cases hr : parser.Run s with
  | none => simp [hr] at hrun
  | some next =>
    simp only [hr] at hrun
    split_ifs at hrun
    · simp at hrun; rw [← hrun]
    · simp at hrun; subst hrun; exact hp s next hs hr ht

/-- Offset monotonicity of `Peek`. -/
theorem Advances_Peek (parser : Parser) : Advances (Peek parser) := by
  apply Advances_Func
  intro s t _ hrun ht
  cases hr : parser.Run s with
  | none => simp [hr] at hrun
  | some next =>
    simp only [hr] at hrun
    split_ifs at hrun
    · simp at hrun; rw [← hrun] at ht; simp [State.WithError] at ht
    · simp at hrun; rw [← hrun]

/-- Offset monotonicity of `Map`. -/
theorem Advances_Map (parser : Parser) (fn : Value → Value) (hp : Advances parser) :
    Advances (Map parser fn) := by
  apply Advances_Func
  intro s t hs hrun ht
  cases hr : parser.Run s with
  | none => simp [hr] at hrun
  | some next =>
    simp only [hr] at hrun
    split_ifs at hrun with he
    · simp at hrun; rw [← hrun] at ht; simp [he] at ht
    · simp at hrun; rw [← hrun]
      exact hp s next hs hr (by simpa using he)

/-- Offset monotonicity of `MapIndex`. -/
theorem Advances_MapIndex (parser : Parser) (fn : Value → Int → Value)
    (hp : Advances parser) : Advances (MapIndex parser fn) := by
  apply Advances_Func
  intro s t hs hrun ht
  cases hr : parser.Run s with
  | none => simp [hr] at hrun
  | some next =>
    simp only [hr] at hrun
    split_ifs at hrun with he
    · simp at hrun; rw [← hrun] at ht; simp [he] at ht
    · simp at hrun; rw [← hrun]
      exact hp s next hs hr (by simpa using he)

/-- Offset monotonicity of `MapError`. -/
theorem Advances_MapError (parser : Parser) (fn : State → Option Error)
    (hp : Advances parser) : Advances (MapError parser fn) := by
  apply Advances_Func
  intro s t hs hrun ht
  cases hr : parser.Run s with
  | none => simp [hr] at hrun
  | some next =>
    simp only [hr] at hrun
    split_ifs at hrun with he
    · simp at hrun; subst hrun; exact hp s next hs hr ht
    · simp at hrun; rw [← hrun] at ht; simp [State.WithError] at ht

/-- Offset monotonicity of `Discard`. -/
theorem Advances_Discard (parser : Parser) (hp : Advances parser) :
    Advances (Discard parser) :=
  Advances_Map parser _ hp

/-- Offset monotonicity of `Between`. -/
theorem Advances_Between (left right content : Parser) (hl : Advances left)
    (hr : Advances right) (hc : Advances content) : Advances (Between left right content) :=
  Advances_Map _ _ (Advances_SequenceOf left [content, right] (by
    intro p hp
    simp only [List.mem_cons, List.mem_singleton, List.not_mem_nil, or_false] at hp
    rcases hp with rfl | rfl | rfl
    · exact hl
    · exact hc
    · exact hr))

/-- Offset monotonicity of `Chain`. -/
theorem Advances_Chain (parser : Parser) (fn : Value → Parser) (hp : Advances parser)
    (hfn : ∀ v, Advances (fn v)) : Advances (Chain parser fn) := by
  apply Advances_Func
  intro s t hs hrun ht
  cases hr : parser.Run s with
  | none => simp [hr] at hrun
  | some next =>
    simp only [hr] at hrun
    split_ifs at hrun with he
    · simp at hrun; rw [← hrun] at ht; simp [he] at ht
    · have h1 : next.IsError = false := by simpa using he
      have a := hp s next hs hr h1
      have b := hfn next.Result next t h1 hrun ht
      omega

/-- Offset monotonicity along the loop of `ApplyN`. -/
theorem ApplyN_loop_advances (n : Int) (parser : Parser) (hp : Advances parser)
    (state : State) : ∀ (i : Nat) (next : State) (results : List Value) (t : State),
      next.IsError = false → state.Index ≤ next.Index →
      ApplyN.loop n parser state i next results = some t → t.IsError = false →
      state.Index ≤ t.Index
  | 0, next, results, t, _, hle, h, _ => by
    simp [ApplyN.loop] at h; rw [← h]; simpa [State.WithResult] using hle
  | i + 1, next, results, t, hn, hle, h, ht => by
    simp only [ApplyN.loop] at h
    cases hr : parser.Run next with
    | none => simp [hr] at h
    | some next1 =>
      simp only [hr] at h
      split_ifs at h with he
      · simp at h; rw [← h] at ht; simp [State.WithError] at ht
      · have h1 : next1.IsError = false := by simpa using he
        have := hp next next1 hn hr h1
        exact ApplyN_loop_advances n parser hp state i next1 _ t h1 (by omega) h ht

/-- Offset monotonicity of `ApplyN`. -/
theorem Advances_ApplyN (n : Int) (parser : Parser) (hp : Advances parser) :
    Advances (ApplyN n parser) := by
  apply Advances_Func
  intro s t hs hrun ht
  exact ApplyN_loop_advances n parser hp s n.toNat s [] t hs (le_refl _) hrun ht

/-- Offset monotonicity along the loop of `Until`. -/
theorem Until_loop_advances (endp body : Parser) (hb : Advances body) (s0 : State) :
    ∀ (fuel : Nat) (cstate : State) (results : List Value) (t : State),
      cstate.IsError = false → s0.Index ≤ cstate.Index →
      Match.Until.loop endp body fuel cstate results = some t → t.IsError = false →
      s0.Index ≤ t.Index
  | 0, _, _, _, _, _, h, _ => by simp [Match.Until.loop] at h
  | fuel + 1, cstate, results, t, hc, hle, h, ht => by
    simp only [Match.Until.loop] at h
    cases he : endp.Run cstate with
    | none => simp [he] at h
    | some nextState =>
      simp only [he] at h
      split_ifs at h with hne
      · simp at h; rw [← h]; simpa [State.WithResult] using hle
      · cases hbr : body.Run cstate with
        | none => simp [hbr] at h
        | some cstate1 =>
          simp only [hbr] at h
          split_ifs at h with hbe
          · simp at h; subst h; simp [ht] at hne
          · have h1 : cstate1.IsError = false := by simpa using hbe
            have := hb cstate cstate1 hc hbr h1
            exact Until_loop_advances endp body hb s0 fuel cstate1 _ t h1 (by omega) h ht

/-- Offset monotonicity of `Until`. -/
theorem Advances_Until (fuel : Nat) (endp body : Parser) (hb : Advances body) :
    Advances (Match.Until fuel endp body) := by
  apply Advances_Func
  intro s t hs hrun ht
  exact Until_loop_advances endp body hb s fuel s [] t hs (le_refl _) hrun ht

/-- Offset monotonicity of `StartOfInput`. -/
theorem Advances_StartOfInput : Advances StartOfInput := by
  apply Advances_Func
  intro s t _ hrun ht
  split_ifs at hrun
  · simp at hrun; rw [← hrun] at ht; simp [State.WithError] at ht
  · simp at hrun; rw [← hrun]

/-- Offset monotonicity of `EndOfInput`. -/
theorem Advances_EndOfInput : Advances EndOfInput := by
  apply Advances_Func
  intro s t _ hrun ht
  simp only at hrun
  split_ifs at hrun
  · simp at hrun; rw [← hrun] at ht; simp [State.WithError] at ht
  · simp at hrun; rw [← hrun]

/-- Offset monotonicity of `StartOfLine`. -/
theorem Advances_StartOfLine : Advances StartOfLine := by
  apply Advances_Func
  intro s t _ hrun ht
  split_ifs at hrun
  · simp at hrun; rw [← hrun]
  · simp only at hrun
    split_ifs at hrun
    · simp at hrun; rw [← hrun] at ht; simp [State.WithError] at ht
    · simp at hrun; rw [← hrun]

/-- Claim C17. Offset monotonicity.  Every primitive matcher advances: run on a
non-failed state, a success of `Rune`, `Digit`, `Runes`, `RuneN`, `String` or
`StringInsensitive` has an `Index` not below the one given.  Every combinator keeps
that property: it advances when the parsers it is built from do (for `Chain`: the
first parser and every parser the continuation returns; for `Until`: the body). -/
theorem offset_monotone :
    (∀ fn errVal, Advances (Match.Rune fn errVal)) ∧
    (∀ isDigit, Advances (Match.Digit isDigit)) ∧
    (∀ fuel fn errVal, Advances (Match.Runes fuel fn errVal)) ∧
    (∀ n, Advances (Match.RuneN n)) ∧
    (∀ lit, Advances (Match.String lit)) ∧
    (∀ tbl lit, Advances (Match.StringInsensitive tbl lit)) ∧
    (∀ p rest, (∀ q ∈ p :: rest, Advances q) → Advances (SequenceOf p rest)) ∧
    (∀ p rest, (∀ q ∈ p :: rest, Advances q) → Advances (SequenceOfNoNil p rest)) ∧
    (∀ p rest, (∀ q ∈ p :: rest, Advances q) → Advances (ChoiceOf p rest)) ∧
    (∀ fuel p, Advances p → Advances (Many fuel p)) ∧
    (∀ fuel p, Advances p → Advances (Many1 fuel p)) ∧
    (∀ p, Advances p → Advances (Optional p)) ∧
    (∀ p, Advances (Peek p)) ∧
    (∀ p fn, Advances p → Advances (Map p fn)) ∧
    (∀ p fn, Advances p → Advances (MapIndex p fn)) ∧
    (∀ p fn, Advances p → Advances (MapError p fn)) ∧
    (∀ p, Advances p → Advances (Discard p)) ∧
    (∀ n p, Advances p → Advances (ApplyN n p)) ∧
    (∀ left right content, Advances left → Advances right → Advances content →
      Advances (Between left right content)) ∧
    (∀ p fn, Advances p → (∀ v, Advances (fn v)) → Advances (Chain p fn)) ∧
    (∀ fuel endp body, Advances body → Advances (Match.Until fuel endp body)) ∧
    Advances StartOfInput ∧ Advances EndOfInput ∧ Advances StartOfLine :=
  ⟨Advances_Rune, Advances_Digit, Advances_Runes, Advances_RuneN, Advances_String,
    Advances_StringInsensitive, Advances_SequenceOf, Advances_SequenceOfNoNil,
    Advances_ChoiceOf, Advances_Many, Advances_Many1, Advances_Optional, Advances_Peek,
    Advances_Map, Advances_MapIndex, Advances_MapError, Advances_Discard, Advances_ApplyN,
    Advances_Between, Advances_Chain, Advances_Until, Advances_StartOfInput,
    Advances_EndOfInput, Advances_StartOfLine⟩

/-- A repetition of a sequence of two matchers advances, by C17, and so does its
run on "a a b": from offset 0 to offset 4. -/
theorem offset_monotone_witness :
    Advances (Many 4 (SequenceOf (Match.String [97]) [Match.Rune isBlank none])) ∧
    (Many 4 (SequenceOf (Match.String [97]) [Match.Rune isBlank none])).Run
        (start [97, 32, 97, 32, 98]) =
      some { Result := Value.list
               [Value.list [Value.str [97], Value.rune 32],
                Value.list [Value.str [97], Value.rune 32]],
             Index := 4, Source := [97, 32, 97, 32, 98], IsError := false, Err := none } := by
  obtain ⟨hRune, _, _, _, hString, _, hSeq, _, _, hMany, _⟩ := offset_monotone
  refine ⟨hMany 4 _ (hSeq _ _ ?_), rfl⟩
  intro q hq
  simp only [List.mem_cons, List.mem_singleton, List.not_mem_nil, or_false] at hq
  rcases hq with rfl | rfl
  · exact hString _
  · exact hRune _ _

/-! ## `SequenceOfNoNil` -/

/-- The loops of `SequenceOfNoNil` and `SequenceOf` side by side, the former
holding the non-nil entries of what the latter holds: they stop together, with the
same failed state or with the same `Index` and the non-nil results. -/
theorem SequenceOfNoNil_loop_eq (state : State) (hs : state.IsError = false) :
    ∀ (ps : List Parser) (next : State) (results : List Value),
      (SequenceOf.loop state ps next results = none →
        SequenceOfNoNil.loop state ps next (dropNil results) = none) ∧
      ∀ t, SequenceOf.loop state ps next results = some t →
        (t.IsError = true →
          SequenceOfNoNil.loop state ps next (dropNil results) = some t) ∧
        (t.IsError = false → ∃ vs, t.Result = Value.list vs ∧
          SequenceOfNoNil.loop state ps next (dropNil results) =
            some { Result := Value.list (dropNil vs), Index := t.Index,
                   Source := t.Source, IsError := false, Err := t.Err })
  | [], next, results => by
    refine ⟨by simp [SequenceOf.loop], ?_⟩
    intro t h
    simp only [SequenceOf.loop, Option.some.injEq] at h
    subst h
    refine ⟨by simp [State.WithResult, hs], ?_⟩
    intro _
    exact ⟨results, rfl, by simp [SequenceOfNoNil.loop, State.WithResult, hs]⟩
  | p :: ps, next, results => by
    cases hr : p.Run next with
    | none => simp [SequenceOf.loop, SequenceOfNoNil.loop, hr]
    | some next1 =>
      by_cases he : next1.IsError = true
      · simp [SequenceOf.loop, SequenceOfNoNil.loop, hr, he, State.WithError]
      · have h1 : next1.IsError = false := by simpa using he
        have ih := SequenceOfNoNil_loop_eq state hs ps next1 (results ++ [next1.Result])
        by_cases hnil : next1.Result.isNil = true
        · have hf : dropNil (results ++ [next1.Result]) =
              dropNil results := by
            simp [dropNil, List.filter_append, hnil]
          rw [hf] at ih
          simpa [SequenceOf.loop, SequenceOfNoNil.loop, hr, h1, hnil] using ih
        · have hf : dropNil (results ++ [next1.Result]) =
              (dropNil results) ++ [next1.Result] := by
            simp [dropNil, List.filter_append, hnil]
          rw [hf] at ih
          simpa [SequenceOf.loop, SequenceOfNoNil.loop, hr, h1, hnil] using ih

/-- Claim C18. On a non-failed state `s`, `SequenceOfNoNil` returns iff `SequenceOf`
does.  When `SequenceOf` returns a failed state, `SequenceOfNoNil` returns the same
state (same `Err`, same `Index`); when it returns a non-failed state with the results
`vs`, `SequenceOfNoNil` returns the state with the same `Index` whose results are `vs`
without the nil entries, the others in their order. -/
theorem SequenceOfNoNil_vs_SequenceOf (parser1 : Parser) (rest : List Parser) (s : State)
    (hs : s.IsError = false) :
    ((SequenceOf parser1 rest).Run s = none → (SequenceOfNoNil parser1 rest).Run s = none) ∧
    ∀ t, (SequenceOf parser1 rest).Run s = some t →
      (t.IsError = true → (SequenceOfNoNil parser1 rest).Run s = some t) ∧
      (t.IsError = false → ∃ vs, t.Result = Value.list vs ∧
        (SequenceOfNoNil parser1 rest).Run s =
          some { Result := Value.list (dropNil vs), Index := t.Index,
                 Source := t.Source, IsError := false, Err := t.Err }) := by
  rw [SequenceOf, SequenceOfNoNil, Func_run_ok _ s hs, Func_run_ok _ s hs]
  cases hr : parser1.Run s with
  | none => simp
  | some next =>
    by_cases he : next.IsError = true
    · simp [he]
    · have h1 : next.IsError = false := by simpa using he
      have hl := SequenceOfNoNil_loop_eq s hs rest next [next.Result]
      have hf : dropNil [next.Result] =
          if (!next.Result.isNil) = true then [next.Result] else [] := by
        by_cases hnil : next.Result.isNil = true <;> simp [dropNil, hnil]
      rw [hf] at hl
      simpa [h1] using hl

/-- A sequence with a discarded blank in the middle, by C18: three results with
`SequenceOf`, the two non-nil ones with `SequenceOfNoNil`, offset 3 in both. -/
theorem SequenceOfNoNil_vs_SequenceOf_witness :
    (SequenceOf (Match.String [97]) [Discard (Match.String [32]), Match.String [98]]).Run
        (start [97, 32, 98]) =
      some { Result := Value.list [Value.str [97], Value.nil, Value.str [98]], Index := 3,
             Source := [97, 32, 98], IsError := false, Err := none } ∧
    (SequenceOfNoNil (Match.String [97]) [Discard (Match.String [32]), Match.String [98]]).Run
        (start [97, 32, 98]) =
      some { Result := Value.list [Value.str [97], Value.str [98]], Index := 3,
             Source := [97, 32, 98], IsError := false, Err := none } := by
  refine ⟨rfl, ?_⟩
  obtain ⟨vs, hvs, hrun⟩ := ((SequenceOfNoNil_vs_SequenceOf (Match.String [97])
    [Discard (Match.String [32]), Match.String [98]] (start [97, 32, 98]) rfl).2 _ rfl).2 rfl
  cases hvs
  exact hrun

/-! ## `EndOfInput` and `LineOffset` -/

/-- The probe offset of `EndOfInput` for an `int64` offset: the plain sum below
the largest `int64`, and the least `int64` at it. -/
theorem wrapInt64_succ (i : Int) (hlo : -9223372036854775808 ≤ i)
    (hhi : i ≤ 9223372036854775807) :
    wrapInt64 (i + 1) = if i = 9223372036854775807 then -9223372036854775808 else i + 1 := by
  unfold wrapInt64
  split_ifs with h
  · subst h; rfl
  · omega

/-- Claim C19 fails at the largest `int64` offset: there `s.Index + 1` is not below
the length of the source, yet the sum wraps to a negative offset, the read reports
an error that is not `io.EOF`, and `EndOfInput` fails. -/
theorem EndOfInput_fails_at_largest_offset :
    EndOfInput.Run ((start [97]).WithResult Value.nil 9223372036854775807) =
      some { Result := Value.nil, Index := 9223372036854775807, Source := [97],
             IsError := true, Err := some (Error.New "expected end of input") } ∧
    (9223372036854775807 : Int) + 1 ≥ (([97] : List UInt8).length : Int) ∧
    ReadAt [97] 1 (wrapInt64 (9223372036854775807 + 1)) =
      ([0], 0, some Error.negativeOffset) :=
  ⟨rfl, by decide, rfl⟩

/-- Claim C19, as amended. Let `s` be a non-failed state whose `Index` is an
`int64`.  The read of one byte at the `int64` sum `s.Index + 1` reports `io.EOF` iff
`s.Index + 1` is not below the length of the source and `s.Index` is below the
largest `int64`; in that case `EndOfInput` returns `s` unchanged, and otherwise it
returns `s` marked failed, at the `Index` of `s`. -/
theorem EndOfInput_contract (s : State) (hs : s.IsError = false)
    (hlo : -9223372036854775808 ≤ s.Index) (hhi : s.Index ≤ 9223372036854775807) :
    (Error.isEOF (ReadAt s.Source 1 (wrapInt64 (s.Index + 1))).2.2 = true ↔
      s.Index + 1 ≥ (s.Source.length : Int) ∧ s.Index < 9223372036854775807) ∧
    (s.Index + 1 ≥ (s.Source.length : Int) ∧ s.Index < 9223372036854775807 →
      EndOfInput.Run s = some s) ∧
    (¬ (s.Index + 1 ≥ (s.Source.length : Int) ∧ s.Index < 9223372036854775807) →
      EndOfInput.Run s =
        some { Result := s.Result, Index := s.Index, Source := s.Source, IsError := true,
               Err := some (Error.New "expected end of input") }) := by
  have key : Error.isEOF (ReadAt s.Source 1 (wrapInt64 (s.Index + 1))).2.2 = true ↔
      s.Index + 1 ≥ (s.Source.length : Int) ∧ s.Index < 9223372036854775807 := by
    rw [wrapInt64_succ s.Index hlo hhi]
    by_cases hmax : s.Index = 9223372036854775807
    · rw [if_pos hmax]
      have : ¬ s.Index < 9223372036854775807 := by omega
      simp [ReadAt, Error.isEOF, this]
    · rw [if_neg hmax]
      have hlt : s.Index < 9223372036854775807 := by omega
      unfold ReadAt
      by_cases h0 : s.Index + 1 < 0
      · simp only [h0, if_true, Error.isEOF]
        constructor
        · intro h; simp at h
        · intro h; omega
      · by_cases h1 : s.Index + 1 ≥ (s.Source.length : Int)
        · simp [h0, h1, Error.isEOF, hlt]
        · have hlen : ¬ ((s.Source.drop (s.Index + 1).toNat).take 1).length < 1 := by
            simp only [List.length_take, List.length_drop]
            omega
          simp only [h0, h1, if_false, hlen, Error.isEOF]
          simp
  refine ⟨key, ?_, ?_⟩
  · intro h
    have := key.mpr h
    simp [EndOfInput, Func_run_ok _ s hs, this]
  · intro h
    have : Error.isEOF (ReadAt s.Source 1 (wrapInt64 (s.Index + 1))).2.2 = false := by
      rw [Bool.eq_false_iff]; exact fun hh => h (key.mp hh)
    simp [EndOfInput, Func_run_ok _ s hs, this, State.WithError]

/-- The two cases of C19 on "ab": at offset 1 the probe at offset 2 meets the end
and `EndOfInput` returns the state; at offset 0 it fails. -/
theorem EndOfInput_contract_witness :
    EndOfInput.Run ((start [97, 98]).WithResult Value.nil 1) =
      some ((start [97, 98]).WithResult Value.nil 1) ∧
    EndOfInput.Run (start [97, 98]) =
      some { Result := Value.nil, Index := 0, Source := [97, 98], IsError := true,
             Err := some (Error.New "expected end of input") } :=
  ⟨(EndOfInput_contract ((start [97, 98]).WithResult Value.nil 1) rfl (by decide)
      (by decide)).2.1 (by decide),
    (EndOfInput_contract (start [97, 98]) rfl (by decide) (by decide)).2.2 (by decide)⟩

/-- Claim C20 fails on the first line: in "a\nb" the offsets 0 and 1 are on line 0,
not on line 1, and offset 3, after the one newline, is on line 1, not on line 2. -/
theorem LineOffset_first_line_is_zero :
    State.LineOffset (start [97, 10, 98]) = some (0, 0, none) ∧
    State.LineOffset ((start [97, 10, 98]).WithResult Value.nil 1) = some (0, 2, none) ∧
    State.LineOffset ((start [97, 10, 98]).WithResult Value.nil 3) = some (1, 2, none) ∧
    (([97, 10, 98] : List UInt8).take 3).count 10 = 1 :=
  ⟨rfl, rfl, rfl, rfl⟩

/-- Claim C20, as amended. For a state `s` with `0 ≤ s.Index ≤` the length of the
source, `LineOffset` returns, and its line is the count of newline bytes in
`source[0 : s.Index]`: lines are counted from 0. -/
theorem LineOffset_line (s : State) (h0 : 0 ≤ s.Index)
    (hL : s.Index ≤ (s.Source.length : Int)) :
    s.LineOffset.map Prod.fst =
      some (Int.ofNat ((s.Source.take s.Index.toNat).count 10)) := by
  have hneg : ¬ s.Index < 0 := by omega
  unfold State.LineOffset
  simp only [hneg, if_false]
  by_cases hz : s.Index.toNat = 0
  · have hcount : (s.Source.take s.Index.toNat).count 10 = 0 := by rw [hz]; simp
    have hn : (ReadAt s.Source s.Index.toNat 0).2.1 = 0 := by
      unfold ReadAt
      rw [hz]
      split_ifs <;> simp
    simp [hn, hcount]
  · have hlt : (0 : Int) < (s.Source.length : Int) := by omega
    have hr : Readable s.Source s.Index.toNat 0 := ⟨le_refl _, hlt, by simp; omega⟩
    rw [ReadAt_of_readable _ _ _ hr]
    have hpos : s.Index.toNat > 0 := by omega
    simp [hpos, bytes.Count, List.take_take]

/-- The end of "a\nb", by C20: one newline before offset 3, line 1. -/
theorem LineOffset_line_witness :
    (State.LineOffset ((start [97, 10, 98]).WithResult Value.nil 3)).map Prod.fst = some 1 :=
  LineOffset_line ((start [97, 10, 98]).WithResult Value.nil 3) (by decide) (by decide)

/-! ## `ChoiceOf` when every alternative fails -/

/-- The loop of `ChoiceOf` when every alternative left fails. -/
theorem ChoiceOf_loop_all_fail (s : State) : ∀ ps : List Parser,
    (∀ p ∈ ps, ∃ t, p.Run s = some t ∧ t.IsError = true) →
      ChoiceOf.loop s ps = some (s.WithError (some (Error.New "did not match any choice")))
  | [], _ => rfl
  | p :: ps, h => by
    obtain ⟨t, ht, hte⟩ := h p (List.mem_cons_self p ps)
    have ih := ChoiceOf_loop_all_fail s ps (fun q hq => h q (List.mem_cons_of_mem p hq))
    simp [ChoiceOf.loop, ht, hte, ih]

/-- Claim C21. On a non-failed state `s` on which every alternative returns a
failed state, `ChoiceOf` returns `s` marked failed, with the `Index` and `Result` of
`s`, and its `Err` is the one error "did not match any choice", whatever errors the
alternatives gave. -/
theorem ChoiceOf_all_fail (parser1 : Parser) (rest : List Parser) (s : State)
    (hs : s.IsError = false)
    (hfail : ∀ p ∈ parser1 :: rest, ∃ t, p.Run s = some t ∧ t.IsError = true) :
    (ChoiceOf parser1 rest).Run s =
      some { Result := s.Result, Index := s.Index, Source := s.Source, IsError := true,
             Err := some (Error.New "did not match any choice") } := by
  rw [ChoiceOf_run_eq_loop parser1 rest s hs, ChoiceOf_loop_all_fail s _ hfail]
  rfl

/-- Two alternatives with errors of their own, both failing on "x", by C21. -/
theorem ChoiceOf_all_fail_witness :
    (ChoiceOf (Match.String [97]) [Match.Rune isBlank (some (Error.New "no blank"))]).Run
        (start [120]) =
      some { Result := Value.nil, Index := 0, Source := [120], IsError := true,
             Err := some (Error.New "did not match any choice") } :=
  ChoiceOf_all_fail (Match.String [97]) [Match.Rune isBlank (some (Error.New "no blank"))]
    (start [120]) rfl (fun p hp => by
      simp only [List.mem_cons, List.mem_singleton, List.not_mem_nil, or_false] at hp
      rcases hp with rfl | rfl
      · exact ⟨_, rfl, rfl⟩
      · exact ⟨_, rfl, rfl⟩)

/-! ## `MapIndex` and `Map` -/

/-- Claim C22. On a non-failed state `s` with `parser.Run s = some t`: when `t` is
not failed, `MapIndex parser fn` returns `t` with only its `Result` replaced, by
`fn t.Result s.Index`, where `s.Index` is the offset the match started at; when `t`
is failed it returns `t` unchanged.  `Map parser g` runs as
`MapIndex parser fun r _ => g r`. -/
theorem MapIndex_contract (parser : Parser) (fn : Value → Int → Value) (g : Value → Value)
    (s t : State) (hs : s.IsError = false) (hrun : parser.Run s = some t) :
    (t.IsError = false →
      (MapIndex parser fn).Run s =
        some { Result := fn t.Result s.Index, Index := t.Index, Source := t.Source,
               IsError := false, Err := t.Err }) ∧
    (t.IsError = true → (MapIndex parser fn).Run s = some t) ∧
    (Map parser g).Run s = (MapIndex parser fun r _ => g r).Run s := by
  refine ⟨?_, ?_, ?_⟩
  · intro ht
    simp [MapIndex, Func_run_ok _ s hs, hrun, ht, State.WithResult]
  · intro ht
    simp [MapIndex, Func_run_ok _ s hs, hrun, ht]
  · rfl

/-- The literal "c" matched from offset 1 of "ac", by C22: the transform receives
the start offset 1, while the state ends at offset 2. -/
theorem MapIndex_contract_witness :
    (MapIndex (Match.String [99]) fun _ index => Value.int index).Run
        ((start [97, 99]).WithResult (Value.str [97]) 1) =
      some { Result := Value.int 1, Index := 2, Source := [97, 99], IsError := false,
             Err := none } :=
  (MapIndex_contract (Match.String [99]) (fun _ index => Value.int index) id
    ((start [97, 99]).WithResult (Value.str [97]) 1) _ rfl rfl).1 rfl

/-! ## `ApplyN` -/

/-- The loop of `ApplyN` when `parser` succeeds in every round left. -/
theorem ApplyN_loop_all (n : Int) (parser : Parser) (state : State) :
    ∀ (i : Nat) (next : State) (results : List Value) (ss : List State),
      SucceedInTurn (List.replicate i parser) next ss →
      ApplyN.loop n parser state i next results =
        some (state.WithResult (Value.list (results ++ ss.map State.Result))
          (reached next ss).Index)
  | 0, next, results, [], _ => by simp [ApplyN.loop, reached]
  | 0, _, _, _ :: _, h => by simp [SucceedInTurn] at h
  | _ + 1, _, _, [], h => by simp [List.replicate, SucceedInTurn] at h
  | i + 1, next, results, t :: ts, h => by
    simp only [List.replicate, SucceedInTurn] at h
    obtain ⟨hrun, hok, hrest⟩ := h
    have ih := ApplyN_loop_all n parser state i t (results ++ [t.Result]) ts hrest
    simp [ApplyN.loop, hrun, hok, ih, reached]

/-- The loop of `ApplyN` when `parser` fails after `k` successes, rounds being left. -/
theorem ApplyN_loop_fails (n : Int) (parser : Parser) (state : State) :
    ∀ (k i : Nat) (next : State) (results : List Value) (ss : List State) (bad : State),
      SucceedInTurn (List.replicate k parser) next ss →
      parser.Run (reached next ss) = some bad → bad.IsError = true → k < i →
      ApplyN.loop n parser state i next results =
        some (state.WithError (some (Error.Errorf "failed to match %v times" (Value.int n))))
  | _, 0, _, _, _, _, _, _, _, hk => by omega
  | 0, i + 1, next, results, [], bad, _, hb, hbe, _ => by
    simp [reached] at hb
    simp [ApplyN.loop, hb, hbe]
  | 0, _ + 1, _, _, _ :: _, _, h, _, _, _ => by simp [SucceedInTurn] at h
  | _ + 1, _ + 1, _, _, [], _, h, _, _, _ => by simp [List.replicate, SucceedInTurn] at h
  | k + 1, i + 1, next, results, t :: ts, bad, h, hb, hbe, hk => by
    simp only [List.replicate, SucceedInTurn] at h
    obtain ⟨hrun, hok, hrest⟩ := h
    have ih := ApplyN_loop_fails n parser state k i t (results ++ [t.Result]) ts bad hrest
      (by simpa [reached] using hb) hbe (by omega)
    simp [ApplyN.loop, hrun, hok, ih]

/-- Claim C23. On a non-failed state `s` and for `n ≥ 0`: when `parser` succeeds `n`
times in a row, giving the states `ss`, `ApplyN n parser` returns a non-failed state
with the `n` results in order and the `Index` of the last success; when it fails
after `k < n` successes, `ApplyN n parser` returns `s` marked failed, with the
`Index` and `Result` of `s`. -/
theorem ApplyN_contract (n : Nat) (parser : Parser) (s : State) (ss : List State)
    (hs : s.IsError = false) :
    (SucceedInTurn (List.replicate n parser) s ss →
      ss.length = n ∧
      (ApplyN n parser).Run s =
        some { Result := Value.list (ss.map State.Result), Index := (reached s ss).Index,
               Source := s.Source, IsError := false, Err := s.Err }) ∧
    (∀ k bad, k < n → SucceedInTurn (List.replicate k parser) s ss →
      parser.Run (reached s ss) = some bad → bad.IsError = true →
      (ApplyN n parser).Run s =
        some { Result := s.Result, Index := s.Index, Source := s.Source, IsError := true,
               Err := some (Error.Errorf "failed to match %v times" (Value.int n)) }) := by
  constructor
  · intro h
    refine ⟨by simpa using SucceedInTurn_length _ _ _ h, ?_⟩
    have := ApplyN_loop_all n parser s n s [] ss h
    simp [ApplyN, Func_run_ok _ s hs, this, State.WithResult, hs]
  · intro k bad hk h hb hbe
    have := ApplyN_loop_fails n parser s k n s [] ss bad h hb hbe hk
    simp [ApplyN, Func_run_ok _ s hs, this, State.WithError]

/-- Two and three spaces asked of "  x", by C23: two succeed at offset 2, three
fail back at offset 0. -/
theorem ApplyN_contract_witness :
    (ApplyN 2 (Match.Rune isBlank none)).Run (start [32, 32, 120]) =
      some { Result := Value.list [Value.rune 32, Value.rune 32], Index := 2,
             Source := [32, 32, 120], IsError := false, Err := none } ∧
    (ApplyN 3 (Match.Rune isBlank none)).Run (start [32, 32, 120]) =
      some { Result := Value.nil, Index := 0, Source := [32, 32, 120], IsError := true,
             Err := some (Error.Errorf "failed to match %v times" (Value.int 3)) } :=
  ⟨((ApplyN_contract 2 (Match.Rune isBlank none) (start [32, 32, 120])
      [(start [32, 32, 120]).WithResult (Value.rune 32) 1,
        (start [32, 32, 120]).WithResult (Value.rune 32) 2] rfl).1
      ⟨rfl, rfl, rfl, rfl, trivial⟩).2,
    (ApplyN_contract 3 (Match.Rune isBlank none) (start [32, 32, 120])
      [(start [32, 32, 120]).WithResult (Value.rune 32) 1,
        (start [32, 32, 120]).WithResult (Value.rune 32) 2] rfl).2 2
      (((start [32, 32, 120]).WithResult (Value.rune 32) 2).WithError none) (by decide)
      ⟨rfl, rfl, rfl, rfl, trivial⟩ rfl rfl⟩

/-! ## Termination of `Many` and `Many1` -/

/-- A chain of successes of one parser, one success longer. -/
theorem SucceedInTurn_snoc (parser : Parser) (u : State) : ∀ (ss : List State) (s : State),
    SucceedInTurn (List.replicate ss.length parser) s ss →
    parser.Run (reached s ss) = some u → u.IsError = false →
      SucceedInTurn (List.replicate (ss.length + 1) parser) s (ss ++ [u]) ∧
        reached s (ss ++ [u]) = u
  | [], s, _, hrun, hok => by
    simp only [reached] at hrun
    exact ⟨⟨hrun, hok, trivial⟩, rfl⟩
  | t :: ts, s, h, hrun, hok => by
    simp only [List.length_cons, List.replicate, SucceedInTurn, reached] at h hrun
    obtain ⟨ih1, ih2⟩ := SucceedInTurn_snoc parser u ts t h.2.2 hrun hok
    exact ⟨⟨h.1, h.2.1, ih1⟩, ih2⟩

/-- The loop is at its entry state to begin with. -/
theorem Visits_entry (parser : Parser) (s : State) : Visits parser s s :=
  ⟨[], trivial, rfl⟩

/-- A success of the parser on a state the loop has come to takes the loop to the
state returned. -/
theorem Visits_step (parser : Parser) (s t u : State) (h : Visits parser s t)
    (hrun : parser.Run t = some u) (hok : u.IsError = false) : Visits parser s u := by
  obtain ⟨ss, hss, rfl⟩ := h
  obtain ⟨h1, h2⟩ := SucceedInTurn_snoc parser u ss s hss hrun hok
  exact ⟨ss ++ [u], by rw [List.length_append]; exact h1, h2⟩

/-- The states the loop comes to from a non-failed state are not failed. -/
theorem Visits_ok (parser : Parser) (s t : State) (hs : s.IsError = false)
    (h : Visits parser s t) : t.IsError = false := by
  obtain ⟨ss, hss, rfl⟩ := h
  exact reached_ok _ s ss hs hss

/-- A chain of successes of a parser that keeps the source ends over the source it
started from. -/
theorem reached_source (parser : Parser)
    (hkeep : ∀ t u, t.IsError = false → parser.Run t = some u → u.IsError = false →
      u.Source = t.Source) :
    ∀ (ss : List State) (s : State), s.IsError = false →
      SucceedInTurn (List.replicate ss.length parser) s ss → (reached s ss).Source = s.Source
  | [], _, _, _ => rfl
  | t :: ts, s, hs, h => by
    simp only [List.length_cons, List.replicate, SucceedInTurn] at h
    simp only [reached]
    rw [reached_source parser hkeep ts t h.2.1 h.2.2]
    exact hkeep s t hs h.1 h.2.1

/-- The loop of a parser that keeps the source stays over the source of its entry
state. -/
theorem Visits_source (parser : Parser)
    (hkeep : ∀ t u, t.IsError = false → parser.Run t = some u → u.IsError = false →
      u.Source = t.Source)
    (s t : State) (hs : s.IsError = false) (h : Visits parser s t) :
    t.Source = s.Source := by
  obtain ⟨ss, hss, rfl⟩ := h
  exact reached_source parser hkeep ss s hs hss

/-- A chain of successes of a parser that, on the states the loop comes to, moves
strictly forward and stays within `L`, is no longer than the distance from the
offset it starts at to `L`. -/
theorem SucceedInTurn_bound (L : Nat) (parser : Parser) (s : State) (hs : s.IsError = false)
    (hadv : ∀ t u, Visits parser s t → parser.Run t = some u → u.IsError = false →
      t.Index < u.Index ∧ u.Index ≤ (L : Int)) :
    ∀ (k : Nat) (t : State) (ss : List State), Visits parser s t →
      SucceedInTurn (List.replicate k parser) t ss → k ≤ ((L : Int) - t.Index).toNat
  | 0, _, _, _, _ => Nat.zero_le _
  | _ + 1, _, [], _, h => by simp [List.replicate, SucceedInTurn] at h
  | k + 1, t, u :: us, hv, h => by
    simp only [List.replicate, SucceedInTurn] at h
    obtain ⟨hrun, hok, hrest⟩ := h
    have := hadv t u hv hrun hok
    have := SucceedInTurn_bound L parser s hs hadv k u us (Visits_step parser s t u hv hrun hok)
      hrest
    omega

/-- The loop of `Many` returns when `parser` returns, moves strictly forward and
stays within `L` on the states that satisfy `I`, a property it keeps; the results
it adds are no more than the distance from the entry offset to `L`. -/
theorem Many_loop_returns (L : Nat) (parser : Parser) (I : State → Prop)
    (hret : ∀ s, I s → s.IsError = false → ∃ t, parser.Run s = some t)
    (hadv : ∀ s t, I s → s.IsError = false → parser.Run s = some t → t.IsError = false →
      I t ∧ s.Index < t.Index ∧ t.Index ≤ (L : Int)) :
    ∀ (fuel : Nat) (s : State) (results : List Value), I s → s.IsError = false →
      ((L : Int) - s.Index).toNat < fuel →
      ∃ st out, Many.loop parser fuel s results = some (st, out) ∧
        out.length ≤ results.length + ((L : Int) - s.Index).toNat
  | 0, _, _, _, _, h => by omega
  | fuel + 1, s, results, hI, hs, hfuel => by
    obtain ⟨t, ht⟩ := hret s hI hs
    by_cases hte : t.IsError = true
    · exact ⟨s, results, by simp [Many.loop, ht, hte], by omega⟩
    · have hok : t.IsError = false := by simpa using hte
      obtain ⟨hIt, h1, h2⟩ := hadv s t hI hs ht hok
      obtain ⟨st, out, hl, hlen⟩ := Many_loop_returns L parser I hret hadv fuel t
        (results ++ [t.Result]) hIt hok (by omega)
      refine ⟨st, out, by simp [Many.loop, ht, hok, hl], ?_⟩
      simp at hlen
      omega

/-- `Many` and `Many1` return as soon as their loop does. -/
theorem Many_returns_of_loop (fuel : Nat) (parser : Parser) (s st : State)
    (out : List Value) (hs : s.IsError = false)
    (hl : Many.loop parser fuel s [] = some (st, out)) :
    (Many fuel parser).Run s =
        some { Result := Value.list out, Index := st.Index, Source := st.Source,
               IsError := false, Err := st.Err } ∧
    ∃ o, (Many1 fuel parser).Run s = some o := by
  have hst := Many_loop_state_ok parser fuel s st [] out hs hl
  constructor
  · simp [Many, Func_run_ok _ s hs, hl, State.WithResult, hst]
  · rw [Many1, Func_run_ok _ s hs]
    simp only [hl]
    split_ifs
    · exact ⟨_, rfl⟩
    · exact ⟨_, rfl⟩

/-- The rune matcher returns on every non-failed state; when it succeeds it keeps
the source, moves strictly forward and stays within the source. -/
theorem Rune_progress (fn : Int → Bool) (errVal : Option Error) (t : State)
    (ht : t.IsError = false) :
    ∃ u, (Match.Rune fn errVal).Run t = some u ∧
      (u.IsError = false →
        u.Source = t.Source ∧ t.Index < u.Index ∧ u.Index ≤ (t.Source.length : Int)) := by
  obtain ⟨r, n, err, h⟩ := ReadNextRune_returns t
  simp only [Match.Rune, Func_run_ok _ t ht, h]
  split_ifs with hc
  · exact ⟨_, rfl, fun hu => by simp [State.WithError] at hu⟩
  · refine ⟨_, rfl, fun _ => ?_⟩
    have herr : err = none := by
      cases err with
      | none => rfl
      | some e => simp at hc
    subst herr
    obtain ⟨h1, _, _, hle, _⟩ := ReadNextRune_ok t r n h
    refine ⟨rfl, ?_, ?_⟩
    · simp only [State.WithResult]; omega
    · simp only [State.WithResult]; exact hle

/-- The rune matcher fails at a negative offset. -/
theorem Rune_fails_at_negative (fn : Int → Bool) (errVal : Option Error) (st : State)
    (hs : st.IsError = false) (hneg : st.Index < 0) :
    (Match.Rune fn errVal).Run st = some (st.WithError errVal) := by
  obtain ⟨r, n, err, h⟩ := ReadNextRune_returns st
  cases err with
  | none =>
    have := (ReadNextRune_ok st r n h).2.2.1
    omega
  | some e => simp [Match.Rune, Func_run_ok _ st hs, h]

/-- The loop of `Many` over the rune matcher returns on every source, in no more
rounds than the source has bytes, plus one. -/
theorem Many_Rune_loop_returns (fn : Int → Bool) (errVal : Option Error) (st : State)
    (fuel : Nat) (hs : st.IsError = false) (hfuel : st.Source.length < fuel) :
    ∃ s1 out, Many.loop (Match.Rune fn errVal) fuel st [] = some (s1, out) := by
  by_cases hneg : st.Index < 0
  · obtain ⟨m, rfl⟩ : ∃ m, fuel = m + 1 := ⟨fuel - 1, by omega⟩
    exact ⟨st, [], by
      simp [Many.loop, Rune_fails_at_negative fn errVal st hs hneg, State.WithError]⟩
  · obtain ⟨s1, out, hl, _⟩ := Many_loop_returns st.Source.length (Match.Rune fn errVal)
      (fun s => s.Source = st.Source)
      (fun s _ hs1 => by
        obtain ⟨u, hu, _⟩ := Rune_progress fn errVal s hs1
        exact ⟨u, hu⟩)
      (fun s t hI hs1 hrun ht => by
        obtain ⟨u, hu, hp⟩ := Rune_progress fn errVal s hs1
        rw [hu] at hrun
        cases hrun
        obtain ⟨a, b, c⟩ := hp ht
        have hsrc : s.Source = st.Source := hI
        refine ⟨a.trans hsrc, b, ?_⟩
        rw [← hsrc]
        exact c)
      fuel st [] rfl hs (by omega)
    exact ⟨s1, out, hl⟩

/-- Claim C24. Let `s` be a non-failed state over a source of length `L`, and let
`parser`, on every state the loop of `Many parser` comes to from `s`, return, and on
each success there return an `Index` above the one given and at most `L`.  Then from
`s` it succeeds at most `L - s.Index` times in a row (none when that is negative),
and `Many` and `Many1`, allowed more rounds than that, return, `Many` with at most
that many results.  In particular `Many` and `Many1` of `match.Rune`, and `Many` of
`match.Space`, return on every source, allowed more rounds than it has bytes. -/
theorem Many_terminates (parser : Parser) (s : State) (fuel : Nat)
    (hs : s.IsError = false)
    (hret : ∀ t, Visits parser s t → ∃ u, parser.Run t = some u)
    (hadv : ∀ t u, Visits parser s t → parser.Run t = some u → u.IsError = false →
      t.Index < u.Index ∧ u.Index ≤ (s.Source.length : Int))
    (hfuel : ((s.Source.length : Int) - s.Index).toNat < fuel) :
    (∀ k ss, SucceedInTurn (List.replicate k parser) s ss →
      k ≤ ((s.Source.length : Int) - s.Index).toNat) ∧
    (∃ out vs, (Many fuel parser).Run s = some out ∧ out.IsError = false ∧
      out.Result = Value.list vs ∧ vs.length ≤ ((s.Source.length : Int) - s.Index).toNat) ∧
    (∃ out, (Many1 fuel parser).Run s = some out) ∧
    (∀ fn errVal st fuel1, st.IsError = false → st.Source.length < fuel1 →
      (∃ out, (Many fuel1 (Match.Rune fn errVal)).Run st = some out) ∧
      ∃ out, (Many1 fuel1 (Match.Rune fn errVal)).Run st = some out) ∧
    (∀ isSpace st fuel1, st.IsError = false → st.Source.length < fuel1 →
      ∃ out, (Many fuel1 (Match.Space isSpace)).Run st = some out) := by
  obtain ⟨st, out, hl, hlen⟩ := Many_loop_returns s.Source.length parser (Visits parser s)
    (fun t hv _ => hret t hv)
    (fun t u hv _ hrun hu => ⟨Visits_step parser s t u hv hrun hu, hadv t u hv hrun hu⟩)
    fuel s [] (Visits_entry parser s) hs hfuel
  obtain ⟨hmany, hmany1⟩ := Many_returns_of_loop fuel parser s st out hs hl
  refine ⟨fun k ss h =>
      SucceedInTurn_bound s.Source.length parser s hs hadv k s ss (Visits_entry parser s) h,
    ⟨_, out, hmany, rfl, rfl, by simpa using hlen⟩, hmany1, ?_, ?_⟩
  · intro fn errVal st1 fuel1 hs1 hf1
    obtain ⟨s1, o1, hl1⟩ := Many_Rune_loop_returns fn errVal st1 fuel1 hs1 hf1
    obtain ⟨ha, hb⟩ := Many_returns_of_loop fuel1 _ st1 s1 o1 hs1 hl1
    exact ⟨⟨_, ha⟩, hb⟩
  · intro isSpace st1 fuel1 hs1 hf1
    obtain ⟨s1, o1, hl1⟩ := Many_Rune_loop_returns isSpace
      (some (Error.New "unable to match a space")) st1 fuel1 hs1 hf1
    exact ⟨_, (Many_returns_of_loop fuel1 _ st1 s1 o1 hs1 hl1).1⟩

/-- The matcher of a non-empty literal returns on every non-failed state; when it
succeeds it keeps the source, moves strictly forward and stays within the source. -/
theorem String_progress (lit : List UInt8) (hlit : lit ≠ []) (t : State)
    (ht : t.IsError = false) :
    ∃ u, (Match.String lit).Run t = some u ∧
      (u.IsError = false →
        u.Source = t.Source ∧ t.Index < u.Index ∧ u.Index ≤ (t.Source.length : Int)) := by
  have hpos : 0 < lit.length := List.length_pos.mpr hlit
  rw [String_run lit t ht]
  by_cases hc : Readable t.Source lit.length t.Index ∧ lit <+: t.Source.drop t.Index.toNat
  · rw [if_pos hc]
    obtain ⟨⟨h0, h1, h2⟩, _⟩ := hc
    exact ⟨_, rfl, fun _ => ⟨rfl, by simp only; omega, by simp only; omega⟩⟩
  · rw [if_neg hc]
    exact ⟨_, rfl, fun hu => by simp at hu⟩

/-- The matcher of "a" on "aab", by C24: on the states the loop comes to it returns
and each success moves it forward within the three bytes, so `Many` of it returns,
with at most three results; it returns the two it found, at offset 2. -/
theorem Many_terminates_witness :
    (Many 4 (Match.String [97])).Run (start [97, 97, 98]) =
      some { Result := Value.list [Value.str [97], Value.str [97]], Index := 2,
             Source := [97, 97, 98], IsError := false, Err := none } ∧
    ∃ out vs, (Many 4 (Match.String [97])).Run (start [97, 97, 98]) = some out ∧
      out.IsError = false ∧ out.Result = Value.list vs ∧
      vs.length ≤ (((start [97, 97, 98]).Source.length : Int) - (start [97, 97, 98]).Index).toNat :=
  ⟨rfl,
    (Many_terminates (Match.String [97]) (start [97, 97, 98]) 4 rfl
      (fun t hv => by
        obtain ⟨u, hu, _⟩ := String_progress [97] (by decide) t
          (Visits_ok _ _ t rfl hv)
        exact ⟨u, hu⟩)
      (fun t u hv hrun hu => by
        have hok := Visits_ok _ _ t rfl hv
        have hsrc := Visits_source (Match.String [97])
          (fun a b ha hab hb => by
            obtain ⟨c, hc, hp⟩ := String_progress [97] (by decide) a ha
            rw [hc] at hab
            cases hab
            exact (hp hb).1)
          (start [97, 97, 98]) t rfl hv
        obtain ⟨c, hc, hp⟩ := String_progress [97] (by decide) t hok
        rw [hc] at hrun
        cases hrun
        obtain ⟨_, b, c⟩ := hp hu
        rw [hsrc] at c
        exact ⟨b, c⟩)
      (by decide)).2.1⟩

/-! ## `EndOfInput` with a byte left -/

/-- Claim C25, at inputs where the code departs from it.  On the one-byte input
"x", at offset 0 with that byte unread, `EndOfInput` succeeds: its probe reads at
offset 1, one byte past the current one.  Likewise after "a" of "ab" it succeeds at
offset 1 with "b" unread (the sequence repeats the result "a", as `EndOfInput`
returns the state it was given). -/
theorem EndOfInput_succeeds_before_last_byte :
    EndOfInput.Run (start [120]) = some (start [120]) ∧
    (SequenceOf (Match.String [97]) [EndOfInput]).Run (start [97, 98]) =
      some { Result := Value.list [Value.str [97], Value.str [97]], Index := 1,
             Source := [97, 98], IsError := false, Err := none } :=
  ⟨rfl, rfl⟩

end parse
